import Mathlib

/-!
# CasaOS directory-listing sort (`model/zima.go`)

Shallow embedding of `Path`, `getFileType` and `PathList.Sort`, followed by the
properties of the listing order.

Conventions of the embedding

* `time.Time` is represented by its instant (an integer count of nanoseconds);
  `Equal` and `Before` only look at the instant.
* `int64` sizes are integers; the sort performs no arithmetic on them.
* Go compares strings bytewise; on valid UTF-8 this is the lexicographic order of
  the code points (`stringLess`), which is the order `<` of `String`.
* `natural.Less` (package `github.com/maruel/natural`) is a dependency.  The
  comparison closure and the sort take the natural order as the argument `nl`, so
  that a property that does not depend on it is stated for every `nl`.
  `natural.Less` below follows the source of the package and instantiates `nl`;
  it is not a strict weak order on all strings (`"1"`, `"1a"`, `"01b"` form a
  cycle, `"file01.txt"` and `"file1.txt"` are not ordered either way).
  `naturalLess` is the natural order as the specification describes it (digit runs
  as integers, the rest as plain text), a strict weak order.
* `sort.Slice` is the routine of the Go standard library (`sort/zsortfunc.go`,
  pattern-defeating quicksort): insertion sort on at most twelve elements, heap
  sort when the recursion limit is used up, otherwise pivot choice, partial
  insertion sort, and partition.  It works on indices: the closure is called with
  two indices of the slice in its current state, and the slice is changed by
  swaps only.  The pseudo-random generator it uses to break patterns is the
  argument `rnd`.
* `filepath.Ext` and `strings.ToLower` are represented on the characters of the
  name.  `strings.ToLower` folds the ASCII letters itself and maps every other
  character through `unicode.ToLower`, whose case table is the argument `ul`.
-/

set_option linter.dupNamespace false

namespace CasaOS

/-! ## Data model -/

/-- Entry of a directory listing (`type Path struct`). -/
structure Path where
  Name : String
  Path : String
  IsDir : Bool
  Date : Int
  Size : Int
  Type_ : String
  Label : String
  Write : Bool
  Extensions : List (String × String)
deriving DecidableEq

/-- Slice of entries (`type PathList []Path`). -/
abbrev PathList := List Path

/-! ## Library routines used by the source -/

/-- Scan of `filepath.Ext` from the last byte towards the first: `acc` is the part
of the name already passed.  The scan stops with no extension at a path separator
and returns the suffix starting at the first dot it meets. -/
def extScan : List Char → List Char → List Char
  | [], _ => []
  | c :: rest, acc =>
    if c = '/' then []
    else if c = '.' then '.' :: acc
    else extScan rest (c :: acc)

/-- Function `filepath.Ext`: the suffix beginning at the final dot of the final
element of the path, empty when there is no dot. -/
def filepathExt (name : String) : String :=
  ⟨extScan name.data.reverse []⟩

/-- Function `unicode.ToLower` on one character: an ASCII capital letter is moved
to its small letter, another ASCII character is kept, and a character above
`unicode.MaxASCII` is looked up in the case table `ul`. -/
def unicodeToLower (ul : Char → Char) (c : Char) : Char :=
  if c.toNat < 128 then c.toLower else ul c

/-- Function `strings.ToLower`: `unicode.ToLower` on every character. -/
def toLower (ul : Char → Char) (s : String) : String :=
  ⟨s.data.map (unicodeToLower ul)⟩

/-- The order `<` of Go on two strings, on their characters: the first position
where they differ decides, and a proper initial segment is smaller. -/
def charsLess : List Char → List Char → Bool
  | _, [] => false
  | [], _ :: _ => true
  | a :: as, b :: bs =>
    if a.toNat < b.toNat then true
    else if b.toNat < a.toNat then false
    else charsLess as bs

/-- Comparison `a < b` of two Go strings. -/
def stringLess (a b : String) : Bool :=
  charsLess a.data b.data

/-! ## The natural order of `github.com/maruel/natural` -/

/-- Function `commonPrefix`: the length of the longest common initial segment of
two strings that contains no digit. -/
def natural.commonPrefix : List Char → List Char → Nat
  | ca :: a, cb :: b =>
    if ca.isDigit || cb.isDigit || ca != cb then 0 else natural.commonPrefix a b + 1
  | _, _ => 0

/-- Function `digits`: the number of digits at the start of a string. -/
def natural.digits : List Char → Nat
  | c :: s => if c.isDigit then natural.digits s + 1 else 0
  | [] => 0

/-- Value of a string of digits (`strconv.ParseUint(s, 10, 64)` without the
overflow check). -/
def natural.digitsValue (s : List Char) : Nat :=
  s.foldl (fun v c => 10 * v + (c.toNat - 48)) 0

/-- Loop of `natural.Less`; every pass that continues removes at least one
character from `a`, and `fuel` bounds the number of passes. -/
def natural.lessLoop : Nat → List Char → List Char → Bool
  | 0, a, b => charsLess a b
  | fuel + 1, a, b =>
    let p := natural.commonPrefix a b
    let a := a.drop p
    let b := b.drop p
    if a.length = 0 then b.length != 0
    else
      let ia := natural.digits a
      let ib := natural.digits b
      if 0 < ia ∧ 0 < ib then
        let an := natural.digitsValue (a.take ia)
        let bn := natural.digitsValue (b.take ib)
        if an < 2 ^ 64 ∧ bn < 2 ^ 64 then
          if an ≠ bn then decide (an < bn)
          else if ia ≠ a.length ∧ ib ≠ b.length then
            natural.lessLoop fuel (a.drop ia) (b.drop ib)
          else charsLess a b
        else charsLess a b
      else charsLess a b

/-- Function `natural.Less`: digit runs are compared as numbers (when both fit in
64 bits), the text between them as plain strings. -/
def natural.Less (a b : String) : Bool :=
  natural.lessLoop (a.data.length + 1) a.data b.data

/-! ## The routine `sort.Slice` of the Go standard library (`sort/zsortfunc.go`)

The slice is a list; `lessIdx data i j` is the call `less(i, j)` of the closure on
the current contents and `swapIdx` the call `data.Swap(i, j)`.  Both check their
indices: `none` stands for the run-time panic.  Loops carry a bound on the number
of passes (`fuel`); running out of it also gives `none`.  The pseudo-random
generator of `breakPatterns_func` (method `(*xorshift).Next`: three shifts and
exclusive-ors of a 64-bit word, whose shift constants are data of the library
release) is the argument `rnd`; no property below depends on it. -/

/-- Call `data.Swap(i, j)`. -/
def swapIdx {α : Type} (data : List α) (i j : Nat) : Option (List α) :=
  match data[i]?, data[j]? with
  | some u, some v => some ((data.set i v).set j u)
  | _, _ => none

/-- Loop `for j := i; j > a && less(j, j-1); j-- { Swap(j, j-1) }`. -/
def shiftLeft {α : Type} (lessIdx : List α → Nat → Nat → Option Bool) (a : Nat) :
    Nat → List α → Option (List α)
  | 0, data => some data
  | j + 1, data =>
    if a < j + 1 then
      match lessIdx data (j + 1) j with
      | none => none
      | some false => some data
      | some true =>
        match swapIdx data (j + 1) j with
        | none => none
        | some data1 => shiftLeft lessIdx a j data1
    else some data

/-- Loop `for i := ...; i < b; i++ { shiftLeft from i }` of `insertionSort_func`:
`n` passes remain and the next index is `i`. -/
def insertionPasses {α : Type} (lessIdx : List α → Nat → Nat → Option Bool) (a : Nat) :
    Nat → Nat → List α → Option (List α)
  | 0, _, data => some data
  | n + 1, i, data =>
    match shiftLeft lessIdx a i data with
    | none => none
    | some data1 => insertionPasses lessIdx a n (i + 1) data1

/-- Routine `insertionSort_func(data, a, b)`. -/
def insertionSort_func {α : Type} (lessIdx : List α → Nat → Nat → Option Bool)
    (data : List α) (a b : Nat) : Option (List α) :=
  insertionPasses lessIdx a (b - (a + 1)) (a + 1) data

/-- Routine `siftDown_func(data, lo, hi, first)`, from the node `root`. -/
def siftDown_func {α : Type} (lessIdx : List α → Nat → Nat → Option Bool)
    (hi first : Nat) : Nat → Nat → List α → Option (List α)
  | 0, _, _ => none
  | fuel + 1, root, data =>
    let child := 2 * root + 1
    if hi ≤ child then some data
    else
      match (if child + 1 < hi then lessIdx data (first + child) (first + child + 1)
             else some false) with
      | none => none
      | some up =>
        let child := if up then child + 1 else child
        match lessIdx data (first + root) (first + child) with
        | none => none
        | some false => some data
        | some true =>
          match swapIdx data (first + root) (first + child) with
          | none => none
          | some data1 => siftDown_func lessIdx hi first fuel child data1

/-- First loop of `heapSort_func`: `for i := (hi-1)/2; i >= 0; i--`, with `n`
passes remaining, the next one at `i = n - 1`. -/
def heapBuild {α : Type} (lessIdx : List α → Nat → Nat → Option Bool) (hi first : Nat) :
    Nat → List α → Option (List α)
  | 0, data => some data
  | n + 1, data =>
    match siftDown_func lessIdx hi first (hi + 1) n data with
    | none => none
    | some data1 => heapBuild lessIdx hi first n data1

/-- Second loop of `heapSort_func`: `for i := hi-1; i >= 0; i--`, with `n` passes
remaining, the next one at `i = n - 1`. -/
def heapPop {α : Type} (lessIdx : List α → Nat → Nat → Option Bool) (first : Nat) :
    Nat → List α → Option (List α)
  | 0, data => some data
  | n + 1, data =>
    match swapIdx data first (first + n) with
    | none => none
    | some data1 =>
      match siftDown_func lessIdx n first (n + 1) 0 data1 with
      | none => none
      | some data2 => heapPop lessIdx first n data2

/-- Routine `heapSort_func(data, a, b)`. -/
def heapSort_func {α : Type} (lessIdx : List α → Nat → Nat → Option Bool)
    (data : List α) (a b : Nat) : Option (List α) :=
  match heapBuild lessIdx (b - a) a ((b - a - 1) / 2 + 1) data with
  | none => none
  | some data1 => heapPop lessIdx a (b - a) data1

/-- Loop `for i <= j && less(i, a) { i++ }` when `want` is true, and
`for i <= j && !less(a, i) { i++ }` (arguments exchanged) when `flip` is set;
returns the final `i`. -/
def scanUp {α : Type} (lessIdx : List α → Nat → Nat → Option Bool) (data : List α)
    (a j : Nat) (flip : Bool) : Nat → Nat → Option Nat
  | 0, _ => none
  | fuel + 1, i =>
    if i ≤ j then
      match (if flip then lessIdx data a i else lessIdx data i a) with
      | none => none
      | some r => if r != flip then scanUp lessIdx data a j flip fuel (i + 1) else some i
    else some i

/-- Loop `for i <= j && !less(j, a) { j-- }`, and `for i <= j && less(a, j) { j-- }`
when `flip` is set; returns the final `j`. -/
def scanDown {α : Type} (lessIdx : List α → Nat → Nat → Option Bool) (data : List α)
    (a i : Nat) (flip : Bool) : Nat → Nat → Option Nat
  | 0, _ => none
  | fuel + 1, j =>
    if i ≤ j then
      match (if flip then lessIdx data a j else lessIdx data j a) with
      | none => none
      | some r => if r == flip then scanDown lessIdx data a i flip fuel (j - 1) else some j
    else some j

/-- Loop `for { scan up; scan down; if i > j break; Swap(i, j); i++; j-- }` shared
by `partition_func` and `partitionEqual_func`; returns the slice with the final
`i` and `j`. -/
def partitionLoop {α : Type} (lessIdx : List α → Nat → Nat → Option Bool) (a : Nat)
    (flip : Bool) : Nat → List α → Nat → Nat → Option (List α × Nat × Nat)
  | 0, _, _, _ => none
  | fuel + 1, data, i, j =>
    match scanUp lessIdx data a j flip (j + 2 - i) i with
    | none => none
    | some i1 =>
      match scanDown lessIdx data a i1 flip (j + 2 - i1) j with
      | none => none
      | some j1 =>
        if j1 < i1 then some (data, i1, j1)
        else
          match swapIdx data i1 j1 with
          | none => none
          | some data1 => partitionLoop lessIdx a flip fuel data1 (i1 + 1) (j1 - 1)

/-- Routine `partition_func(data, a, b, pivot)`: the slice, the new index of the
pivot and whether the range was already partitioned. -/
def partition_func {α : Type} (lessIdx : List α → Nat → Nat → Option Bool)
    (data : List α) (a b pivot : Nat) : Option (List α × Nat × Bool) :=
  match swapIdx data a pivot with
  | none => none
  | some data1 =>
    match scanUp lessIdx data1 a (b - 1) false (b + 1 - a) (a + 1) with
    | none => none
    | some i =>
      match scanDown lessIdx data1 a i false (b + 1 - i) (b - 1) with
      | none => none
      | some j =>
        if j < i then
          match swapIdx data1 j a with
          | none => none
          | some data2 => some (data2, j, true)
        else
          match swapIdx data1 i j with
          | none => none
          | some data2 =>
            match partitionLoop lessIdx a false (b + 1 - a) data2 (i + 1) (j - 1) with
            | none => none
            | some (data3, _, j3) =>
              match swapIdx data3 j3 a with
              | none => none
              | some data4 => some (data4, j3, false)

/-- Routine `partitionEqual_func(data, a, b, pivot)`: the slice and the index
after the elements equal to the pivot. -/
def partitionEqual_func {α : Type} (lessIdx : List α → Nat → Nat → Option Bool)
    (data : List α) (a b pivot : Nat) : Option (List α × Nat) :=
  match swapIdx data a pivot with
  | none => none
  | some data1 =>
    match partitionLoop lessIdx a true (b + 1 - a) data1 (a + 1) (b - 1) with
    | none => none
    | some (data2, i, _) => some (data2, i)

/-- Loop `for j := i + 1; j < b; j++ { if !less(j, j-1) break; Swap(j, j-1) }` of
`partialInsertionSort_func`, with `n` passes remaining. -/
def shiftRight {α : Type} (lessIdx : List α → Nat → Nat → Option Bool) :
    Nat → Nat → List α → Option (List α)
  | 0, _, data => some data
  | n + 1, j, data =>
    match lessIdx data j (j - 1) with
    | none => none
    | some false => some data
    | some true =>
      match swapIdx data j (j - 1) with
      | none => none
      | some data1 => shiftRight lessIdx n (j + 1) data1

/-- Loop `for i < b && !less(i, i-1) { i++ }` of `partialInsertionSort_func`. -/
def skipSorted {α : Type} (lessIdx : List α → Nat → Nat → Option Bool) (data : List α)
    (b : Nat) : Nat → Nat → Option Nat
  | 0, _ => none
  | fuel + 1, i =>
    if i < b then
      match lessIdx data i (i - 1) with
      | none => none
      | some true => some i
      | some false => skipSorted lessIdx data b fuel (i + 1)
    else some i

/-- Loop `for j := 0; j < maxSteps; j++` of `partialInsertionSort_func`, with
`steps` passes remaining. -/
def partialInsertionSteps {α : Type} (lessIdx : List α → Nat → Nat → Option Bool)
    (a b : Nat) : Nat → Nat → List α → Option (List α × Bool)
  | 0, _, data => some (data, false)
  | steps + 1, i, data =>
    match skipSorted lessIdx data b (b + 1 - i) i with
    | none => none
    | some i1 =>
      if i1 = b then some (data, true)
      else if b - a < 50 then some (data, false)
      else
        match swapIdx data i1 (i1 - 1) with
        | none => none
        | some data1 =>
          match (if 2 ≤ i1 - a then shiftLeft lessIdx 0 (i1 - 1) data1 else some data1) with
          | none => none
          | some data2 =>
            match (if 2 ≤ b - i1 then shiftRight lessIdx (b - (i1 + 1)) (i1 + 1) data2
                   else some data2) with
            | none => none
            | some data3 => partialInsertionSteps lessIdx a b steps i1 data3

/-- Routine `partialInsertionSort_func(data, a, b)`: the slice and whether it is
sorted at the end. -/
def partialInsertionSort_func {α : Type} (lessIdx : List α → Nat → Nat → Option Bool)
    (data : List α) (a b : Nat) : Option (List α × Bool) :=
  partialInsertionSteps lessIdx a b 5 (a + 1) data

/-- Function `bits.Len`: the number of bits of `n`. -/
def bitsLen (n : Nat) : Nat :=
  if n = 0 then 0 else Nat.log2 n + 1

/-- Loop `for i := 0; i < 3; i++` of `breakPatterns_func`, with `n` passes
remaining; `random` is the state of the generator and `rnd` its method `Next`. -/
def breakPatternsSwaps {α : Type} (rnd : Nat → Nat) (a length idx : Nat) :
    Nat → Nat → Nat → List α → Option (List α)
  | 0, _, _, data => some data
  | n + 1, i, random, data =>
    let random1 := rnd random
    let other := random1 &&& (2 ^ bitsLen length - 1)
    let other := if length ≤ other then other - length else other
    match swapIdx data (idx - 1 + i) (a + other) with
    | none => none
    | some data1 => breakPatternsSwaps rnd a length idx n (i + 1) random1 data1

/-- Routine `breakPatterns_func(data, a, b)`; `rnd` is the method `Next` of the
generator `xorshift`, started at the length of the range. -/
def breakPatterns_func {α : Type} (rnd : Nat → Nat) (data : List α) (a b : Nat) :
    Option (List α) :=
  if 8 ≤ b - a then
    breakPatternsSwaps rnd a (b - a) (a + (b - a) / 4 * 2 - 1) 3 0 (b - a) data
  else some data

/-- Function `order2_func`: the two indices in order and the number of swaps. -/
def order2_func {α : Type} (lessIdx : List α → Nat → Nat → Option Bool) (data : List α)
    (a b swaps : Nat) : Option (Nat × Nat × Nat) :=
  match lessIdx data b a with
  | none => none
  | some true => some (b, a, swaps + 1)
  | some false => some (a, b, swaps)

/-- Function `median_func`: the index of the median of three and the number of
swaps. -/
def median_func {α : Type} (lessIdx : List α → Nat → Nat → Option Bool) (data : List α)
    (a b c swaps : Nat) : Option (Nat × Nat) :=
  match order2_func lessIdx data a b swaps with
  | none => none
  | some (a1, b1, s1) =>
    match order2_func lessIdx data b1 c s1 with
    | none => none
    | some (b2, _, s2) =>
      match order2_func lessIdx data a1 b2 s2 with
      | none => none
      | some (_, b3, s3) => some (b3, s3)

/-- Function `choosePivot_func(data, a, b)`: the index of the pivot and the hint
(`0` unknown, `1` increasing, `2` decreasing). -/
def choosePivot_func {α : Type} (lessIdx : List α → Nat → Nat → Option Bool)
    (data : List α) (a b : Nat) : Option (Nat × Nat) :=
  let l := b - a
  let i := a + l / 4 * 1
  let j := a + l / 4 * 2
  let k := a + l / 4 * 3
  let hintOf : Nat → Nat := fun swaps => if swaps = 0 then 1 else if swaps = 12 then 2 else 0
  if 8 ≤ l then
    if 50 ≤ l then
      match median_func lessIdx data (i - 1) i (i + 1) 0 with
      | none => none
      | some (i1, s1) =>
        match median_func lessIdx data (j - 1) j (j + 1) s1 with
        | none => none
        | some (j1, s2) =>
          match median_func lessIdx data (k - 1) k (k + 1) s2 with
          | none => none
          | some (k1, s3) =>
            match median_func lessIdx data i1 j1 k1 s3 with
            | none => none
            | some (j2, s4) => some (j2, hintOf s4)
    else
      match median_func lessIdx data i j k 0 with
      | none => none
      | some (j2, s4) => some (j2, hintOf s4)
  else some (j, 1)

/-- Loop of `reverseRange_func`: `for i < j { Swap(i, j); i++; j-- }`. -/
def reverseLoop {α : Type} : Nat → Nat → Nat → List α → Option (List α)
  | 0, _, _, data => some data
  | fuel + 1, i, j, data =>
    if i < j then
      match swapIdx data i j with
      | none => none
      | some data1 => reverseLoop fuel (i + 1) (j - 1) data1
    else some data

/-- Routine `reverseRange_func(data, a, b)`. -/
def reverseRange_func {α : Type} (data : List α) (a b : Nat) : Option (List α) :=
  reverseLoop (b - a) a (b - 1) data

/-- Routine `pdqsort_func(data, a, b, limit)`: the loop with its two flags; a pass
of the loop and a recursive call both use one unit of `fuel`. -/
def pdqsort_func {α : Type} (rnd : Nat → Nat) (lessIdx : List α → Nat → Nat → Option Bool) :
    Nat → List α → Nat → Nat → Nat → Bool → Bool → Option (List α)
  | 0, _, _, _, _, _, _ => none
  | fuel + 1, data, a, b, limit, wasBalanced, wasPartitioned =>
    let length := b - a
    if length ≤ 12 then insertionSort_func lessIdx data a b
    else if limit = 0 then heapSort_func lessIdx data a b
    else
      match (if wasBalanced then some data else breakPatterns_func rnd data a b) with
      | none => none
      | some data1 =>
        let limit := if wasBalanced then limit else limit - 1
        match choosePivot_func lessIdx data1 a b with
        | none => none
        | some (pivot0, hint0) =>
          match (if hint0 = 2 then reverseRange_func data1 a b else some data1) with
          | none => none
          | some data2 =>
            let pivot := if hint0 = 2 then (b - 1) - (pivot0 - a) else pivot0
            let hint := if hint0 = 2 then 1 else hint0
            match (if wasBalanced && wasPartitioned && hint == 1
                   then partialInsertionSort_func lessIdx data2 a b
                   else some (data2, false)) with
            | none => none
            | some (data3, true) => some data3
            | some (data3, false) =>
              match (if 0 < a then lessIdx data3 (a - 1) pivot else some true) with
              | none => none
              | some false =>
                match partitionEqual_func lessIdx data3 a b pivot with
                | none => none
                | some (data4, mid) =>
                  pdqsort_func rnd lessIdx fuel data4 mid b limit wasBalanced wasPartitioned
              | some true =>
                match partition_func lessIdx data3 a b pivot with
                | none => none
                | some (data4, mid, alreadyPartitioned) =>
                  let leftLen := mid - a
                  let rightLen := b - mid
                  let balanceThreshold := length / 8
                  if leftLen < rightLen then
                    match pdqsort_func rnd lessIdx fuel data4 a mid limit true true with
                    | none => none
                    | some data5 =>
                      pdqsort_func rnd lessIdx fuel data5 (mid + 1) b limit
                        (decide (balanceThreshold ≤ leftLen)) alreadyPartitioned
                  else
                    match pdqsort_func rnd lessIdx fuel data4 (mid + 1) b limit true true with
                    | none => none
                    | some data5 =>
                      pdqsort_func rnd lessIdx fuel data5 a mid limit
                        (decide (balanceThreshold ≤ rightLen)) alreadyPartitioned

/-- Function `sort.Slice(x, less)` on indices: the slice after the call, or
`none` for a panic. -/
def sortSliceChecked {α : Type} (rnd : Nat → Nat) (x : List α)
    (lessIdx : List α → Nat → Nat → Option Bool) : Option (List α) :=
  pdqsort_func rnd lessIdx (x.length + 1) x 0 x.length (bitsLen x.length) true true

/-- Closure of entries as a closure of indices: `less(i, j)` reads the entries at
`i` and `j` of the slice in its current state. -/
def lessOf {α : Type} (less : α → α → Bool) (data : List α) (i j : Nat) : Option Bool :=
  match data[i]?, data[j]? with
  | some u, some v => some (less u v)
  | _, _ => none

/-- Call `sort.Slice(x, less)` for a closure that reads the two entries at its
indices: the slice after the call.  The routine returns for every slice and every
closure (`sortSliceChecked_some`), so the second alternative is never taken. -/
def sortSlice {α : Type} (rnd : Nat → Nat) (x : List α) (less : α → α → Bool) : List α :=
  match sortSliceChecked rnd x (lessOf less) with
  | some data => data
  | none => x

/-! ## The source: `getFileType` and `PathList.Sort` -/

/-- Function `getFileType`: the type tag used by the `type` ordering. -/
def getFileType (ul : Char → Char) (p : Path) : String :=
  if p.IsDir then "000_folder"
  else
    let ext := toLower ul (filepathExt p.Name)
    if ext = "" then "999_file"
    else ⟨ext.data.drop 1⟩

/-- Value of `result` after the `switch orderBy` of the comparison closure, for
the entries `p[i]` and `p[j]`. -/
def switchResult (nl : String → String → Bool) (ul : Char → Char) (orderBy : String)
    (pi pj : Path) : Bool :=
  if orderBy = "name" then nl pi.Name pj.Name
  else if orderBy = "size" then
    if pi.Size = pj.Size then nl pi.Name pj.Name
    else decide (pi.Size < pj.Size)
  else if orderBy = "modified" then
    if pi.Date = pj.Date then nl pi.Name pj.Name
    else decide (pi.Date < pj.Date)
  else if orderBy = "type" then
    if getFileType ul pi = getFileType ul pj then nl pi.Name pj.Name
    else stringLess (getFileType ul pi) (getFileType ul pj)
  else nl pi.Name pj.Name

/-- Comparison closure handed to `sort.Slice` by `PathList.Sort`, as a function of
the two entries `p[i]` and `p[j]`. -/
def less (nl : String → String → Bool) (ul : Char → Char) (orderBy orderDirection : String)
    (pi pj : Path) : Bool :=
  if orderBy ≠ "type" ∧ pi.IsDir = true ∧ pj.IsDir = false then true
  else if orderBy ≠ "type" ∧ pi.IsDir = false ∧ pj.IsDir = true then false
  else
    let result := switchResult nl ul orderBy pi pj
    if orderDirection = "desc" then !result else result

/-- Method `PathList.Sort`: the slice after the call. -/
def PathListSort (rnd : Nat → Nat) (nl : String → String → Bool) (ul : Char → Char)
    (p : PathList) (orderBy orderDirection : String) : PathList :=
  if orderBy = "" then p
  else sortSlice rnd p (less nl ul orderBy orderDirection)

/-! ## Vocabulary of the properties -/

/-- Strict weak order given as a Boolean comparison: irreflexive, transitive, and
with transitive incomparability. -/
structure StrictWeakOrder {α : Type} (lt : α → α → Bool) : Prop where
  irrefl : ∀ a, lt a a = false
  trans : ∀ a b c, lt a b = true → lt b c = true → lt a c = true
  incomp_trans : ∀ a b c, lt a b = false → lt b a = false → lt b c = false → lt c b = false →
    lt a c = false ∧ lt c a = false

/-- The comparison `lt` is a strict weak order on the strings of the list `S`:
irreflexive, transitive, and with transitive incomparability there. -/
def StrictWeakOrderOn (lt : String → String → Bool) (S : List String) : Prop :=
  (∀ a ∈ S, lt a a = false) ∧
  (∀ a ∈ S, ∀ b ∈ S, ∀ c ∈ S, lt a b = true → lt b c = true → lt a c = true) ∧
  (∀ a ∈ S, ∀ b ∈ S, ∀ c ∈ S, lt a b = false → lt b a = false → lt b c = false →
    lt c b = false → lt a c = false ∧ lt c a = false)

/-- The comparison `lt` decides any two different strings of the list `S`: one of
the two is before the other. -/
def DecidesOn (lt : String → String → Bool) (S : List String) : Prop :=
  ∀ a ∈ S, ∀ b ∈ S, a ≠ b → lt a b = true ∨ lt b a = true

/-- The comparison that agrees with `lt` on the strings of `S`, puts them before
every other string, and leaves the other strings unordered. -/
def orderOn (lt : String → String → Bool) (S : List String) (x y : String) : Bool :=
  if x ∈ S then (if y ∈ S then lt x y else true) else false

/-- The substring after the last `.` of a name (the whole name when it has no
dot), in the words of the specification; independent of `filepathExt`. -/
def afterLastDot (name : String) : String :=
  ⟨(name.data.reverse.takeWhile (fun c => decide (c ≠ '.'))).reverse⟩

/-- Part of the case table of `unicode.ToLower`: the capital letters of the
Latin-1 Supplement (`U+00C0` to `U+00DE`, without the sign `U+00D7`) have their
small letter 32 places further; used for the argument `ul` in the instances. -/
def lowerLatin1 (c : Char) : Char :=
  if 192 ≤ c.toNat ∧ c.toNat ≤ 222 ∧ c.toNat ≠ 215 then Char.ofNat (c.toNat + 32) else c

/-! ## Reference natural order -/

/-- Token of a name for the natural order: a non-digit character is the pair of
its code and `0`; a maximal run of digits is the pair of the code of `'0'` and the
value of the run. -/
def tokensFrom : Option Nat → List Char → List (Nat × Nat)
  | none, [] => []
  | some v, [] => [(48, v)]
  | none, c :: cs =>
    if c.isDigit then tokensFrom (some (c.toNat - 48)) cs
    else (c.toNat, 0) :: tokensFrom none cs
  | some v, c :: cs =>
    if c.isDigit then tokensFrom (some (10 * v + (c.toNat - 48))) cs
    else (48, v) :: (c.toNat, 0) :: tokensFrom none cs

/-- Strict order of two tokens: first component, then second. -/
def tokenLt (s t : Nat × Nat) : Bool :=
  decide (s.1 < t.1) || (decide (s.1 = t.1) && decide (s.2 < t.2))

/-- Lexicographic comparison of two token lists. -/
def tokensLt : List (Nat × Nat) → List (Nat × Nat) → Bool
  | [], [] => false
  | [], _ :: _ => true
  | _ :: _, [] => false
  | s :: ss, t :: ts =>
    if tokenLt s t then true
    else if tokenLt t s then false
    else tokensLt ss ts

/-- Modelled from the spec: the natural string order as the specification
describes it ("digit runs compared as integers, non-digit runs compared as plain
text"); a strict weak order, unlike `natural.Less`. -/
def naturalLess (a b : String) : Bool :=
  tokensLt (tokensFrom none a.data) (tokensFrom none b.data)

/-! ## Test data of the repository -/

/-- Entry with the fields the sort reads; the others are left empty. -/
def mkEntry (name : String) (isDir : Bool) (date size : Int) : Path :=
  { Name := name, Path := "/test/" ++ name, IsDir := isDir, Date := date, Size := size,
    Type_ := "", Label := "", Write := false, Extensions := [] }

/-- Fixture `createTestData` of `filesort_test.go`; dates are hours after the base
time. -/
def createTestData : PathList :=
  [ mkEntry "folder1" true 72 0,
    mkEntry "file10.txt" false 48 1024,
    mkEntry "file2.txt" false 24 2048,
    mkEntry "folder2" true 0 0,
    mkEntry "file1.txt" false 96 512,
    mkEntry "image.png" false 12 4096,
    mkEntry "document" false 6 1024 ]

/-- The five-entry scenario of the specification. -/
def scenarioData : PathList :=
  [ mkEntry "folder1" true 72 0,
    mkEntry "file10.txt" false 48 1024,
    mkEntry "file2.txt" false 24 2048,
    mkEntry "folder2" true 0 0,
    mkEntry "file1.txt" false 96 512 ]

/-- Names of the entries of a slice, in order. -/
def names (p : PathList) : List String :=
  p.map (fun e => e.Name)

/-- No two entries of the slice are tied for the key: at any two positions the
ascending comparison places one of the two entries strictly before the other. -/
def TieFree (nl : String → String → Bool) (ul : Char → Char) (orderBy : String)
    (p : PathList) : Prop :=
  p.Pairwise (fun a b => less nl ul orderBy "asc" a b = true ∨ less nl ul orderBy "asc" b a = true)

/-- Two files of the same name found in two folders. -/
def sameNameEntries : PathList :=
  [ { Name := "report.txt", Path := "/a/report.txt", IsDir := false, Date := 1, Size := 100,
      Type_ := "", Label := "", Write := false, Extensions := [] },
    { Name := "report.txt", Path := "/b/report.txt", IsDir := false, Date := 2, Size := 200,
      Type_ := "", Label := "", Write := false, Extensions := [] } ]

/-- Three files of the same size and time whose names `natural.Less` orders in a
cycle: `1` before `1.txt` before `01b.txt` before `1`. -/
def cyclicFiles : PathList :=
  [ mkEntry "1" false 12 1024,
    mkEntry "01b.txt" false 12 1024,
    mkEntry "1.txt" false 12 1024 ]

/-- Three files without extension whose names `natural.Less` orders in a cycle:
`1` before `1a` before `01b` before `1`. -/
def cyclicPlainFiles : PathList :=
  [ mkEntry "1" false 0 0,
    mkEntry "1a" false 0 0,
    mkEntry "01b" false 0 0 ]

/-- Two files of the same size and time whose names `natural.Less` leaves
unordered (neither is before the other). -/
def tiedFiles : PathList :=
  [ mkEntry "file01.txt" false 12 1024,
    mkEntry "file1.txt" false 12 1024 ]

/-- Thirteen files with different names of the same numeric value, which
`natural.Less` does not order as a strict weak order (`01b` is before `1`, `1` is
before `1a`, and `1a` is before `01b`). -/
def cyclicNames13 : PathList :=
  [ mkEntry "1" false 0 0, mkEntry "001" false 0 0, mkEntry "1a" false 0 0,
    mkEntry "1b" false 0 0, mkEntry "001a" false 0 0, mkEntry "0001d" false 0 0,
    mkEntry "1c" false 0 0, mkEntry "1d" false 0 0, mkEntry "0001a" false 0 0,
    mkEntry "001d" false 0 0, mkEntry "01c" false 0 0, mkEntry "001c" false 0 0,
    mkEntry "01b" false 0 0 ]

/-- Thirteen files with different names, any two of which `natural.Less` leaves
unordered (the digits have the same value and the rest is the same). -/
def tiedNames13 : PathList :=
  [ mkEntry "f1.x" false 0 0, mkEntry "f01.x" false 0 0, mkEntry "f001.x" false 0 0,
    mkEntry "f0001.x" false 0 0, mkEntry "f00001.x" false 0 0, mkEntry "f000001.x" false 0 0,
    mkEntry "f0000001.x" false 0 0, mkEntry "f00000001.x" false 0 0,
    mkEntry "f000000001.x" false 0 0, mkEntry "f0000000001.x" false 0 0,
    mkEntry "f00000000001.x" false 0 0, mkEntry "f000000000001.x" false 0 0,
    mkEntry "f0000000000001.x" false 0 0 ]

/-! ## Vocabulary for the proofs about `sort.Slice` -/

/-- The comparison `lt` decides the relation `R` ("may be placed before") on the
elements that satisfy `P`, and `R` is transitive on them. -/
structure Compat {α : Type} (lt : α → α → Bool) (R : α → α → Prop) (P : α → Prop) : Prop where
  lt_R : ∀ a b, P a → P b → lt a b = true → R a b
  ge_R : ∀ a b, P a → P b → lt a b = false → R b a
  trans : ∀ a b c, P a → P b → P c → R a b → R b c → R a c

/-- The closure on indices reads the two entries and applies `lt`. -/
def Reads {α : Type} (lessIdx : List α → Nat → Nat → Option Bool) (lt : α → α → Bool) : Prop :=
  ∀ (q : List α) (i j : Nat) (a b : α), q[i]? = some a → q[j]? = some b →
    lessIdx q i j = some (lt a b)

/-- Position `c` is a cut of the slice: every element before `c` may be placed
before every element from `c` on. -/
def Cut {α : Type} (R : α → α → Prop) (data : List α) (c : Nat) : Prop :=
  ∀ (k m : Nat) (x y : α), k < c → c ≤ m → data[k]? = some x → data[m]? = some y → R x y

/-- The elements at `k - 1` and `k` are in order. -/
def Adj {α : Type} (R : α → α → Prop) (data : List α) (k : Nat) : Prop :=
  ∀ x y : α, 0 < k → data[k - 1]? = some x → data[k]? = some y → R x y

/-- The slice `after` is a rearrangement of `before` that keeps every cut outside
the open range between `a` and `b`. -/
def Moves {α : Type} (R : α → α → Prop) (a b : Nat) (before after : List α) : Prop :=
  after.length = before.length ∧ after.Perm before ∧
    ∀ c, (c ≤ a ∨ b ≤ c) → Cut R before c → Cut R after c

/-- Test of an entry `x` against the pivot `p` in the partition loops:
`less(x, p)`, and `less(p, x)` when `flip` is set. -/
def pivTest {α : Type} (lt : α → α → Bool) (flip : Bool) (p x : α) : Bool :=
  if flip then lt p x else lt x p

/-- The node `r` of the heap of size `hi` stored from index `first` is not
`R`-before its children. -/
def HeapAt {α : Type} (R : α → α → Prop) (d : List α) (first hi r : Nat) : Prop :=
  ∀ c x y, c < hi → (c = 2 * r + 1 ∨ c = 2 * r + 2) →
    d[first + c]? = some x → d[first + r]? = some y → R x y

/-- No entry of the slice is `lt`-before an earlier entry. -/
def InOrder {α : Type} (lt : α → α → Bool) (data : List α) : Prop :=
  ∀ (i j : Nat) (x y : α), i < j → data[i]? = some x → data[j]? = some y → lt y x = false

/-! ## Execution with the run-time checks of Go

The functions below follow the same source with the operations that can panic made
explicit: the slice expression `ext[1:]` and the index expressions `p[i]` and
`p[j]` of the closure (the swaps of `sort.Slice` are checked in `swapIdx`).  The
value `none` stands for the run-time panic. -/

/-- Slice expression `s[1:]` with its bounds check: it panics on the empty
string. -/
def sliceFrom1 (s : String) : Option String :=
  if 1 ≤ s.data.length then some ⟨s.data.drop 1⟩ else none

/-- Function `getFileType` with the bounds check of `ext[1:]`. -/
def getFileTypeChecked (ul : Char → Char) (p : Path) : Option String :=
  if p.IsDir then some "000_folder"
  else
    let ext := toLower ul (filepathExt p.Name)
    if ext = "" then some "999_file"
    else sliceFrom1 ext

/-- Value of `result` after the `switch orderBy`, with the checked
`getFileType`. -/
def switchResultChecked (nl : String → String → Bool) (ul : Char → Char) (orderBy : String)
    (pi pj : Path) : Option Bool :=
  if orderBy = "name" then some (nl pi.Name pj.Name)
  else if orderBy = "size" then
    some (if pi.Size = pj.Size then nl pi.Name pj.Name else decide (pi.Size < pj.Size))
  else if orderBy = "modified" then
    some (if pi.Date = pj.Date then nl pi.Name pj.Name else decide (pi.Date < pj.Date))
  else if orderBy = "type" then
    match getFileTypeChecked ul pi, getFileTypeChecked ul pj with
    | some typeI, some typeJ =>
      some (if typeI = typeJ then nl pi.Name pj.Name else stringLess typeI typeJ)
    | _, _ => none
  else some (nl pi.Name pj.Name)

/-- Comparison closure of `PathList.Sort` on the indices `i` and `j` of the slice
`p`, with the bounds checks of `p[i]` and `p[j]`. -/
def lessAt (nl : String → String → Bool) (ul : Char → Char) (orderBy orderDirection : String)
    (p : PathList) (i j : Nat) : Option Bool :=
  match p[i]?, p[j]? with
  | some pi, some pj =>
    if orderBy ≠ "type" ∧ pi.IsDir = true ∧ pj.IsDir = false then some true
    else if orderBy ≠ "type" ∧ pi.IsDir = false ∧ pj.IsDir = true then some false
    else
      match switchResultChecked nl ul orderBy pi pj with
      | some result => some (if orderDirection = "desc" then !result else result)
      | none => none
  | _, _ => none

/-- Method `PathList.Sort` with the run-time checks: `some` of the slice after the
call, or `none` for a panic. -/
def PathListSortChecked (rnd : Nat → Nat) (nl : String → String → Bool) (ul : Char → Char)
    (p : PathList) (orderBy orderDirection : String) : Option PathList :=
  if orderBy = "" then some p
  else sortSliceChecked rnd p (lessAt nl ul orderBy orderDirection)

/-! ## Swaps -/

theorem cons_set_perm {α : Type} (t : List α) (j : Nat) (u x : α) (h : t[j]? = some u) :
    (u :: t.set j x).Perm (x :: t) := by
  induction t generalizing j with
  | nil => simp at h
  | cons y s ih =>
    cases j with
    | zero =>
      simp only [List.getElem?_cons_zero, Option.some.injEq] at h
      subst h
      exact List.Perm.swap x y s
    | succ j =>
      simp only [List.getElem?_cons_succ] at h
      simp only [List.set_cons_succ]
      exact ((List.Perm.swap y u (s.set j x)).trans ((ih j h).cons y)).trans
        (List.Perm.swap x y s)

theorem set_set_perm {α : Type} (l : List α) (i j : Nat) (u v : α) (hi : l[i]? = some u)
    (hj : l[j]? = some v) : ((l.set i v).set j u).Perm l := by
  induction l generalizing i j with
  | nil => simp at hi
  | cons y s ih =>
    cases i with
    | zero =>
      simp only [List.getElem?_cons_zero, Option.some.injEq] at hi
      subst hi
      cases j with
      | zero =>
        simp only [List.getElem?_cons_zero, Option.some.injEq] at hj
        subst hj
        simp
      | succ j =>
        simp only [List.getElem?_cons_succ] at hj
        simp only [List.set_cons_zero, List.set_cons_succ]
        exact cons_set_perm s j v y hj
    | succ i =>
      simp only [List.getElem?_cons_succ] at hi
      cases j with
      | zero =>
        simp only [List.getElem?_cons_zero, Option.some.injEq] at hj
        subst hj
        simp only [List.set_cons_zero, List.set_cons_succ]
        exact cons_set_perm s i u y hi
      | succ j =>
        simp only [List.getElem?_cons_succ] at hj
        simp only [List.set_cons_succ]
        exact (ih i j hi hj).cons y

/-- A swap of two valid indices succeeds; the result has the two entries
exchanged and the others in place. -/
theorem swapIdx_some {α : Type} (data : List α) (i j : Nat) (hi : i < data.length)
    (hj : j < data.length) :
    ∃ d, swapIdx data i j = some d ∧ d.length = data.length ∧ d.Perm data ∧
      d[i]? = data[j]? ∧ d[j]? = data[i]? ∧
      ∀ k, k ≠ i → k ≠ j → d[k]? = data[k]? := by
  have e1 : data[i]? = some data[i] := List.getElem?_eq_getElem hi
  have e2 : data[j]? = some data[j] := List.getElem?_eq_getElem hj
  refine ⟨(data.set i data[j]).set j data[i], ?_, by simp, set_set_perm data i j _ _ e1 e2,
    ?_, ?_, ?_⟩
  · unfold swapIdx
    rw [e1, e2]
  · by_cases hij : i = j
    · subst hij
      simp [List.getElem?_set, hi]
    · have hji : ¬ j = i := fun e => hij e.symm
      simp [List.getElem?_set, hi, hj, hij, hji, e2]
  · simp [List.getElem?_set, hi, hj, e1]
  · intro k hk1 hk2
    have h1 : ¬ i = k := fun e => hk1 e.symm
    have h2 : ¬ j = k := fun e => hk2 e.symm
    simp [List.getElem?_set, h1, h2]

/-! ## Rearrangements that keep the cuts -/

theorem mem_of_getElem?_eq_some {α : Type} {l : List α} {k : Nat} {x : α}
    (h : l[k]? = some x) : x ∈ l := by
  obtain ⟨hk, rfl⟩ := List.getElem?_eq_some.mp h
  exact List.getElem_mem hk

theorem moves_refl {α : Type} (R : α → α → Prop) (a b : Nat) (data : List α) :
    Moves R a b data data :=
  ⟨rfl, List.Perm.refl _, fun _ _ h => h⟩

theorem moves_trans {α : Type} {R : α → α → Prop} {a b : Nat} {d0 d1 d2 : List α}
    (h1 : Moves R a b d0 d1) (h2 : Moves R a b d1 d2) : Moves R a b d0 d2 :=
  ⟨h2.1.trans h1.1, h2.2.1.trans h1.2.1, fun c hc h => h2.2.2 c hc (h1.2.2 c hc h)⟩

theorem moves_mono {α : Type} {R : α → α → Prop} {a b a' b' : Nat} {d0 d1 : List α}
    (h : Moves R a b d0 d1) (ha : a' ≤ a) (hb : b ≤ b') : Moves R a' b' d0 d1 :=
  ⟨h.1, h.2.1, fun c hc hcut => h.2.2 c (by omega) hcut⟩

theorem moves_allP {α : Type} {R : α → α → Prop} {a b : Nat} {d0 d1 : List α} {P : α → Prop}
    (h : Moves R a b d0 d1) (hP : ∀ x ∈ d0, P x) : ∀ x ∈ d1, P x :=
  fun x hx => hP x (h.2.1.mem_iff.mp hx)

/-- A swap of two indices of the range keeps the cuts outside the range. -/
theorem moves_swap_in {α : Type} (R : α → α → Prop) (a b : Nat) (data : List α) (i j : Nat)
    (hi : a ≤ i ∧ i < b) (hj : a ≤ j ∧ j < b) (hb : b ≤ data.length) :
    ∃ d, swapIdx data i j = some d ∧ Moves R a b data d ∧
      d[i]? = data[j]? ∧ d[j]? = data[i]? ∧ ∀ k, k ≠ i → k ≠ j → d[k]? = data[k]? := by
  obtain ⟨d, hd, hlen, hperm, e1, e2, e3⟩ := swapIdx_some data i j (by omega) (by omega)
  refine ⟨d, hd, ⟨hlen, hperm, ?_⟩, e1, e2, e3⟩
  intro c hc hcut k m x y hk hm hx hy
  have key : ∀ n z, d[n]? = some z →
      ∃ n', data[n']? = some z ∧ (n < c ↔ n' < c) := by
    intro n z hz
    by_cases h1 : n = i
    · subst h1
      exact ⟨j, by rw [← e1]; exact hz, by omega⟩
    · by_cases h2 : n = j
      · subst h2
        exact ⟨i, by rw [← e2]; exact hz, by omega⟩
      · exact ⟨n, by rw [← e3 n h1 h2]; exact hz, Iff.rfl⟩
  obtain ⟨k', hk', hkc⟩ := key k x hx
  obtain ⟨m', hm', hmc⟩ := key m y hy
  exact hcut k' m' x y (hkc.mp hk) (by
    by_contra hcon
    exact absurd (hmc.mpr (by omega)) (by omega)) hk' hm'

/-- A swap of two neighbours, the right one `less` than the left one, keeps every
cut. -/
theorem moves_swap_adj {α : Type} {lt : α → α → Bool} {R : α → α → Prop} {P : α → Prop}
    (hc : Compat lt R P) (a b : Nat) (data : List α) (hP : ∀ x ∈ data, P x) (j : Nat)
    (x q : α) (hj : data[j + 1]? = some x) (hq : data[j]? = some q) (hlt : lt x q = true) :
    ∃ d, swapIdx data (j + 1) j = some d ∧ Moves R a b data d ∧
      d[j]? = some x ∧ d[j + 1]? = some q ∧ ∀ k, k ≠ j + 1 → k ≠ j → d[k]? = data[k]? := by
  have hj1 : j + 1 < data.length := (List.getElem?_eq_some.mp hj).1
  obtain ⟨d, hd, hlen, hperm, e1, e2, e3⟩ := swapIdx_some data (j + 1) j hj1 (by omega)
  have hPx : P x := hP x (mem_of_getElem?_eq_some hj)
  have hPq : P q := hP q (mem_of_getElem?_eq_some hq)
  have hxq : R x q := hc.lt_R x q hPx hPq hlt
  refine ⟨d, hd, ⟨hlen, hperm, ?_⟩, by rw [e2, hj], by rw [e1, hq], e3⟩
  intro c _ hcut k m u v hk hm hu hv
  have hPd : ∀ z ∈ d, P z := fun z hz => hP z (hperm.mem_iff.mp hz)
  have hPu : P u := hPd u (mem_of_getElem?_eq_some hu)
  have hPv : P v := hPd v (mem_of_getElem?_eq_some hv)
  by_cases hcj : c = j + 1
  · subst hcj
    by_cases hkj : k = j
    · subst hkj
      rw [e2, hj] at hu
      cases hu
      by_cases hmj : m = k + 1
      · subst hmj
        rw [e1, hq] at hv
        cases hv
        exact hxq
      · rw [e3 m hmj (by omega)] at hv
        exact hc.trans _ _ _ hPu hPq hPv hxq (hcut k m q v (by omega) hm hq hv)
    · rw [e3 k (by omega) hkj] at hu
      by_cases hmj : m = j + 1
      · subst hmj
        rw [e1, hq] at hv
        cases hv
        exact hc.trans _ _ _ hPu hPx hPv (hcut k (j + 1) u x hk (le_refl _) hu hj) hxq
      · rw [e3 m hmj (by omega)] at hv
        exact hcut k m u v hk hm hu hv
  · have key : ∀ n z, d[n]? = some z → ∃ n', data[n']? = some z ∧ (n < c ↔ n' < c) := by
      intro n z hz
      by_cases h1 : n = j + 1
      · subst h1
        exact ⟨j, by rw [← e1]; exact hz, by omega⟩
      · by_cases h2 : n = j
        · subst h2
          exact ⟨n + 1, by rw [← e2]; exact hz, by omega⟩
        · exact ⟨n, by rw [← e3 n h1 h2]; exact hz, Iff.rfl⟩
    obtain ⟨k', hk', hkc⟩ := key k u hu
    obtain ⟨m', hm', hmc⟩ := key m v hv
    exact hcut k' m' u v (hkc.mp hk) (by
      by_contra hcon
      exact absurd (hmc.mpr (by omega)) (by omega)) hk' hm'

/-! ## Insertion -/

theorem getElem?_some_of_lt {α : Type} (l : List α) (k : Nat) (h : k < l.length) :
    ∃ x, l[k]? = some x :=
  ⟨l[k], List.getElem?_eq_getElem h⟩

/-- The loop that moves the element at `j` to the left puts the entries between
`lo` and `top` in order, when they were in order except around `j`. -/
theorem shiftLeft_spec {α : Type} {lt : α → α → Bool} {R : α → α → Prop} {P : α → Prop}
    {lessIdx : List α → Nat → Nat → Option Bool}
    (hc : Compat lt R P) (hr : Reads lessIdx lt) (a0 lo top : Nat) (h0 : a0 ≤ lo)
    (j : Nat) (data : List α) (hP : ∀ x ∈ data, P x) (hj : j ≤ top) (htop : top < data.length)
    (inv1 : ∀ k, lo < k → k ≤ top → k ≠ j → k ≠ j + 1 → Adj R data k)
    (inv2 : j + 1 ≤ top → Adj R data (j + 1))
    (inv3 : lo < j → j + 1 ≤ top → ∀ x y, data[j - 1]? = some x → data[j + 1]? = some y → R x y)
    (hcut : a0 < lo → Cut R data lo) :
    ∃ d, shiftLeft lessIdx a0 j data = some d ∧ (∀ a b, Moves R a b data d) ∧
      (∀ k, lo < k → k ≤ top → Adj R d k) ∧ (∀ k, j < k → d[k]? = data[k]?) := by
  induction j generalizing data with
  | zero =>
    refine ⟨data, rfl, fun a b => moves_refl R a b data, ?_, fun _ _ => rfl⟩
    intro k hk1 hk2
    by_cases hk : k = 1
    · subst hk
      exact inv2 hk2
    · exact inv1 k hk1 hk2 (by omega) (by omega)
  | succ j ih =>
    unfold shiftLeft
    by_cases ha : a0 < j + 1
    · rw [if_pos ha]
      obtain ⟨x, hx⟩ := getElem?_some_of_lt data (j + 1) (by omega)
      obtain ⟨q, hq⟩ := getElem?_some_of_lt data j (by omega)
      have hPx : P x := hP x (mem_of_getElem?_eq_some hx)
      have hPq : P q := hP q (mem_of_getElem?_eq_some hq)
      rw [hr data (j + 1) j x q hx hq]
      cases hlt : lt x q with
      | false =>
        refine ⟨data, rfl, fun a b => moves_refl R a b data, ?_, fun _ _ => rfl⟩
        intro k hk1 hk2
        by_cases hk : k = j + 1
        · subst hk
          intro u v _ hu hv
          simp only [Nat.add_sub_cancel] at hu
          rw [hq] at hu
          rw [hx] at hv
          cases hu
          cases hv
          exact hc.ge_R x q hPx hPq hlt
        · by_cases hk' : k = j + 2
          · subst hk'
            exact inv2 hk2
          · exact inv1 k hk1 hk2 hk hk'
      | true =>
        obtain ⟨d1, hd1, hm1, e1, e2, e3⟩ :=
          moves_swap_adj hc 0 0 data hP j x q hx hq hlt
        have hmall : ∀ a b, Moves R a b data d1 := by
          intro a b
          obtain ⟨d2, hd2, hm2, _⟩ := moves_swap_adj hc a b data hP j x q hx hq hlt
          rw [hd1] at hd2
          cases hd2
          exact hm2
        have hlen : d1.length = data.length := hm1.1
        have hP1 : ∀ y ∈ d1, P y := moves_allP hm1 hP
        obtain ⟨d, hd, hmd, hadj, hfr⟩ := ih d1 hP1 (by omega) (by omega)
          (by
            intro k hk1 hk2 hkj hkj1
            by_cases hk : k = j + 2
            · subst hk
              intro u v _ hu hv
              rw [show j + 2 - 1 = j + 1 by omega, e2] at hu
              rw [e3 (j + 2) (by omega) (by omega)] at hv
              cases hu
              by_cases hlo : lo < j + 1
              · exact inv3 hlo hk2 _ _ (by simpa using hq) hv
              · have hlo' : lo = j + 1 := by omega
                exact hcut (by omega) j (j + 2) _ _ (by omega) (by omega) hq hv
            · intro u v h0k hu hv
              rw [e3 (k - 1) (by omega) (by omega)] at hu
              rw [e3 k (by omega) (by omega)] at hv
              exact inv1 k hk1 hk2 (by omega) hk u v h0k hu hv)
          (by
            intro _ u v _ hu hv
            simp only [Nat.add_sub_cancel] at hu
            rw [e1] at hu
            rw [e2] at hv
            cases hu
            cases hv
            exact hc.lt_R _ _ hPx hPq hlt)
          (by
            intro hlo hjt u v hu hv
            rw [e2] at hv
            cases hv
            rw [e3 (j - 1) (by omega) (by omega)] at hu
            exact inv1 j hlo (by omega) (by omega) (by omega) _ _ (by omega) hu hq)
          (fun h => (hmall lo lo).2.2 lo (Or.inl (le_refl _)) (hcut h))
        rw [hd1]
        refine ⟨d, hd, fun a b => moves_trans (hmall a b) (hmd a b), hadj, ?_⟩
        intro k hk
        rw [hfr k (by omega), e3 k (by omega) (by omega)]
    · rw [if_neg ha]
      refine ⟨data, rfl, fun a b => moves_refl R a b data, ?_, fun _ _ => rfl⟩
      intro k hk1 hk2
      by_cases hk' : k = j + 2
      · subst hk'
        exact inv2 hk2
      · exact inv1 k hk1 hk2 (by omega) hk'

theorem insertionPasses_spec {α : Type} {lt : α → α → Bool} {R : α → α → Prop} {P : α → Prop}
    {lessIdx : List α → Nat → Nat → Option Bool}
    (hc : Compat lt R P) (hr : Reads lessIdx lt) (a : Nat) (n i : Nat) (data : List α)
    (hP : ∀ x ∈ data, P x) (hai : a < i) (hib : i + n ≤ data.length)
    (inv : ∀ k, a < k → k < i → Adj R data k) :
    ∃ d, insertionPasses lessIdx a n i data = some d ∧ (∀ a1 b1, Moves R a1 b1 data d) ∧
      ∀ k, a < k → k < i + n → Adj R d k := by
  induction n generalizing i data with
  | zero => exact ⟨data, rfl, fun a1 b1 => moves_refl R a1 b1 data, inv⟩
  | succ n ih =>
    unfold insertionPasses
    obtain ⟨d1, hd1, hm1, hadj1, _⟩ :=
      shiftLeft_spec hc hr a a i (le_refl a) i data hP (le_refl i) (by omega)
        (fun k hk1 hk2 hk3 _ => inv k hk1 (by omega))
        (fun h => absurd h (by omega))
        (fun _ h => absurd h (by omega))
        (fun h => absurd h (by omega))
    rw [hd1]
    have hlen : d1.length = data.length := (hm1 0 0).1
    obtain ⟨d, hd, hm, hadj⟩ := ih (i + 1) d1 (moves_allP (hm1 0 0) hP) (by omega) (by omega)
      (fun k hk1 hk2 => hadj1 k hk1 (by omega))
    exact ⟨d, hd, fun a1 b1 => moves_trans (hm1 a1 b1) (hm a1 b1),
      fun k hk1 hk2 => hadj k hk1 (by omega)⟩

theorem insertionSort_func_spec {α : Type} {lt : α → α → Bool} {R : α → α → Prop}
    {P : α → Prop} {lessIdx : List α → Nat → Nat → Option Bool}
    (hc : Compat lt R P) (hr : Reads lessIdx lt) (data : List α) (a b : Nat)
    (hP : ∀ x ∈ data, P x) (hb : b ≤ data.length) :
    ∃ d, insertionSort_func lessIdx data a b = some d ∧ (∀ a1 b1, Moves R a1 b1 data d) ∧
      ∀ k, a < k → k < b → Adj R d k := by
  unfold insertionSort_func
  by_cases hab : a + 1 ≤ b
  · obtain ⟨d, hd, hm, hadj⟩ := insertionPasses_spec hc hr a (b - (a + 1)) (a + 1) data hP
      (by omega) (by omega) (fun k hk1 hk2 => absurd hk2 (by omega))
    exact ⟨d, hd, hm, fun k hk1 hk2 => hadj k hk1 (by omega)⟩
  · have h0 : b - (a + 1) = 0 := by omega
    rw [h0]
    exact ⟨data, rfl, fun a1 b1 => moves_refl R a1 b1 data,
      fun k hk1 hk2 => absurd hk2 (by omega)⟩

/-- Neighbours in order between `a` and `b` give any two entries of the range in
order. -/
theorem adj_chain {α : Type} {lt : α → α → Bool} {R : α → α → Prop} {P : α → Prop}
    (hc : Compat lt R P) (d : List α) (hP : ∀ x ∈ d, P x) (a b : Nat)
    (hadj : ∀ k, a < k → k < b → Adj R d k) (n k : Nat) (hk : a ≤ k) (hb : k + n + 1 < b)
    (x y : α) (hx : d[k]? = some x) (hy : d[k + n + 1]? = some y) : R x y := by
  induction n generalizing y with
  | zero => exact hadj (k + 1) (by omega) hb x y (by omega) (by simpa using hx) hy
  | succ n ih =>
    have hlt : k + n + 1 < d.length := by
      have := (List.getElem?_eq_some_iff.mp hy).1
      omega
    obtain ⟨z, hz⟩ := getElem?_some_of_lt d (k + n + 1) hlt
    have h1 : R x z := ih (by omega) z hz
    have h2 : R z y := hadj (k + n + 1 + 1) (by omega) hb z y (by omega) (by simpa using hz) hy
    exact hc.trans x z y (hP x (mem_of_getElem?_eq_some hx)) (hP z (mem_of_getElem?_eq_some hz))
      (hP y (mem_of_getElem?_eq_some hy)) h1 h2

/-- A range with its neighbours in order, between two cuts, has a cut at every
position. -/
theorem cuts_of_adj {α : Type} {lt : α → α → Bool} {R : α → α → Prop} {P : α → Prop}
    (hc : Compat lt R P) (d : List α) (hP : ∀ x ∈ d, P x) (a b : Nat)
    (hca : Cut R d a) (hcb : Cut R d b)
    (hadj : ∀ k, a < k → k < b → Adj R d k) (c : Nat) (hac : a ≤ c) (hcb1 : c ≤ b) :
    Cut R d c := by
  intro k m x y hk hm hx hy
  by_cases h1 : k < a
  · exact hca k m x y h1 (by omega) hx hy
  · by_cases h2 : b ≤ m
    · exact hcb k m x y (by omega) h2 hx hy
    · have hm' : m = k + (m - k - 1) + 1 := by omega
      rw [hm'] at hy
      exact adj_chain hc d hP a b hadj (m - k - 1) k (by omega) (by omega) x y hx hy

/-- A cut at every position is an ordered list. -/
theorem pairwise_of_cuts {α : Type} (R : α → α → Prop) (d : List α)
    (h : ∀ c, Cut R d c) : d.Pairwise R := by
  rw [List.pairwise_iff_getElem]
  intro i j hi hj hij
  exact h j i j _ _ hij (le_refl j) (List.getElem?_eq_getElem hi) (List.getElem?_eq_getElem hj)

/-! ## Partition -/

theorem reads_pivTest {α : Type} {lt : α → α → Bool}
    {lessIdx : List α → Nat → Nat → Option Bool} (hr : Reads lessIdx lt) (data : List α)
    (a i : Nat) (flip : Bool) (p x : α) (hp : data[a]? = some p) (hx : data[i]? = some x) :
    (if flip then lessIdx data a i else lessIdx data i a) = some (pivTest lt flip p x) := by
  cases flip with
  | false => simpa [pivTest] using hr data i a x p hx hp
  | true => simpa [pivTest] using hr data a i p x hp hx

theorem scanUp_spec {α : Type} {lt : α → α → Bool}
    {lessIdx : List α → Nat → Nat → Option Bool} (hr : Reads lessIdx lt) (data : List α)
    (a j : Nat) (flip : Bool) (p : α) (hp : data[a]? = some p) (hj : j < data.length)
    (fuel i : Nat) (hf : j + 2 ≤ fuel + i) (hij : i ≤ j + 1) :
    ∃ i1, scanUp lessIdx data a j flip fuel i = some i1 ∧ i ≤ i1 ∧ i1 ≤ j + 1 ∧
      (∀ k x, i ≤ k → k < i1 → data[k]? = some x → pivTest lt flip p x = !flip) ∧
      (i1 ≤ j → ∀ x, data[i1]? = some x → pivTest lt flip p x = flip) := by
  induction fuel generalizing i with
  | zero => omega
  | succ fuel ih =>
    unfold scanUp
    by_cases h : i ≤ j
    · rw [if_pos h]
      obtain ⟨x, hx⟩ := getElem?_some_of_lt data i (by omega)
      rw [reads_pivTest hr data a i flip p x hp hx]
      by_cases ht : pivTest lt flip p x = flip
      · have : (pivTest lt flip p x != flip) = false := by simp [ht]
        simp only [this]
        refine ⟨i, rfl, le_refl _, by omega, fun k y h1 h2 => absurd h2 (by omega), ?_⟩
        intro _ y hy
        rw [hx] at hy
        cases hy
        exact ht
      · have : (pivTest lt flip p x != flip) = true := by simp [ht]
        simp only [this, if_true]
        obtain ⟨i1, h1, h2, h3, h4, h5⟩ := ih (i + 1) (by omega) (by omega)
        refine ⟨i1, h1, by omega, h3, ?_, h5⟩
        intro k y hk1 hk2 hy
        by_cases hk : k = i
        · subst hk
          rw [hx] at hy
          cases hy
          cases hfl : flip <;> cases hv : pivTest lt flip p x <;> simp_all
        · exact h4 k y (by omega) hk2 hy
    · rw [if_neg h]
      exact ⟨i, rfl, le_refl _, by omega, fun k y h1 h2 => absurd h2 (by omega),
        fun h1 => absurd h1 h⟩

theorem scanDown_spec {α : Type} {lt : α → α → Bool}
    {lessIdx : List α → Nat → Nat → Option Bool} (hr : Reads lessIdx lt) (data : List α)
    (a i : Nat) (flip : Bool) (p : α) (hp : data[a]? = some p) (hi : 1 ≤ i)
    (fuel j : Nat) (hj : j < data.length) (hf : j + 2 ≤ fuel + i) (hij : i ≤ j + 1) :
    ∃ j1, scanDown lessIdx data a i flip fuel j = some j1 ∧ j1 ≤ j ∧ i ≤ j1 + 1 ∧
      (∀ m x, j1 < m → m ≤ j → data[m]? = some x → pivTest lt flip p x = flip) ∧
      (i ≤ j1 → ∀ x, data[j1]? = some x → pivTest lt flip p x = !flip) := by
  induction fuel generalizing j with
  | zero => omega
  | succ fuel ih =>
    unfold scanDown
    by_cases h : i ≤ j
    · rw [if_pos h]
      obtain ⟨x, hx⟩ := getElem?_some_of_lt data j (by omega)
      rw [reads_pivTest hr data a j flip p x hp hx]
      by_cases ht : pivTest lt flip p x = flip
      · have : (pivTest lt flip p x == flip) = true := by simp [ht]
        simp only [this, if_true]
        obtain ⟨j1, h1, h2, h3, h4, h5⟩ := ih (j - 1) (by omega) (by omega) (by omega)
        refine ⟨j1, h1, by omega, h3, ?_, h5⟩
        intro m y hm1 hm2 hy
        by_cases hm : m = j
        · subst hm
          rw [hx] at hy
          cases hy
          exact ht
        · exact h4 m y hm1 (by omega) hy
      · have : (pivTest lt flip p x == flip) = false := by simp [ht]
        simp only [this]
        refine ⟨j, rfl, le_refl _, by omega, fun m y h1 h2 => absurd h2 (by omega), ?_⟩
        intro _ y hy
        rw [hx] at hy
        cases hy
        cases hfl : flip <;> cases hv : pivTest lt flip p x <;> simp_all
    · rw [if_neg h]
      exact ⟨j, rfl, le_refl _, by omega, fun m y h1 h2 => absurd h2 (by omega),
        fun h1 => absurd h1 h⟩

theorem pivTest_ne {α : Type} (lt : α → α → Bool) (flip : Bool) (p x : α)
    (h1 : pivTest lt flip p x = flip) (h2 : pivTest lt flip p x = !flip) : False := by
  rw [h1] at h2
  cases flip <;> simp at h2

theorem partitionLoop_spec {α : Type} {lt : α → α → Bool} (R : α → α → Prop)
    {lessIdx : List α → Nat → Nat → Option Bool} (hr : Reads lessIdx lt)
    (a b : Nat) (flip : Bool) (p : α) (fuel : Nat) (data : List α) (i j : Nat)
    (hp : data[a]? = some p) (hai : a < i) (hjb : j < b) (hb : b ≤ data.length)
    (hij : i ≤ j + 1) (hf : j + 2 ≤ fuel + i)
    (hlo : ∀ k x, a < k → k < i → data[k]? = some x → pivTest lt flip p x = !flip)
    (hhi : ∀ m x, j < m → m < b → data[m]? = some x → pivTest lt flip p x = flip) :
    ∃ d i1 j1, partitionLoop lessIdx a flip fuel data i j = some (d, i1, j1) ∧
      Moves R a b data d ∧ (∀ k, k ≤ a → d[k]? = data[k]?) ∧
      j1 < i1 ∧ a < i1 ∧ i1 ≤ j1 + 1 ∧ j1 < b ∧
      (∀ k x, a < k → k < i1 → d[k]? = some x → pivTest lt flip p x = !flip) ∧
      (∀ m x, j1 < m → m < b → d[m]? = some x → pivTest lt flip p x = flip) := by
  induction fuel generalizing data i j with
  | zero => omega
  | succ fuel ih =>
    unfold partitionLoop
    obtain ⟨i1, hi1, hi2, hi3, hi4, hi5⟩ :=
      scanUp_spec hr data a j flip p hp (by omega) (j + 2 - i) i (by omega) hij
    rw [hi1]
    simp only []
    obtain ⟨j1, hj1, hj2, hj3, hj4, hj5⟩ :=
      scanDown_spec hr data a i1 flip p hp (by omega) (j + 2 - i1) j (by omega) (by omega) hi3
    rw [hj1]
    simp only []
    by_cases hlt : j1 < i1
    · rw [if_pos hlt]
      refine ⟨data, i1, j1, rfl, moves_refl R a b data, fun _ _ => rfl, hlt, by omega, hj3,
        by omega, ?_, ?_⟩
      · intro k x hk1 hk2 hx
        by_cases hk : k < i
        · exact hlo k x hk1 hk hx
        · exact hi4 k x (by omega) hk2 hx
      · intro m x hm1 hm2 hx
        by_cases hm : j < m
        · exact hhi m x hm hm2 hx
        · exact hj4 m x hm1 (by omega) hx
    · rw [if_neg hlt]
      obtain ⟨u, hu⟩ := getElem?_some_of_lt data i1 (by omega)
      obtain ⟨v, hv⟩ := getElem?_some_of_lt data j1 (by omega)
      have hne : i1 ≠ j1 := by
        intro he
        subst he
        exact pivTest_ne lt flip p u (hi5 (by omega) u hu) (hj5 (by omega) u hu)
      obtain ⟨d1, hd1, hm1, e1, e2, e3⟩ :=
        moves_swap_in R a b data i1 j1 ⟨by omega, by omega⟩ ⟨by omega, by omega⟩ hb
      rw [hd1]
      simp only []
      have hlen : d1.length = data.length := hm1.1
      obtain ⟨d, i2, j2, hd, hm2, hfr, h1, h2, h3, h4, h5, h6⟩ :=
        ih d1 (i1 + 1) (j1 - 1) (by rw [e3 a (by omega) (by omega)]; exact hp) (by omega)
          (by omega) (by omega) (by omega) (by omega)
          (by
            intro k x hk1 hk2 hx
            by_cases hk : k = i1
            · subst hk
              rw [e1, hv] at hx
              cases hx
              exact hj5 (by omega) _ hv
            · rw [e3 k hk (by omega)] at hx
              by_cases hk' : k < i
              · exact hlo k x hk1 hk' hx
              · exact hi4 k x (by omega) (by omega) hx)
          (by
            intro m x hm1' hm2' hx
            by_cases hk : m = j1
            · subst hk
              rw [e2, hu] at hx
              cases hx
              exact hi5 (by omega) _ hu
            · rw [e3 m (by omega) hk] at hx
              by_cases hm' : j < m
              · exact hhi m x hm' hm2' hx
              · exact hj4 m x (by omega) (by omega) hx)
      refine ⟨d, i2, j2, hd, moves_trans hm1 hm2, ?_, h1, h2, h3, by omega, h5, h6⟩
      intro k hk
      rw [hfr k hk, e3 k (by omega) (by omega)]

/-- An entry `p` at `mid` with the entries of the range before it `R`-before `p`
and those after it `R`-after `p` gives cuts on both sides of `mid`. -/
theorem cuts_of_part {α : Type} {lt : α → α → Bool} {R : α → α → Prop} {P : α → Prop}
    (hc : Compat lt R P) (d : List α) (hP : ∀ x ∈ d, P x) (a b mid : Nat) (p : α)
    (hmid : d[mid]? = some p) (ham : a ≤ mid) (hmb : mid < b)
    (hL : ∀ k x, a ≤ k → k < mid → d[k]? = some x → R x p)
    (hH : ∀ m y, mid < m → m < b → d[m]? = some y → R p y)
    (hca : Cut R d a) (hcb : Cut R d b) :
    Cut R d mid ∧ Cut R d (mid + 1) := by
  have hPp : P p := hP p (mem_of_getElem?_eq_some hmid)
  have key : ∀ k m x y, k < m → k ≤ mid → mid ≤ m → d[k]? = some x → d[m]? = some y →
      R x y := by
    intro k m x y hkm hk hm hx hy
    by_cases h1 : k < a
    · exact hca k m x y h1 (by omega) hx hy
    · by_cases h2 : b ≤ m
      · exact hcb k m x y (by omega) h2 hx hy
      · by_cases h3 : k = mid
        · subst h3
          rw [hmid] at hx
          cases hx
          exact hH m y (by omega) (by omega) hy
        · by_cases h4 : m = mid
          · subst h4
            rw [hmid] at hy
            cases hy
            exact hL k x (by omega) (by omega) hx
          · exact hc.trans x p y (hP x (mem_of_getElem?_eq_some hx)) hPp
              (hP y (mem_of_getElem?_eq_some hy)) (hL k x (by omega) (by omega) hx)
              (hH m y (by omega) (by omega) hy)
  exact ⟨fun k m x y hk hm hx hy => key k m x y (by omega) (by omega) hm hx hy,
    fun k m x y hk hm hx hy => key k m x y (by omega) (by omega) (by omega) hx hy⟩

theorem partition_finish {α : Type} {lt : α → α → Bool} {R : α → α → Prop} {P : α → Prop}
    (hc : Compat lt R P) (d : List α) (hP : ∀ x ∈ d, P x) (a b i j : Nat) (p : α)
    (hp : d[a]? = some p) (hji : j < i) (hai : a < i) (hij : i ≤ j + 1) (hjb : j < b)
    (hb : b ≤ d.length)
    (hlo : ∀ k x, a < k → k < i → d[k]? = some x → pivTest lt false p x = !false)
    (hhi : ∀ m x, j < m → m < b → d[m]? = some x → pivTest lt false p x = false)
    (hca : Cut R d a) (hcb : Cut R d b) :
    ∃ d1, swapIdx d j a = some d1 ∧ Moves R a b d d1 ∧ Cut R d1 j ∧ Cut R d1 (j + 1) := by
  obtain ⟨d1, hd1, hm1, e1, e2, e3⟩ :=
    moves_swap_in R a b d j a ⟨by omega, by omega⟩ ⟨by omega, by omega⟩ hb
  have hP1 : ∀ x ∈ d1, P x := moves_allP hm1 hP
  have hPp : P p := hP p (mem_of_getElem?_eq_some hp)
  have hcuts := cuts_of_part hc d1 hP1 a b j p (by rw [e1, hp]) (by omega) hjb
    (by
      intro k x hk1 hk2 hx
      have hPx : P x := hP1 x (mem_of_getElem?_eq_some hx)
      by_cases hk : k = a
      · subst hk
        rw [e2] at hx
        have := hlo j x (by omega) (by omega) hx
        exact hc.lt_R x p hPx hPp (by simpa [pivTest] using this)
      · rw [e3 k (by omega) hk] at hx
        have := hlo k x (by omega) (by omega) hx
        exact hc.lt_R x p hPx hPp (by simpa [pivTest] using this))
    (by
      intro m y hm1' hm2 hy
      have hPy : P y := hP1 y (mem_of_getElem?_eq_some hy)
      rw [e3 m (by omega) (by omega)] at hy
      have := hhi m y hm1' hm2 hy
      exact hc.ge_R y p hPy hPp (by simpa [pivTest] using this))
    (hm1.2.2 a (Or.inl (le_refl a)) hca) (hm1.2.2 b (Or.inr (le_refl b)) hcb)
  exact ⟨d1, hd1, hm1, hcuts.1, hcuts.2⟩

theorem partition_func_spec {α : Type} {lt : α → α → Bool} {R : α → α → Prop} {P : α → Prop}
    {lessIdx : List α → Nat → Nat → Option Bool}
    (hc : Compat lt R P) (hr : Reads lessIdx lt) (data : List α) (a b pivot : Nat)
    (hP : ∀ x ∈ data, P x) (hap : a ≤ pivot) (hpb : pivot < b) (hb : b ≤ data.length)
    (hca : Cut R data a) (hcb : Cut R data b) :
    ∃ d mid ap, partition_func lessIdx data a b pivot = some (d, mid, ap) ∧
      Moves R a b data d ∧ a ≤ mid ∧ mid < b ∧ Cut R d mid ∧ Cut R d (mid + 1) := by
  unfold partition_func
  obtain ⟨d1, hd1, hm1, _, _, _⟩ :=
    moves_swap_in R a b data a pivot ⟨by omega, by omega⟩ ⟨by omega, by omega⟩ hb
  rw [hd1]
  simp only []
  have hlen1 : d1.length = data.length := hm1.1
  have hP1 : ∀ x ∈ d1, P x := moves_allP hm1 hP
  have hca1 : Cut R d1 a := hm1.2.2 a (Or.inl (le_refl a)) hca
  have hcb1 : Cut R d1 b := hm1.2.2 b (Or.inr (le_refl b)) hcb
  obtain ⟨p, hp⟩ := getElem?_some_of_lt d1 a (by omega)
  obtain ⟨i, hi1, hi2, hi3, hi4, hi5⟩ :=
    scanUp_spec hr d1 a (b - 1) false p hp (by omega) (b + 1 - a) (a + 1) (by omega) (by omega)
  rw [hi1]
  simp only []
  obtain ⟨j, hj1, hj2, hj3, hj4, hj5⟩ :=
    scanDown_spec hr d1 a i false p hp (by omega) (b + 1 - i) (b - 1) (by omega) (by omega)
      (by omega)
  rw [hj1]
  simp only []
  by_cases hlt : j < i
  · rw [if_pos hlt]
    obtain ⟨d2, hd2, hm2, hc1, hc2⟩ := partition_finish hc d1 hP1 a b i j p hp hlt (by omega)
      hj3 (by omega) (by omega)
      (fun k x hk1 hk2 hx => hi4 k x (by omega) hk2 hx)
      (fun m x hk1 hk2 hx => hj4 m x hk1 (by omega) hx) hca1 hcb1
    rw [hd2]
    exact ⟨d2, j, true, rfl, moves_trans hm1 hm2, by omega, by omega, hc1, hc2⟩
  · rw [if_neg hlt]
    obtain ⟨u, hu⟩ := getElem?_some_of_lt d1 i (by omega)
    obtain ⟨v, hv⟩ := getElem?_some_of_lt d1 j (by omega)
    have hne : i ≠ j := by
      intro he
      subst he
      exact pivTest_ne lt false p u (hi5 (by omega) u hu) (hj5 (by omega) u hu)
    obtain ⟨d2, hd2, hm2, e1, e2, e3⟩ :=
      moves_swap_in R a b d1 i j ⟨by omega, by omega⟩ ⟨by omega, by omega⟩ (by omega)
    rw [hd2]
    simp only []
    have hlen2 : d2.length = d1.length := hm2.1
    obtain ⟨d3, i3, j3, hd3, hm3, _, h1, h2, h3, h4, h5, h6⟩ :=
      partitionLoop_spec R hr a b false p (b + 1 - a) d2 (i + 1) (j - 1)
        (by rw [e3 a (by omega) (by omega)]; exact hp) (by omega) (by omega) (by omega)
        (by omega) (by omega)
        (by
          intro k x hk1 hk2 hx
          by_cases hk : k = i
          · subst hk
            rw [e1, hv] at hx
            cases hx
            exact hj5 (by omega) _ hv
          · rw [e3 k hk (by omega)] at hx
            exact hi4 k x (by omega) (by omega) hx)
        (by
          intro m x hm1' hm2' hx
          by_cases hk : m = j
          · subst hk
            rw [e2, hu] at hx
            cases hx
            exact hi5 (by omega) _ hu
          · rw [e3 m (by omega) hk] at hx
            exact hj4 m x (by omega) (by omega) hx)
    rw [hd3]
    simp only []
    have hm13 : Moves R a b data d3 := moves_trans hm1 (moves_trans hm2 hm3)
    have hp3 : d3[a]? = some p := by
      rename_i hfr
      rw [hfr a (le_refl a), e3 a (by omega) (by omega)]
      exact hp
    obtain ⟨d4, hd4, hm4, hc1, hc2⟩ := partition_finish hc d3 (moves_allP hm13 hP) a b i3 j3 p
      hp3 h1 h2 h3 h4 (by rw [hm13.1]; exact hb) h5 h6
      (hm13.2.2 a (Or.inl (le_refl a)) hca) (hm13.2.2 b (Or.inr (le_refl b)) hcb)
    rw [hd4]
    exact ⟨d4, j3, false, rfl, moves_trans hm13 hm4, by omega, by omega, hc1, hc2⟩

theorem compat_refl {α : Type} {lt : α → α → Bool} {R : α → α → Prop} {P : α → Prop}
    (hc : Compat lt R P) (x : α) (hx : P x) : R x x := by
  cases h : lt x x with
  | false => exact hc.ge_R x x hx hx h
  | true => exact hc.lt_R x x hx hx h

theorem partitionEqual_func_spec {α : Type} {lt : α → α → Bool} {R : α → α → Prop}
    {P : α → Prop} {lessIdx : List α → Nat → Nat → Option Bool}
    (hc : Compat lt R P) (hr : Reads lessIdx lt) (data : List α) (a b pivot : Nat)
    (hP : ∀ x ∈ data, P x) (hap : a ≤ pivot) (hpb : pivot < b) (hb : b ≤ data.length)
    (hca : Cut R data a) (hcb : Cut R data b) (ha : 0 < a) (t pv : α)
    (ht : data[a - 1]? = some t) (hpv : data[pivot]? = some pv) (hlt : lt t pv = false) :
    ∃ d mid, partitionEqual_func lessIdx data a b pivot = some (d, mid) ∧
      Moves R a b data d ∧ a < mid ∧ mid ≤ b ∧ ∀ c, a ≤ c → c ≤ mid → Cut R d c := by
  unfold partitionEqual_func
  obtain ⟨d1, hd1, hm1, e1, _, e3⟩ :=
    moves_swap_in R a b data a pivot ⟨by omega, by omega⟩ ⟨by omega, by omega⟩ hb
  rw [hd1]
  simp only []
  have hlen1 : d1.length = data.length := hm1.1
  have hp1 : d1[a]? = some pv := by rw [e1, hpv]
  obtain ⟨d2, i2, j2, hd2, hm2, hfr, h1, h2, h3, h4, h5, _⟩ :=
    partitionLoop_spec R hr a b true pv (b + 1 - a) d1 (a + 1) (b - 1) hp1 (by omega) (by omega)
      (by omega) (by omega) (by omega)
      (fun k x hk1 hk2 _ => absurd hk2 (by omega))
      (fun m x hk1 hk2 _ => absurd hk2 (by omega))
  rw [hd2]
  have hm : Moves R a b data d2 := moves_trans hm1 hm2
  have hP2 : ∀ x ∈ d2, P x := moves_allP hm hP
  have hca2 : Cut R d2 a := hm.2.2 a (Or.inl (le_refl a)) hca
  have hcb2 : Cut R d2 b := hm.2.2 b (Or.inr (le_refl b)) hcb
  have ht2 : d2[a - 1]? = some t := by
    rw [hfr (a - 1) (by omega), e3 (a - 1) (by omega) (by omega), ht]
  have hPt : P t := hP t (mem_of_getElem?_eq_some ht)
  have hPpv : P pv := hP pv (mem_of_getElem?_eq_some hpv)
  refine ⟨d2, i2, rfl, hm, h2, by omega, ?_⟩
  intro c hc1 hc2 k m x y hk hkm hx hy
  have hPx : P x := hP2 x (mem_of_getElem?_eq_some hx)
  have hPy : P y := hP2 y (mem_of_getElem?_eq_some hy)
  by_cases hka : k < a
  · exact hca2 k m x y hka (by omega) hx hy
  · by_cases hmb : b ≤ m
    · exact hcb2 k m x y (by omega) hmb hx hy
    · have hxp : R x pv := by
        by_cases hk' : k = a
        · subst hk'
          rw [hfr k (le_refl k), hp1] at hx
          cases hx
          exact compat_refl hc _ hPpv
        · have := h5 k x (by omega) (by omega) hx
          exact hc.ge_R pv x hPpv hPx (by simpa [pivTest] using this)
      have hpy : R pv y :=
        hc.trans pv t y hPpv hPt hPy (hc.ge_R t pv hPt hPpv hlt)
          (hca2 (a - 1) m t y (by omega) (by omega) ht2 hy)
      exact hc.trans x pv y hPx hPpv hPy hxp hpy

/-! ## Partial insertion -/

theorem adj_congr {α : Type} (R : α → α → Prop) (d d1 : List α) (k : Nat)
    (h1 : d1[k - 1]? = d[k - 1]?) (h2 : d1[k]? = d[k]?) (h : Adj R d k) : Adj R d1 k := by
  intro x y hk hx hy
  rw [h1] at hx
  rw [h2] at hy
  exact h x y hk hx hy

theorem skipSorted_spec {α : Type} {lt : α → α → Bool}
    {lessIdx : List α → Nat → Nat → Option Bool} (hr : Reads lessIdx lt) (data : List α)
    (b : Nat) (hb : b ≤ data.length) (fuel i : Nat) (hi : 1 ≤ i) (hib : i ≤ b)
    (hf : b + 1 ≤ fuel + i) :
    ∃ i1, skipSorted lessIdx data b fuel i = some i1 ∧ i ≤ i1 ∧ i1 ≤ b ∧
      (∀ k x y, i ≤ k → k < i1 → data[k]? = some x → data[k - 1]? = some y → lt x y = false) ∧
      (i1 < b → ∀ x y, data[i1]? = some x → data[i1 - 1]? = some y → lt x y = true) := by
  induction fuel generalizing i with
  | zero => omega
  | succ fuel ih =>
    unfold skipSorted
    by_cases h : i < b
    · rw [if_pos h]
      obtain ⟨x, hx⟩ := getElem?_some_of_lt data i (by omega)
      obtain ⟨y, hy⟩ := getElem?_some_of_lt data (i - 1) (by omega)
      rw [hr data i (i - 1) x y hx hy]
      cases hlt : lt x y with
      | true =>
        refine ⟨i, rfl, le_refl _, hib, fun k _ _ h1 h2 => absurd h2 (by omega), ?_⟩
        intro _ u v hu hv
        rw [hx] at hu
        rw [hy] at hv
        cases hu
        cases hv
        exact hlt
      | false =>
        obtain ⟨i1, h1, h2, h3, h4, h5⟩ := ih (i + 1) (by omega) (by omega) (by omega)
        refine ⟨i1, h1, by omega, h3, ?_, h5⟩
        intro k u v hk1 hk2 hu hv
        by_cases hk : k = i
        · subst hk
          rw [hx] at hu
          rw [hy] at hv
          cases hu
          cases hv
          exact hlt
        · exact h4 k u v (by omega) hk2 hu hv
    · rw [if_neg h]
      exact ⟨i, rfl, le_refl _, hib, fun k _ _ h1 h2 => absurd h2 (by omega),
        fun h1 => absurd h1 h⟩

theorem shiftRight_spec {α : Type} {lt : α → α → Bool} {R : α → α → Prop} {P : α → Prop}
    {lessIdx : List α → Nat → Nat → Option Bool}
    (hc : Compat lt R P) (hr : Reads lessIdx lt) (n j : Nat) (data : List α)
    (hP : ∀ x ∈ data, P x) (hj : 1 ≤ j) (hjn : j + n ≤ data.length) :
    ∃ d, shiftRight lessIdx n j data = some d ∧ (∀ a b, Moves R a b data d) ∧
      ∀ k, k + 1 < j → d[k]? = data[k]? := by
  induction n generalizing j data with
  | zero => exact ⟨data, rfl, fun a b => moves_refl R a b data, fun _ _ => rfl⟩
  | succ n ih =>
    unfold shiftRight
    obtain ⟨x, hx⟩ := getElem?_some_of_lt data j (by omega)
    obtain ⟨y, hy⟩ := getElem?_some_of_lt data (j - 1) (by omega)
    rw [hr data j (j - 1) x y hx hy]
    cases hlt : lt x y with
    | false => exact ⟨data, rfl, fun a b => moves_refl R a b data, fun _ _ => rfl⟩
    | true =>
      have hj' : j = j - 1 + 1 := by omega
      have hx' : data[j - 1 + 1]? = some x := by rw [← hj']; exact hx
      obtain ⟨d1, hd1, hm1, _, _, e3⟩ := moves_swap_adj hc 0 0 data hP (j - 1) x y hx' hy hlt
      rw [← hj'] at hd1
      have hmall : ∀ a b, Moves R a b data d1 := by
        intro a b
        obtain ⟨d2, hd2, hm2, _⟩ := moves_swap_adj hc a b data hP (j - 1) x y hx' hy hlt
        rw [← hj', hd1] at hd2
        cases hd2
        exact hm2
      simp only [hd1]
      have hlen : d1.length = data.length := hm1.1
      obtain ⟨d, hd, hm, hfr⟩ := ih (j + 1) d1 (moves_allP hm1 hP) (by omega) (by omega)
      refine ⟨d, hd, fun a b => moves_trans (hmall a b) (hm a b), ?_⟩
      intro k hk
      rw [hfr k (by omega), e3 k (by omega) (by omega)]

theorem partialInsertionSteps_spec {α : Type} {lt : α → α → Bool} {R : α → α → Prop}
    {P : α → Prop} {lessIdx : List α → Nat → Nat → Option Bool}
    (hc : Compat lt R P) (hr : Reads lessIdx lt) (a b : Nat) (steps i : Nat) (data : List α)
    (hP : ∀ x ∈ data, P x) (hai : a < i) (hib : i ≤ b) (hb : b ≤ data.length)
    (hca : Cut R data a)
    (inv : ∀ k, a < k → k < i → Adj R data k) :
    ∃ d r, partialInsertionSteps lessIdx a b steps i data = some (d, r) ∧
      (∀ a1 b1, Moves R a1 b1 data d) ∧
      (r = true → ∀ k, a < k → k < b → Adj R d k) := by
  induction steps generalizing i data with
  | zero =>
    exact ⟨data, false, rfl, fun a1 b1 => moves_refl R a1 b1 data,
      fun h => absurd h (by decide)⟩
  | succ steps ih =>
    unfold partialInsertionSteps
    obtain ⟨i1, hi1, hi2, hi3, hi4, hi5⟩ :=
      skipSorted_spec hr data b hb (b + 1 - i) i (by omega) hib (by omega)
    rw [hi1]
    simp only []
    have hadj : ∀ k, a < k → k < i1 → Adj R data k := by
      intro k hk1 hk2
      by_cases hk : k < i
      · exact inv k hk1 hk
      · intro x y _ hx hy
        exact hc.ge_R y x (hP y (mem_of_getElem?_eq_some hy)) (hP x (mem_of_getElem?_eq_some hx))
          (hi4 k y x (by omega) hk2 hy hx)
    by_cases he : i1 = b
    · rw [if_pos he]
      exact ⟨data, true, rfl, fun a1 b1 => moves_refl R a1 b1 data,
        fun _ k hk1 hk2 => hadj k hk1 (by omega)⟩
    · rw [if_neg he]
      by_cases h50 : b - a < 50
      · rw [if_pos h50]
        exact ⟨data, false, rfl, fun a1 b1 => moves_refl R a1 b1 data,
          fun h => absurd h (by decide)⟩
      · rw [if_neg h50]
        obtain ⟨x, hx⟩ := getElem?_some_of_lt data i1 (by omega)
        obtain ⟨y, hy⟩ := getElem?_some_of_lt data (i1 - 1) (by omega)
        have hlt : lt x y = true := hi5 (by omega) x y hx hy
        have hj' : i1 = i1 - 1 + 1 := by omega
        have hx' : data[i1 - 1 + 1]? = some x := by rw [← hj']; exact hx
        obtain ⟨d1, hd1, hm1, _, _, e3⟩ :=
          moves_swap_adj hc 0 0 data hP (i1 - 1) x y hx' hy hlt
        rw [← hj'] at hd1
        have hmall1 : ∀ a1 b1, Moves R a1 b1 data d1 := by
          intro a1 b1
          obtain ⟨d2, hd2, hm2, _⟩ := moves_swap_adj hc a1 b1 data hP (i1 - 1) x y hx' hy hlt
          rw [← hj', hd1] at hd2
          cases hd2
          exact hm2
        rw [hd1]
        simp only []
        have hlen1 : d1.length = data.length := hm1.1
        have hP1 : ∀ z ∈ d1, P z := moves_allP hm1 hP
        have hca1 : Cut R d1 a := (hmall1 a a).2.2 a (Or.inl (le_refl a)) hca
        have step2 : ∃ d2, (if 2 ≤ i1 - a then shiftLeft lessIdx 0 (i1 - 1) d1 else some d1)
            = some d2 ∧ (∀ a1 b1, Moves R a1 b1 d1 d2) ∧
            (∀ k, a < k → k < i1 → Adj R d2 k) := by
          by_cases h2 : 2 ≤ i1 - a
          · rw [if_pos h2]
            obtain ⟨d2, hd2, hm2, hadj2, _⟩ :=
              shiftLeft_spec hc hr 0 a (i1 - 1) (Nat.zero_le a) (i1 - 1) d1 hP1 (le_refl _)
                (by omega)
                (fun k hk1 hk2 hk3 _ =>
                  adj_congr R data d1 k (e3 (k - 1) (by omega) (by omega))
                    (e3 k (by omega) (by omega)) (hadj k hk1 (by omega)))
                (fun h => absurd h (by omega))
                (fun _ h => absurd h (by omega))
                (fun _ => hca1)
            exact ⟨d2, hd2, hm2, fun k hk1 hk2 => hadj2 k hk1 (by omega)⟩
          · rw [if_neg h2]
            exact ⟨d1, rfl, fun a1 b1 => moves_refl R a1 b1 d1,
              fun k hk1 hk2 => absurd hk2 (by omega)⟩
        obtain ⟨d2, hd2, hm2, hadj2⟩ := step2
        rw [hd2]
        simp only []
        have hlen2 : d2.length = d1.length := (hm2 0 0).1
        have hP2 : ∀ z ∈ d2, P z := moves_allP (hm2 0 0) hP1
        have step3 : ∃ d3, (if 2 ≤ b - i1 then shiftRight lessIdx (b - (i1 + 1)) (i1 + 1) d2
            else some d2) = some d3 ∧ (∀ a1 b1, Moves R a1 b1 d2 d3) ∧
            (∀ k, k < i1 → d3[k]? = d2[k]?) := by
          by_cases h2 : 2 ≤ b - i1
          · rw [if_pos h2]
            obtain ⟨d3, hd3, hm3, hfr3⟩ :=
              shiftRight_spec hc hr (b - (i1 + 1)) (i1 + 1) d2 hP2 (by omega) (by omega)
            exact ⟨d3, hd3, hm3, fun k hk => hfr3 k (by omega)⟩
          · rw [if_neg h2]
            exact ⟨d2, rfl, fun a1 b1 => moves_refl R a1 b1 d2, fun _ _ => rfl⟩
        obtain ⟨d3, hd3, hm3, hfr3⟩ := step3
        rw [hd3]
        simp only []
        have hm13 : ∀ a1 b1, Moves R a1 b1 data d3 :=
          fun a1 b1 => moves_trans (hmall1 a1 b1) (moves_trans (hm2 a1 b1) (hm3 a1 b1))
        obtain ⟨d, r, hd, hm, hres⟩ := ih i1 d3 (moves_allP (hm13 0 0) hP) (by omega) hi3
          (by rw [(hm13 0 0).1]; exact hb)
          ((hm13 a a).2.2 a (Or.inl (le_refl a)) hca)
          (fun k hk1 hk2 => adj_congr R d2 d3 k (hfr3 (k - 1) (by omega)) (hfr3 k hk2)
            (hadj2 k hk1 hk2))
        exact ⟨d, r, hd, fun a1 b1 => moves_trans (hm13 a1 b1) (hm a1 b1), hres⟩

theorem partialInsertionSort_func_spec {α : Type} {lt : α → α → Bool} {R : α → α → Prop}
    {P : α → Prop} {lessIdx : List α → Nat → Nat → Option Bool}
    (hc : Compat lt R P) (hr : Reads lessIdx lt) (data : List α) (a b : Nat)
    (hP : ∀ x ∈ data, P x) (hab : a < b) (hb : b ≤ data.length) (hca : Cut R data a) :
    ∃ d r, partialInsertionSort_func lessIdx data a b = some (d, r) ∧
      (∀ a1 b1, Moves R a1 b1 data d) ∧
      (r = true → ∀ k, a < k → k < b → Adj R d k) :=
  partialInsertionSteps_spec hc hr a b 5 (a + 1) data hP (by omega) (by omega) hb hca
    (fun k hk1 hk2 => absurd hk2 (by omega))

/-! ## Pivot, pattern breaking and reversal -/

theorem order2_func_spec {α : Type} {lt : α → α → Bool}
    {lessIdx : List α → Nat → Nat → Option Bool} (hr : Reads lessIdx lt) (data : List α)
    (lo hi : Nat) (hhi : hi ≤ data.length) (a b swaps : Nat)
    (ha : lo ≤ a ∧ a < hi) (hb : lo ≤ b ∧ b < hi) :
    ∃ a1 b1 s1, order2_func lessIdx data a b swaps = some (a1, b1, s1) ∧
      (lo ≤ a1 ∧ a1 < hi) ∧ (lo ≤ b1 ∧ b1 < hi) := by
  unfold order2_func
  obtain ⟨x, hx⟩ := getElem?_some_of_lt data a (by omega)
  obtain ⟨y, hy⟩ := getElem?_some_of_lt data b (by omega)
  rw [hr data b a y x hy hx]
  cases lt y x with
  | false => exact ⟨a, b, swaps, rfl, ha, hb⟩
  | true => exact ⟨b, a, swaps + 1, rfl, hb, ha⟩

theorem median_func_spec {α : Type} {lt : α → α → Bool}
    {lessIdx : List α → Nat → Nat → Option Bool} (hr : Reads lessIdx lt) (data : List α)
    (lo hi : Nat) (hhi : hi ≤ data.length) (a b c swaps : Nat)
    (ha : lo ≤ a ∧ a < hi) (hb : lo ≤ b ∧ b < hi) (hc : lo ≤ c ∧ c < hi) :
    ∃ m s, median_func lessIdx data a b c swaps = some (m, s) ∧ lo ≤ m ∧ m < hi := by
  unfold median_func
  obtain ⟨a1, b1, s1, h1, ha1, hb1⟩ := order2_func_spec hr data lo hi hhi a b swaps ha hb
  rw [h1]
  simp only []
  obtain ⟨b2, c2, s2, h2, hb2, _⟩ := order2_func_spec hr data lo hi hhi b1 c s1 hb1 hc
  rw [h2]
  simp only []
  obtain ⟨a3, b3, s3, h3, _, hb3⟩ := order2_func_spec hr data lo hi hhi a1 b2 s2 ha1 hb2
  rw [h3]
  exact ⟨b3, s3, rfl, hb3.1, hb3.2⟩

theorem choosePivot_func_spec {α : Type} {lt : α → α → Bool}
    {lessIdx : List α → Nat → Nat → Option Bool} (hr : Reads lessIdx lt) (data : List α)
    (a b : Nat) (hab : 8 ≤ b - a) (hb : b ≤ data.length) :
    ∃ pivot hint, choosePivot_func lessIdx data a b = some (pivot, hint) ∧
      a ≤ pivot ∧ pivot < b := by
  unfold choosePivot_func
  simp only []
  rw [if_pos hab]
  have h4 : 2 ≤ (b - a) / 4 := by omega
  have h5 : (b - a) / 4 * 4 ≤ b - a := Nat.div_mul_le_self _ _
  by_cases h50 : 50 ≤ b - a
  · rw [if_pos h50]
    obtain ⟨i1, s1, e1, hi1⟩ := median_func_spec hr data a b hb
      (a + (b - a) / 4 * 1 - 1) (a + (b - a) / 4 * 1) (a + (b - a) / 4 * 1 + 1) 0
      ⟨by omega, by omega⟩ ⟨by omega, by omega⟩ ⟨by omega, by omega⟩
    rw [e1]
    simp only []
    obtain ⟨j1, s2, e2, hj1⟩ := median_func_spec hr data a b hb
      (a + (b - a) / 4 * 2 - 1) (a + (b - a) / 4 * 2) (a + (b - a) / 4 * 2 + 1) s1
      ⟨by omega, by omega⟩ ⟨by omega, by omega⟩ ⟨by omega, by omega⟩
    rw [e2]
    simp only []
    obtain ⟨k1, s3, e3, hk1⟩ := median_func_spec hr data a b hb
      (a + (b - a) / 4 * 3 - 1) (a + (b - a) / 4 * 3) (a + (b - a) / 4 * 3 + 1) s2
      ⟨by omega, by omega⟩ ⟨by omega, by omega⟩ ⟨by omega, by omega⟩
    rw [e3]
    simp only []
    obtain ⟨j2, s4, e4, hj2⟩ := median_func_spec hr data a b hb i1 j1 k1 s3 hi1 hj1 hk1
    rw [e4]
    exact ⟨j2, _, rfl, hj2⟩
  · rw [if_neg h50]
    obtain ⟨j2, s4, e4, hj2⟩ := median_func_spec hr data a b hb
      (a + (b - a) / 4 * 1) (a + (b - a) / 4 * 2) (a + (b - a) / 4 * 3) 0
      ⟨by omega, by omega⟩ ⟨by omega, by omega⟩ ⟨by omega, by omega⟩
    rw [e4]
    exact ⟨j2, _, rfl, hj2⟩

theorem reverseLoop_spec {α : Type} (R : α → α → Prop) (a b : Nat) (fuel i j : Nat)
    (data : List α) (hai : a ≤ i) (hjb : j < b) (hb : b ≤ data.length) :
    ∃ d, reverseLoop fuel i j data = some d ∧ Moves R a b data d := by
  induction fuel generalizing i j data with
  | zero => exact ⟨data, rfl, moves_refl R a b data⟩
  | succ fuel ih =>
    unfold reverseLoop
    by_cases h : i < j
    · rw [if_pos h]
      obtain ⟨d1, hd1, hm1, _⟩ :=
        moves_swap_in R a b data i j ⟨hai, by omega⟩ ⟨by omega, hjb⟩ hb
      rw [hd1]
      simp only []
      obtain ⟨d, hd, hm⟩ := ih (i + 1) (j - 1) d1 (by omega) (by omega)
        (by rw [hm1.1]; exact hb)
      exact ⟨d, hd, moves_trans hm1 hm⟩
    · rw [if_neg h]
      exact ⟨data, rfl, moves_refl R a b data⟩

theorem reverseRange_func_spec {α : Type} (R : α → α → Prop) (data : List α) (a b : Nat)
    (hab : a < b) (hb : b ≤ data.length) :
    ∃ d, reverseRange_func data a b = some d ∧ Moves R a b data d :=
  reverseLoop_spec R a b (b - a) a (b - 1) data (le_refl a) (by omega) hb

theorem breakPatternsSwaps_spec {α : Type} (rnd : Nat → Nat) (R : α → α → Prop)
    (a b idx : Nat)
    (hidx : a + 1 ≤ idx ∧ idx + 1 < b) (hab : a < b) (n i random : Nat) (data : List α)
    (hn : i + n ≤ 3) (hb : b ≤ data.length) :
    ∃ d, breakPatternsSwaps rnd a (b - a) idx n i random data = some d ∧ Moves R a b data d := by
  induction n generalizing i random data with
  | zero => exact ⟨data, rfl, moves_refl R a b data⟩
  | succ n ih =>
    unfold breakPatternsSwaps
    simp only []
    have hpow : rnd random &&& (2 ^ bitsLen (b - a) - 1) < 2 * (b - a) := by
      have h1 : rnd random &&& (2 ^ bitsLen (b - a) - 1) < 2 ^ bitsLen (b - a) :=
        Nat.and_lt_two_pow _ (by
          have : 0 < 2 ^ bitsLen (b - a) := Nat.two_pow_pos _
          omega)
      have h2 : 2 ^ bitsLen (b - a) ≤ 2 * (b - a) := by
        unfold bitsLen
        rw [if_neg (by omega), Nat.pow_succ]
        have := Nat.log2_self_le (show b - a ≠ 0 by omega)
        omega
      omega
    obtain ⟨d1, hd1, hm1, _⟩ := moves_swap_in R a b data (idx - 1 + i)
      (a + (if b - a ≤ rnd random &&& (2 ^ bitsLen (b - a) - 1)
        then (rnd random &&& (2 ^ bitsLen (b - a) - 1)) - (b - a)
        else rnd random &&& (2 ^ bitsLen (b - a) - 1)))
      ⟨by omega, by omega⟩
      ⟨by omega, by
        split
        · omega
        · omega⟩ hb
    rw [hd1]
    simp only []
    obtain ⟨d, hd, hm⟩ := ih (i + 1) (rnd random) d1 (by omega)
      (by rw [hm1.1]; exact hb)
    exact ⟨d, hd, moves_trans hm1 hm⟩

theorem breakPatterns_func_spec {α : Type} (rnd : Nat → Nat) (R : α → α → Prop)
    (data : List α) (a b : Nat) (hb : b ≤ data.length) :
    ∃ d, breakPatterns_func rnd data a b = some d ∧ Moves R a b data d := by
  unfold breakPatterns_func
  by_cases h : 8 ≤ b - a
  · rw [if_pos h]
    have h5 : (b - a) / 4 * 4 ≤ b - a := Nat.div_mul_le_self _ _
    exact breakPatternsSwaps_spec rnd R a b (a + (b - a) / 4 * 2 - 1) ⟨by omega, by omega⟩
      (by omega) 3 0 (b - a) data (by omega) hb
  · rw [if_neg h]
    exact ⟨data, rfl, moves_refl R a b data⟩

/-! ## Heap sort -/

theorem siftDown_func_spec {α : Type} {lt : α → α → Bool} {R : α → α → Prop} {P : α → Prop}
    {lessIdx : List α → Nat → Nat → Option Bool}
    (hc : Compat lt R P) (hr : Reads lessIdx lt) (hi first lo0 : Nat) (fuel root : Nat)
    (d : List α) (hP : ∀ x ∈ d, P x) (hlen : first + hi ≤ d.length) (hlo : lo0 ≤ root)
    (hroot : root ≤ hi) (hf : hi + 1 ≤ fuel + root)
    (H : ∀ r, lo0 ≤ r → r ≠ root → HeapAt R d first hi r)
    (G : ∀ pr, lo0 ≤ pr → (root = 2 * pr + 1 ∨ root = 2 * pr + 2) →
      ∀ c x y, c < hi → (c = 2 * root + 1 ∨ c = 2 * root + 2) →
        d[first + c]? = some x → d[first + pr]? = some y → R x y) :
    ∃ d1, siftDown_func lessIdx hi first fuel root d = some d1 ∧
      Moves R first (first + hi) d d1 ∧ ∀ r, lo0 ≤ r → HeapAt R d1 first hi r := by
  induction fuel generalizing root d with
  | zero => omega
  | succ fuel ih =>
    unfold siftDown_func
    simp only []
    by_cases hch : hi ≤ 2 * root + 1
    · rw [if_pos hch]
      refine ⟨d, rfl, moves_refl R _ _ d, ?_⟩
      intro r hr1
      by_cases hrr : r = root
      · subst hrr
        intro c x y hc1 hc2 _ _
        omega
      · exact H r hr1 hrr
    · rw [if_neg hch]
      obtain ⟨xc, hxc⟩ := getElem?_some_of_lt d (first + (2 * root + 1)) (by omega)
      obtain ⟨x, hx⟩ := getElem?_some_of_lt d (first + root) (by omega)
      have hup : ∃ up : Bool, (if 2 * root + 1 + 1 < hi
          then lessIdx d (first + (2 * root + 1)) (first + (2 * root + 1) + 1)
          else some false) = some up ∧
          (if up then (2 * root + 1 + 1 : Nat) else 2 * root + 1) < hi ∧
          ∀ v, d[first + (if up then (2 * root + 1 + 1 : Nat) else 2 * root + 1)]? = some v →
            ∀ c z, c < hi → (c = 2 * root + 1 ∨ c = 2 * root + 2) →
              d[first + c]? = some z → R z v := by
        by_cases h2 : 2 * root + 1 + 1 < hi
        · rw [if_pos h2]
          obtain ⟨xd, hxd⟩ := getElem?_some_of_lt d (first + (2 * root + 1) + 1) (by omega)
          rw [hr d _ _ xc xd hxc hxd]
          have hPc : P xc := hP xc (mem_of_getElem?_eq_some hxc)
          have hPd : P xd := hP xd (mem_of_getElem?_eq_some hxd)
          cases hlt : lt xc xd with
          | false =>
            refine ⟨false, rfl, by simpa using (by omega : 2 * root + 1 < hi), ?_⟩
            intro v hv c z hc1 hc2 hz
            simp only [Bool.false_eq_true, if_false] at hv
            rw [hxc] at hv
            cases hv
            rcases hc2 with h | h
            · subst h
              rw [hxc] at hz
              cases hz
              exact compat_refl hc _ hPc
            · subst h
              rw [show first + (2 * root + 2) = first + (2 * root + 1) + 1 by omega, hxd] at hz
              cases hz
              exact hc.ge_R _ _ hPc hPd hlt
          | true =>
            refine ⟨true, rfl, by simpa using h2, ?_⟩
            intro v hv c z hc1 hc2 hz
            simp only [if_true] at hv
            rw [show first + (2 * root + 1 + 1) = first + (2 * root + 1) + 1 by omega, hxd] at hv
            cases hv
            rcases hc2 with h | h
            · subst h
              rw [hxc] at hz
              cases hz
              exact hc.lt_R _ _ hPc hPd hlt
            · subst h
              rw [show first + (2 * root + 2) = first + (2 * root + 1) + 1 by omega, hxd] at hz
              cases hz
              exact compat_refl hc _ hPd
        · rw [if_neg h2]
          refine ⟨false, rfl, by simpa using (by omega : 2 * root + 1 < hi), ?_⟩
          intro v hv c z hc1 hc2 hz
          simp only [Bool.false_eq_true, if_false] at hv
          rcases hc2 with h | h
          · subst h
            rw [hv] at hz
            cases hz
            exact compat_refl hc _ (hP _ (mem_of_getElem?_eq_some hv))
          · omega
      obtain ⟨up, hup1, hup2, hup3⟩ := hup
      rw [hup1]
      simp only []
      have hchv : (if up then (2 * root + 1 + 1 : Nat) else 2 * root + 1) = 2 * root + 1 ∨
          (if up then (2 * root + 1 + 1 : Nat) else 2 * root + 1) = 2 * root + 2 := by
        cases up
        · exact Or.inl rfl
        · exact Or.inr rfl
      generalize (if up then (2 * root + 1 + 1 : Nat) else 2 * root + 1) = ch at hup2 hup3 hchv ⊢
      obtain ⟨v, hv⟩ := getElem?_some_of_lt d (first + ch) (by omega)
      have hPx : P x := hP x (mem_of_getElem?_eq_some hx)
      have hPv : P v := hP v (mem_of_getElem?_eq_some hv)
      rw [hr d _ _ x v hx hv]
      cases hlt : lt x v with
      | false =>
        refine ⟨d, rfl, moves_refl R _ _ d, ?_⟩
        intro r hr1
        by_cases hrr : r = root
        · subst hrr
          intro c z y hc1 hc2 hz hy
          rw [hx] at hy
          cases hy
          exact hc.trans z v _ (hP z (mem_of_getElem?_eq_some hz)) hPv hPx
            (hup3 v hv c z hc1 hc2 hz) (hc.ge_R _ _ hPx hPv hlt)
        · exact H r hr1 hrr
      | true =>
        obtain ⟨d1, hd1, hm1, e1, e2, e3⟩ := moves_swap_in R first (first + hi) d
          (first + root) (first + ch) ⟨by omega, by omega⟩ ⟨by omega, by omega⟩ hlen
        rw [hd1]
        simp only []
        obtain ⟨d2, hd2, hm2, hheap⟩ := ih ch d1 (moves_allP hm1 hP)
          (by rw [hm1.1]; exact hlen) (by omega) (by omega) (by omega)
          (by
            intro r hr1 hr2 c z y hc1 hc2 hz hy
            by_cases hrr : r = root
            · subst hrr
              rw [e1, hv] at hy
              cases hy
              by_cases hcc : c = ch
              · subst hcc
                rw [e2, hx] at hz
                cases hz
                exact hc.lt_R _ _ hPx hPv hlt
              · rw [e3 (first + c) (by omega) (by omega)] at hz
                exact hup3 _ hv c z hc1 hc2 hz
            · rw [e3 (first + r) (by omega) (by omega)] at hy
              by_cases hcr : c = root
              · subst hcr
                rw [e1, hv] at hz
                cases hz
                exact G r hr1 hc2 ch _ y hup2 hchv hv hy
              · rw [e3 (first + c) (by omega) (by omega)] at hz
                exact H r hr1 hrr c z y hc1 hc2 hz hy)
          (by
            intro pr hpr1 hpr2 c z y hc1 hc2 hz hy
            have hpr : pr = root := by omega
            subst hpr
            rw [e1, hv] at hy
            cases hy
            rw [e3 (first + c) (by omega) (by omega)] at hz
            exact H ch (by omega) (by omega) c z _ hc1 hc2 hz hv)
        exact ⟨d2, hd2, moves_trans hm1 hm2, hheap⟩

theorem heapBuild_spec {α : Type} {lt : α → α → Bool} {R : α → α → Prop} {P : α → Prop}
    {lessIdx : List α → Nat → Nat → Option Bool}
    (hc : Compat lt R P) (hr : Reads lessIdx lt) (hi first : Nat) (n : Nat)
    (d : List α) (hP : ∀ x ∈ d, P x) (hlen : first + hi ≤ d.length) (hn : n ≤ hi)
    (H : ∀ r, n ≤ r → HeapAt R d first hi r) :
    ∃ d1, heapBuild lessIdx hi first n d = some d1 ∧
      Moves R first (first + hi) d d1 ∧ ∀ r, HeapAt R d1 first hi r := by
  induction n generalizing d with
  | zero => exact ⟨d, rfl, moves_refl R _ _ d, fun r => H r (Nat.zero_le r)⟩
  | succ n ih =>
    unfold heapBuild
    obtain ⟨d1, hd1, hm1, hh1⟩ := siftDown_func_spec hc hr hi first n (hi + 1) n d hP hlen
      (le_refl n) (by omega) (by omega)
      (fun r hr1 hr2 => H r (by omega))
      (fun pr hpr1 hpr2 => absurd hpr2 (by omega))
    rw [hd1]
    simp only []
    obtain ⟨d2, hd2, hm2, hh2⟩ := ih d1 (moves_allP hm1 hP) (by rw [hm1.1]; exact hlen)
      (by omega) hh1
    exact ⟨d2, hd2, moves_trans hm1 hm2, hh2⟩

/-- The first entry of a heap is not `R`-before any entry of the heap. -/
theorem heap_root_max {α : Type} {lt : α → α → Bool} {R : α → α → Prop} {P : α → Prop}
    (hc : Compat lt R P) (d : List α) (hP : ∀ x ∈ d, P x) (first hi : Nat)
    (hlen : first + hi ≤ d.length) (H : ∀ r, HeapAt R d first hi r)
    (j : Nat) (hj : j < hi) (x y : α) (hx : d[first + j]? = some x)
    (hy : d[first]? = some y) : R x y := by
  induction j using Nat.strong_induction_on generalizing x with
  | _ j ih =>
    by_cases h0 : j = 0
    · subst h0
      rw [Nat.add_zero, hy] at hx
      cases hx
      exact compat_refl hc _ (hP _ (mem_of_getElem?_eq_some hy))
    · obtain ⟨z, hz⟩ := getElem?_some_of_lt d (first + (j - 1) / 2) (by omega)
      have h1 : R x z := H ((j - 1) / 2) j x z hj (by omega) hx hz
      have h2 : R z y := ih ((j - 1) / 2) (by omega) (by omega) z hz
      exact hc.trans x z y (hP x (mem_of_getElem?_eq_some hx)) (hP z (mem_of_getElem?_eq_some hz))
        (hP y (mem_of_getElem?_eq_some hy)) h1 h2

theorem heapPop_spec {α : Type} {lt : α → α → Bool} {R : α → α → Prop} {P : α → Prop}
    {lessIdx : List α → Nat → Nat → Option Bool}
    (hc : Compat lt R P) (hr : Reads lessIdx lt) (first b : Nat) (n : Nat)
    (d : List α) (hP : ∀ x ∈ d, P x) (hnb : first + n ≤ b) (hb : b ≤ d.length)
    (H : ∀ r, HeapAt R d first n r) (hca : Cut R d first)
    (hcuts : ∀ c, first + n ≤ c → c ≤ b → Cut R d c) :
    ∃ d1, heapPop lessIdx first n d = some d1 ∧ Moves R first b d d1 ∧
      ∀ c, first ≤ c → c ≤ b → Cut R d1 c := by
  induction n generalizing d with
  | zero => exact ⟨d, rfl, moves_refl R _ _ d, fun c h1 h2 => hcuts c (by omega) h2⟩
  | succ n ih =>
    unfold heapPop
    obtain ⟨d1, hd1, hm1, e1, e2, e3⟩ := moves_swap_in R first (first + (n + 1)) d first
      (first + n) ⟨by omega, by omega⟩ ⟨by omega, by omega⟩ (by omega)
    rw [hd1]
    simp only []
    have hP1 : ∀ x ∈ d1, P x := moves_allP hm1 hP
    have hlen1 : d1.length = d.length := hm1.1
    obtain ⟨top, htop⟩ := getElem?_some_of_lt d first (by omega)
    have hca1 : Cut R d1 first := hm1.2.2 first (Or.inl (le_refl _)) hca
    have hcuts1 : ∀ c, first + (n + 1) ≤ c → c ≤ b → Cut R d1 c :=
      fun c h1 h2 => hm1.2.2 c (Or.inr h1) (hcuts c h1 h2)
    have hcn : Cut R d1 (first + n) := by
      intro k m x y hk hkm hx hy
      by_cases hk1 : k < first
      · exact hca1 k m x y hk1 (by omega) hx hy
      · by_cases hm' : first + (n + 1) ≤ m
        · by_cases hmb : m < b
          · exact hcuts1 (first + (n + 1)) (le_refl _) (by omega) k m x y (by omega) hm' hx hy
          · exact hcuts1 b (by omega) (le_refl _) k m x y (by omega) (by omega) hx hy
        · have hmn : m = first + n := by omega
          subst hmn
          rw [e2, htop] at hy
          cases hy
          by_cases hkf : k = first
          · subst hkf
            rw [e1] at hx
            exact heap_root_max hc d hP k (n + 1) (by omega) H n (by omega) x _ hx htop
          · rw [e3 k hkf (by omega)] at hx
            have hk' : k = first + (k - first) := by omega
            rw [hk'] at hx
            exact heap_root_max hc d hP first (n + 1) (by omega) H (k - first) (by omega) x _ hx
              htop
    obtain ⟨d2, hd2, hm2, hh2⟩ := siftDown_func_spec hc hr n first 0 (n + 1) 0 d1 hP1
      (by omega) (le_refl 0) (Nat.zero_le n) (by omega)
      (by
        intro r _ hr2 c x y hc1 hc2 hx hy
        rw [e3 (first + c) (by omega) (by omega)] at hx
        rw [e3 (first + r) (by omega) (by omega)] at hy
        exact H r c x y (by omega) hc2 hx hy)
      (fun pr _ hpr2 => absurd hpr2 (by omega))
    rw [hd2]
    simp only []
    have hP2 : ∀ x ∈ d2, P x := moves_allP hm2 hP1
    obtain ⟨d3, hd3, hm3, hres⟩ := ih d2 hP2 (by omega) (by rw [hm2.1, hlen1]; exact hb)
      (fun r => hh2 r (Nat.zero_le r)) (hm2.2.2 first (Or.inl (le_refl _)) hca1)
      (by
        intro c h1 h2
        by_cases hcn' : c = first + n
        · subst hcn'
          exact hm2.2.2 _ (Or.inr (le_refl _)) hcn
        · exact hm2.2.2 c (Or.inr (by omega)) (hcuts1 c (by omega) h2))
    exact ⟨d3, hd3, moves_trans (moves_mono hm1 (le_refl _) (by omega))
      (moves_trans (moves_mono hm2 (le_refl _) (by omega)) hm3), hres⟩

theorem heapSort_func_spec {α : Type} {lt : α → α → Bool} {R : α → α → Prop} {P : α → Prop}
    {lessIdx : List α → Nat → Nat → Option Bool}
    (hc : Compat lt R P) (hr : Reads lessIdx lt) (data : List α) (a b : Nat)
    (hP : ∀ x ∈ data, P x) (hab : a < b) (hb : b ≤ data.length)
    (hca : Cut R data a) (hcb : Cut R data b) :
    ∃ d, heapSort_func lessIdx data a b = some d ∧ Moves R a b data d ∧
      ∀ c, a ≤ c → c ≤ b → Cut R d c := by
  unfold heapSort_func
  have hab' : a + (b - a) = b := by omega
  obtain ⟨d1, hd1, hm1, hh1⟩ := heapBuild_spec hc hr (b - a) a ((b - a - 1) / 2 + 1) data hP
    (by omega) (by omega)
    (by
      intro r hr1 c x y hc1 hc2 _ _
      omega)
  rw [hd1]
  simp only []
  rw [hab'] at hm1
  obtain ⟨d2, hd2, hm2, hres⟩ := heapPop_spec hc hr a b (b - a) d1 (moves_allP hm1 hP)
    (by omega) (by rw [hm1.1]; exact hb) hh1 (hm1.2.2 a (Or.inl (le_refl _)) hca)
    (by
      intro c h1 h2
      have : c = b := by omega
      subst this
      exact hm1.2.2 c (Or.inr (le_refl _)) hcb)
  exact ⟨d2, hd2, moves_trans hm1 hm2, hres⟩

/-! ## The sorting routine -/

theorem pdqsort_func_spec {α : Type} {lt : α → α → Bool} {R : α → α → Prop} {P : α → Prop}
    {lessIdx : List α → Nat → Nat → Option Bool} (rnd : Nat → Nat)
    (hc : Compat lt R P) (hr : Reads lessIdx lt) (fuel : Nat) :
    ∀ (data : List α) (a b limit : Nat) (wb wp : Bool), (∀ x ∈ data, P x) → a ≤ b →
      b ≤ data.length → b - a < fuel → Cut R data a → Cut R data b →
      ∃ d, pdqsort_func rnd lessIdx fuel data a b limit wb wp = some d ∧ Moves R a b data d ∧
        ∀ c, a ≤ c → c ≤ b → Cut R d c := by
  induction fuel with
  | zero =>
    intro data a b limit wb wp _ _ _ hf
    omega
  | succ fuel ih =>
    intro data a b limit wb wp hP hab hb hf hca hcb
    unfold pdqsort_func
    simp only []
    by_cases h12 : b - a ≤ 12
    · rw [if_pos h12]
      obtain ⟨d, hd, hm, hadj⟩ := insertionSort_func_spec hc hr data a b hP hb
      exact ⟨d, hd, hm a b, cuts_of_adj hc d (moves_allP (hm a b) hP) a b
        ((hm a b).2.2 a (Or.inl (le_refl _)) hca) ((hm a b).2.2 b (Or.inr (le_refl _)) hcb) hadj⟩
    · rw [if_neg h12]
      by_cases hl : limit = 0
      · rw [if_pos hl]
        exact heapSort_func_spec hc hr data a b hP (by omega) hb hca hcb
      · rw [if_neg hl]
        have s1 : ∃ d1, (if wb = true then some data else breakPatterns_func rnd data a b)
            = some d1 ∧
            Moves R a b data d1 := by
          cases wb
          · simpa using breakPatterns_func_spec rnd R data a b hb
          · exact ⟨data, by simp, moves_refl R a b data⟩
        obtain ⟨d1, hd1, hm1⟩ := s1
        rw [hd1]
        simp only []
        have hlen1 : d1.length = data.length := hm1.1
        obtain ⟨pivot0, hint0, hcp, hp1, hp2⟩ :=
          choosePivot_func_spec hr d1 a b (by omega) (by omega)
        rw [hcp]
        simp only []
        have s2 : ∃ d2, (if hint0 = 2 then reverseRange_func d1 a b else some d1) = some d2 ∧
            Moves R a b d1 d2 := by
          by_cases h2 : hint0 = 2
          · rw [if_pos h2]
            exact reverseRange_func_spec R d1 a b (by omega) (by omega)
          · rw [if_neg h2]
            exact ⟨d1, rfl, moves_refl R a b d1⟩
        obtain ⟨d2, hd2, hm2⟩ := s2
        rw [hd2]
        simp only []
        have hm12 : Moves R a b data d2 := moves_trans hm1 hm2
        have hP2 : ∀ x ∈ d2, P x := moves_allP hm12 hP
        have hpv : a ≤ (if hint0 = 2 then b - 1 - (pivot0 - a) else pivot0) ∧
            (if hint0 = 2 then b - 1 - (pivot0 - a) else pivot0) < b := by
          split <;> omega
        generalize (if hint0 = 2 then b - 1 - (pivot0 - a) else pivot0) = pivot at hpv ⊢
        generalize (if hint0 = 2 then 1 else hint0) = hint
        have s3 : ∃ d3 r, (if (wb && wp && hint == 1) = true
            then partialInsertionSort_func lessIdx d2 a b else some (d2, false)) = some (d3, r) ∧
            Moves R a b d2 d3 ∧ (r = true → ∀ k, a < k → k < b → Adj R d3 k) := by
          by_cases h3 : (wb && wp && hint == 1) = true
          · rw [if_pos h3]
            obtain ⟨d3, r, hd3, hm3, hadj⟩ := partialInsertionSort_func_spec hc hr d2 a b hP2
              (by omega) (by rw [hm12.1]; exact hb) (hm12.2.2 a (Or.inl (le_refl _)) hca)
            exact ⟨d3, r, hd3, hm3 a b, hadj⟩
          · rw [if_neg h3]
            exact ⟨d2, false, rfl, moves_refl R a b d2, fun h => absurd h (by decide)⟩
        obtain ⟨d3, r, hd3, hm3, hadj⟩ := s3
        rw [hd3]
        have hm13 : Moves R a b data d3 := moves_trans hm12 hm3
        have hP3 : ∀ x ∈ d3, P x := moves_allP hm13 hP
        have hlen3 : d3.length = data.length := hm13.1
        have hca3 : Cut R d3 a := hm13.2.2 a (Or.inl (le_refl _)) hca
        have hcb3 : Cut R d3 b := hm13.2.2 b (Or.inr (le_refl _)) hcb
        cases r with
        | true =>
          simp only []
          exact ⟨d3, rfl, hm13, cuts_of_adj hc d3 hP3 a b hca3 hcb3 (hadj rfl)⟩
        | false =>
          simp only []
          obtain ⟨pv, hpvv⟩ := getElem?_some_of_lt d3 pivot (by omega)
          have s4 : ∃ t : Bool, (if 0 < a then lessIdx d3 (a - 1) pivot else some true) = some t ∧
              (t = false → 0 < a ∧ ∃ tv, d3[a - 1]? = some tv ∧ lt tv pv = false) := by
            by_cases h0 : 0 < a
            · rw [if_pos h0]
              obtain ⟨tv, htv⟩ := getElem?_some_of_lt d3 (a - 1) (by omega)
              rw [hr d3 (a - 1) pivot tv pv htv hpvv]
              exact ⟨lt tv pv, rfl, fun h => ⟨h0, tv, htv, h⟩⟩
            · rw [if_neg h0]
              exact ⟨true, rfl, fun h => absurd h (by decide)⟩
          obtain ⟨t, ht, htf⟩ := s4
          rw [ht]
          cases t with
          | false =>
            simp only []
            obtain ⟨h0, tv, htv, hlt⟩ := htf rfl
            obtain ⟨d4, mid, hd4, hm4, hmid1, hmid2, hcuts4⟩ :=
              partitionEqual_func_spec hc hr d3 a b pivot hP3 hpv.1 hpv.2 (by omega) hca3 hcb3
                h0 tv pv htv hpvv hlt
            rw [hd4]
            simp only []
            have hm14 : Moves R a b data d4 := moves_trans hm13 hm4
            obtain ⟨d5, hd5, hm5, hcuts5⟩ := ih d4 mid b _ wb wp (moves_allP hm14 hP) hmid2
              (by rw [hm14.1]; exact hb) (by omega) (hcuts4 mid (by omega) (le_refl _))
              (hm14.2.2 b (Or.inr (le_refl _)) hcb)
            refine ⟨d5, hd5, moves_trans hm14 (moves_mono hm5 (by omega) (le_refl _)), ?_⟩
            intro c hc1 hc2
            by_cases hcm : mid ≤ c
            · exact hcuts5 c hcm hc2
            · exact hm5.2.2 c (Or.inl (by omega)) (hcuts4 c hc1 (by omega))
          | true =>
            simp only []
            obtain ⟨d4, mid, ap, hd4, hm4, hmid1, hmid2, hcm1, hcm2⟩ :=
              partition_func_spec hc hr d3 a b pivot hP3 hpv.1 hpv.2 (by omega) hca3 hcb3
            rw [hd4]
            simp only []
            have hm14 : Moves R a b data d4 := moves_trans hm13 hm4
            have hP4 : ∀ x ∈ d4, P x := moves_allP hm14 hP
            have hlen4 : d4.length = data.length := hm14.1
            have hca4 : Cut R d4 a := hm14.2.2 a (Or.inl (le_refl _)) hca
            have hcb4 : Cut R d4 b := hm14.2.2 b (Or.inr (le_refl _)) hcb
            by_cases hlr : mid - a < b - mid
            · rw [if_pos hlr]
              obtain ⟨d5, hd5, hm5, hcuts5⟩ := ih d4 a mid _ true true hP4 hmid1 (by omega)
                (by omega) hca4 hcm1
              rw [hd5]
              simp only []
              obtain ⟨d6, hd6, hm6, hcuts6⟩ := ih d5 (mid + 1) b _
                (decide ((b - a) / 8 ≤ mid - a)) ap (moves_allP hm5 hP4) (by omega)
                (by rw [hm5.1]; omega) (by omega)
                (hm5.2.2 (mid + 1) (Or.inr (by omega)) hcm2)
                (hm5.2.2 b (Or.inr (by omega)) hcb4)
              refine ⟨d6, hd6, moves_trans hm14 (moves_trans
                (moves_mono hm5 (le_refl _) (by omega)) (moves_mono hm6 (by omega) (le_refl _))),
                ?_⟩
              intro c hc1 hc2
              by_cases hcm : mid + 1 ≤ c
              · exact hcuts6 c hcm hc2
              · exact hm6.2.2 c (Or.inl (by omega)) (hcuts5 c hc1 (by omega))
            · rw [if_neg hlr]
              obtain ⟨d5, hd5, hm5, hcuts5⟩ := ih d4 (mid + 1) b _ true true hP4 (by omega)
                (by omega) (by omega) hcm2 hcb4
              rw [hd5]
              simp only []
              obtain ⟨d6, hd6, hm6, hcuts6⟩ := ih d5 a mid _
                (decide ((b - a) / 8 ≤ b - mid)) ap (moves_allP hm5 hP4) hmid1
                (by rw [hm5.1]; omega) (by omega)
                (hm5.2.2 a (Or.inl (by omega)) hca4)
                (hm5.2.2 mid (Or.inl (by omega)) hcm1)
              refine ⟨d6, hd6, moves_trans hm14 (moves_trans
                (moves_mono hm5 (by omega) (le_refl _)) (moves_mono hm6 (le_refl _) (by omega))),
                ?_⟩
              intro c hc1 hc2
              by_cases hcm : c ≤ mid
              · exact hcuts6 c hc1 hcm
              · exact hm6.2.2 c (Or.inr (by omega)) (hcuts5 c (by omega) hc2)

/-! ## A slice that is already in order -/

theorem shiftLeft_fixed {α : Type} {lt : α → α → Bool}
    {lessIdx : List α → Nat → Nat → Option Bool} (hr : Reads lessIdx lt) (data : List α)
    (hs : InOrder lt data)
    (a j : Nat) (hj : j < data.length) : shiftLeft lessIdx a j data = some data := by
  cases j with
  | zero => rfl
  | succ j =>
    unfold shiftLeft
    by_cases ha : a < j + 1
    · rw [if_pos ha]
      obtain ⟨x, hx⟩ := getElem?_some_of_lt data (j + 1) hj
      obtain ⟨y, hy⟩ := getElem?_some_of_lt data j (by omega)
      rw [hr data (j + 1) j x y hx hy, hs j (j + 1) y x (by omega) hy hx]
    · rw [if_neg ha]

theorem insertionPasses_fixed {α : Type} {lt : α → α → Bool}
    {lessIdx : List α → Nat → Nat → Option Bool} (hr : Reads lessIdx lt) (data : List α)
    (hs : InOrder lt data)
    (a n i : Nat) (hi : i + n ≤ data.length) :
    insertionPasses lessIdx a n i data = some data := by
  induction n generalizing i with
  | zero => rfl
  | succ n ih =>
    unfold insertionPasses
    rw [shiftLeft_fixed hr data hs a i (by omega)]
    exact ih (i + 1) (by omega)

theorem order2_func_fixed {α : Type} {lt : α → α → Bool}
    {lessIdx : List α → Nat → Nat → Option Bool} (hr : Reads lessIdx lt) (data : List α)
    (hs : InOrder lt data)
    (a b swaps : Nat) (hab : a < b) (hb : b < data.length) :
    order2_func lessIdx data a b swaps = some (a, b, swaps) := by
  unfold order2_func
  obtain ⟨x, hx⟩ := getElem?_some_of_lt data a (by omega)
  obtain ⟨y, hy⟩ := getElem?_some_of_lt data b hb
  rw [hr data b a y x hy hx, hs a b x y hab hx hy]

theorem median_func_fixed {α : Type} {lt : α → α → Bool}
    {lessIdx : List α → Nat → Nat → Option Bool} (hr : Reads lessIdx lt) (data : List α)
    (hs : InOrder lt data)
    (a b c swaps : Nat) (hab : a < b) (hbc : b < c) (hc : c < data.length) :
    median_func lessIdx data a b c swaps = some (b, swaps) := by
  unfold median_func
  rw [order2_func_fixed hr data hs a b swaps hab (by omega)]
  simp only []
  rw [order2_func_fixed hr data hs b c swaps hbc hc]
  simp only []
  rw [order2_func_fixed hr data hs a b swaps hab (by omega)]

theorem choosePivot_func_fixed {α : Type} {lt : α → α → Bool}
    {lessIdx : List α → Nat → Nat → Option Bool} (hr : Reads lessIdx lt) (data : List α)
    (hs : InOrder lt data)
    (a b : Nat) (hab : 8 ≤ b - a) (hb : b ≤ data.length) :
    choosePivot_func lessIdx data a b = some (a + (b - a) / 4 * 2, 1) := by
  unfold choosePivot_func
  simp only []
  rw [if_pos hab]
  have h4 : 2 ≤ (b - a) / 4 := by omega
  have h5 : (b - a) / 4 * 4 ≤ b - a := Nat.div_mul_le_self _ _
  by_cases h50 : 50 ≤ b - a
  · rw [if_pos h50]
    rw [median_func_fixed hr data hs _ _ _ 0 (by omega) (by omega) (by omega)]
    simp only []
    rw [median_func_fixed hr data hs _ _ _ 0 (by omega) (by omega) (by omega)]
    simp only []
    rw [median_func_fixed hr data hs _ _ _ 0 (by omega) (by omega) (by omega)]
    simp only []
    rw [median_func_fixed hr data hs _ _ _ 0 (by omega) (by omega) (by omega)]
    simp
  · rw [if_neg h50]
    rw [median_func_fixed hr data hs _ _ _ 0 (by omega) (by omega) (by omega)]
    simp

theorem skipSorted_fixed {α : Type} {lt : α → α → Bool}
    {lessIdx : List α → Nat → Nat → Option Bool} (hr : Reads lessIdx lt) (data : List α)
    (hs : InOrder lt data)
    (b : Nat) (hb : b ≤ data.length) (fuel i : Nat) (hi : 1 ≤ i) (hib : i ≤ b)
    (hf : b + 1 ≤ fuel + i) : skipSorted lessIdx data b fuel i = some b := by
  induction fuel generalizing i with
  | zero => omega
  | succ fuel ih =>
    unfold skipSorted
    by_cases h : i < b
    · rw [if_pos h]
      obtain ⟨x, hx⟩ := getElem?_some_of_lt data i (by omega)
      obtain ⟨y, hy⟩ := getElem?_some_of_lt data (i - 1) (by omega)
      rw [hr data i (i - 1) x y hx hy, hs (i - 1) i y x (by omega) hy hx]
      exact ih (i + 1) (by omega) (by omega) (by omega)
    · rw [if_neg h]
      have : i = b := by omega
      rw [this]

theorem pdqsort_func_fixed {α : Type} {lt : α → α → Bool}
    {lessIdx : List α → Nat → Nat → Option Bool} (rnd : Nat → Nat) (hr : Reads lessIdx lt)
    (data : List α)
    (hs : InOrder lt data)
    (fuel a b limit : Nat) (hab : a ≤ b) (hb : b ≤ data.length) (hl : 12 < b - a → limit ≠ 0) :
    pdqsort_func rnd lessIdx (fuel + 1) data a b limit true true = some data := by
  unfold pdqsort_func
  simp only []
  by_cases h12 : b - a ≤ 12
  · rw [if_pos h12]
    unfold insertionSort_func
    by_cases h : a + 1 ≤ b
    · exact insertionPasses_fixed hr data hs a _ _ (by omega)
    · have h0 : b - (a + 1) = 0 := by omega
      rw [h0]
      rfl
  · rw [if_neg h12, if_neg (hl (by omega))]
    simp only [if_true]
    rw [choosePivot_func_fixed hr data hs a b (by omega) hb]
    simp only []
    have e1 : ((1 : Nat) = 2) = False := by simp
    simp only [e1, if_false]
    unfold partialInsertionSort_func partialInsertionSteps
    rw [skipSorted_fixed hr data hs b hb _ _ (by omega) (by omega) (by omega)]
    simp

/-! ## The call of `sort.Slice` -/

theorem reads_lessOf {α : Type} (less : α → α → Bool) : Reads (lessOf less) less := by
  intro q i j a b hi hj
  simp [lessOf, hi, hj]

theorem cut_zero {α : Type} (R : α → α → Prop) (d : List α) : Cut R d 0 :=
  fun k _ _ _ hk => absurd hk (by omega)

theorem cut_length {α : Type} (R : α → α → Prop) (d : List α) : Cut R d d.length := by
  intro k m x y _ hm _ hy
  have := (List.getElem?_eq_some.mp hy).1
  omega

/-- The routine returns, with a rearrangement of the slice that is in order for
every transitive relation the closure decides on the entries of the slice. -/
theorem sortSliceChecked_spec {α : Type} {lt : α → α → Bool} {R : α → α → Prop}
    {P : α → Prop} {lessIdx : List α → Nat → Nat → Option Bool} (rnd : Nat → Nat)
    (hc : Compat lt R P) (hr : Reads lessIdx lt) (x : List α) (hP : ∀ e ∈ x, P e) :
    ∃ d, sortSliceChecked rnd x lessIdx = some d ∧ d.Perm x ∧ d.Pairwise R := by
  obtain ⟨d, hd, hm, hcuts⟩ := pdqsort_func_spec rnd hc hr (x.length + 1) x 0 x.length
    (bitsLen x.length) true true hP (Nat.zero_le _) (le_refl _) (by omega) (cut_zero R x)
    (cut_length R x)
  refine ⟨d, hd, hm.2.1, pairwise_of_cuts R d ?_⟩
  intro c
  by_cases h : c ≤ x.length
  · exact hcuts c (Nat.zero_le _) h
  · intro k m u v _ hm' _ hv
    have := (List.getElem?_eq_some.mp hv).1
    have := hm.1
    omega

/-- The routine returns for every slice and every closure that reads the two
entries at its indices, and the result is a rearrangement of the slice. -/
theorem sortSliceChecked_some {α : Type} {lt : α → α → Bool}
    {lessIdx : List α → Nat → Nat → Option Bool} (rnd : Nat → Nat) (hr : Reads lessIdx lt)
    (x : List α) :
    ∃ d, sortSliceChecked rnd x lessIdx = some d ∧ d.Perm x := by
  have hc : Compat lt (fun _ _ => True) (fun _ => True) :=
    ⟨fun _ _ _ _ _ => trivial, fun _ _ _ _ _ => trivial, fun _ _ _ _ _ _ _ _ => trivial⟩
  obtain ⟨d, hd, hp, _⟩ := sortSliceChecked_spec rnd hc hr x (fun _ _ => trivial)
  exact ⟨d, hd, hp⟩

theorem sortSlice_eq {α : Type} (rnd : Nat → Nat) (x : List α) (less : α → α → Bool) :
    sortSliceChecked rnd x (lessOf less) = some (sortSlice rnd x less) := by
  obtain ⟨d, hd, _⟩ := sortSliceChecked_some rnd (reads_lessOf less) x
  simp [sortSlice, hd]

/-- The result of `sort.Slice` is a rearrangement of the slice. -/
theorem sortSlice_perm {α : Type} (rnd : Nat → Nat) (x : List α) (less : α → α → Bool) :
    (sortSlice rnd x less).Perm x := by
  obtain ⟨d, hd, hp⟩ := sortSliceChecked_some rnd (reads_lessOf less) x
  have := sortSlice_eq rnd x less
  rw [hd] at this
  cases this
  exact hp

/-- The result of `sort.Slice` is in order for every relation the comparison
decides on the entries of the slice and that is transitive on them. -/
theorem sortSlice_pairwise_on {α : Type} (rnd : Nat → Nat) {less : α → α → Bool}
    {R : α → α → Prop} {P : α → Prop} (hc : Compat less R P) (x : List α) (hP : ∀ e ∈ x, P e) :
    (sortSlice rnd x less).Pairwise R := by
  obtain ⟨d, hd, _, hpw⟩ := sortSliceChecked_spec rnd hc (reads_lessOf less) x hP
  have := sortSlice_eq rnd x less
  rw [hd] at this
  cases this
  exact hpw

/-- The result of `sort.Slice` is in order for every transitive relation decided
by the comparison. -/
theorem sortSlice_pairwise {α : Type} (rnd : Nat → Nat) (less : α → α → Bool)
    (R : α → α → Prop)
    (hlt : ∀ a b, less a b = true → R a b)
    (hge : ∀ a b, less a b = false → R b a)
    (htr : ∀ a b c, R a b → R b c → R a c) (x : List α) :
    (sortSlice rnd x less).Pairwise R :=
  sortSlice_pairwise_on rnd (P := fun _ => True)
    ⟨fun a b _ _ h => hlt a b h, fun a b _ _ h => hge a b h,
      fun a b c _ _ _ h1 h2 => htr a b c h1 h2⟩ x (fun _ _ => trivial)

/-- Reading of `List.Pairwise` by positions. -/
theorem pairwise_at {α : Type} {R : α → α → Prop} {l : List α} (h : l.Pairwise R)
    {i j : Nat} {a b : α} (hij : i < j) (hi : l[i]? = some a) (hj : l[j]? = some b) :
    R a b := by
  obtain ⟨hi1, rfl⟩ := List.getElem?_eq_some.mp hi
  obtain ⟨hj1, rfl⟩ := List.getElem?_eq_some.mp hj
  exact List.pairwise_iff_getElem.mp h i j hi1 hj1 hij

/-- A slice in which no entry is before an earlier one is left as it is by
`sort.Slice`. -/
theorem sortSlice_fixed {α : Type} (rnd : Nat → Nat) (lt : α → α → Bool) (q : List α)
    (hq : q.Pairwise (fun a b => lt b a = false)) : sortSlice rnd q lt = q := by
  have hs : InOrder lt q := fun i j x y hij hx hy => pairwise_at hq hij hx hy
  have h := pdqsort_func_fixed rnd (reads_lessOf lt) q hs q.length 0 q.length (bitsLen q.length)
    (Nat.zero_le _) (le_refl _) (by
      intro h12
      unfold bitsLen
      rw [if_neg (by omega)]
      omega)
  have h2 := sortSlice_eq rnd q lt
  unfold sortSliceChecked at h2
  rw [h] at h2
  exact (Option.some.inj h2).symm

/-- The call of `sort.Slice` on a slice of two entries: they are exchanged exactly
when the closure puts the second before the first. -/
theorem sortSlice_pair {α : Type} (rnd : Nat → Nat) (less : α → α → Bool) (a b : α) :
    sortSlice rnd [a, b] less = if less b a then [b, a] else [a, b] := by
  cases h : less b a <;>
    simp [sortSlice, sortSliceChecked, pdqsort_func, insertionSort_func, insertionPasses,
      shiftLeft, lessOf, swapIdx, h]
/-! ## Strings and orders -/

theorem char_eq_of_toNat_eq {a b : Char} (h : a.toNat = b.toNat) : a = b := by
  apply Char.ext
  apply UInt32.ext
  exact h

theorem charsLess_iff (a b : List Char) : charsLess a b = true ↔ a < b := by
  induction a generalizing b with
  | nil =>
    cases b with
    | nil => simp [charsLess]
    | cons d ds => simpa [charsLess] using List.nil_lt_cons d ds
  | cons c cs ih =>
    cases b with
    | nil => simp [charsLess]
    | cons d ds =>
      unfold charsLess
      by_cases h1 : c.toNat < d.toNat
      · simp only [h1, if_true, true_iff]
        exact List.Lex.rel h1
      · by_cases h2 : d.toNat < c.toNat
        · simp only [h1, h2, if_true, if_false, Bool.false_eq_true, false_iff]
          have hdc : d < c := h2
          intro hlt
          have : (d :: ds) < (c :: cs) := List.Lex.rel hdc
          exact lt_asymm hlt this
        · have hcd : c = d := char_eq_of_toNat_eq (by omega)
          subst hcd
          simp only [h1, if_false]
          rw [ih ds]
          exact List.Lex.cons_iff.symm

theorem stringLess_iff (a b : String) : stringLess a b = true ↔ a < b := by
  unfold stringLess
  rw [charsLess_iff, String.lt_iff_toList_lt]
  rfl

theorem StrictWeakOrder.asymm {α : Type} {lt : α → α → Bool} (h : StrictWeakOrder lt)
    (a b : α) (hab : lt a b = true) : lt b a = false := by
  cases hba : lt b a with
  | false => rfl
  | true =>
    have := h.trans a b a hab hba
    rw [h.irrefl a] at this
    exact absurd this (by decide)

theorem StrictWeakOrder.negTrans {α : Type} {lt : α → α → Bool} (h : StrictWeakOrder lt)
    (a b c : α) (hba : lt b a = false) (hcb : lt c b = false) : lt c a = false := by
  cases hca : lt c a with
  | false => rfl
  | true =>
    have hab : lt a b = false := by
      cases hab : lt a b with
      | false => rfl
      | true => rw [h.trans c a b hca hab] at hcb; exact absurd hcb (by decide)
    have hbc : lt b c = false := by
      cases hbc : lt b c with
      | false => rfl
      | true => rw [h.trans b c a hbc hca] at hba; exact absurd hba (by decide)
    have := (h.incomp_trans a b c hab hba hbc hcb).2
    rw [hca] at this
    exact absurd this (by decide)

/-- Comparison by a key of a linear order, then by name: asymmetric. -/
theorem keyed_asymm {K : Type} [LinearOrder K] (dec : ∀ x y : K, Decidable (x = y))
    {nl : String → String → Bool}
    (h : StrictWeakOrder nl) (kl : K → K → Bool) (hkl : ∀ x y, kl x y = true ↔ x < y)
    (ka kb : K) (na nb : String)
    (hab : (@ite Bool (ka = kb) (dec ka kb) (nl na nb) (kl ka kb)) = true) :
    (@ite Bool (kb = ka) (dec kb ka) (nl nb na) (kl kb ka)) = false := by
  by_cases hk : ka = kb
  · rw [if_pos hk] at hab
    rw [if_pos hk.symm]
    exact h.asymm _ _ hab
  · have hk2 : ¬ kb = ka := fun e => hk e.symm
    rw [if_neg hk, hkl] at hab
    rw [if_neg hk2]
    cases hc : kl kb ka with
    | false => rfl
    | true => exact absurd ((hkl _ _).mp hc) (lt_asymm hab)

/-- Comparison by a key of a linear order, then by name: negatively transitive. -/
theorem keyed_negTrans {K : Type} [LinearOrder K] (dec : ∀ x y : K, Decidable (x = y))
    {nl : String → String → Bool}
    (h : StrictWeakOrder nl) (kl : K → K → Bool) (hkl : ∀ x y, kl x y = true ↔ x < y)
    (ka kb kc : K) (na nb nc : String)
    (hba : (@ite Bool (kb = ka) (dec kb ka) (nl nb na) (kl kb ka)) = false)
    (hcb : (@ite Bool (kc = kb) (dec kc kb) (nl nc nb) (kl kc kb)) = false) :
    (@ite Bool (kc = ka) (dec kc ka) (nl nc na) (kl kc ka)) = false := by
  have hno : ∀ x y, kl x y = false → y ≤ x := by
    intro x y hxy
    by_contra hcon
    rw [(hkl x y).mpr (not_le.mp hcon)] at hxy
    exact absurd hxy (by decide)
  by_cases h1 : kb = ka
  · by_cases h2 : kc = kb
    · rw [if_pos h1] at hba
      rw [if_pos h2] at hcb
      rw [if_pos (h2.trans h1)]
      exact h.negTrans _ _ _ hba hcb
    · rw [if_neg h2] at hcb
      rw [if_neg (fun e => h2 (e.trans h1.symm))]
      rw [← h1]
      exact hcb
  · by_cases h2 : kc = kb
    · rw [if_neg h1] at hba
      rw [if_neg (fun e => h1 (h2.symm.trans e))]
      rw [h2]
      exact hba
    · rw [if_neg h1] at hba
      rw [if_neg h2] at hcb
      have hac : ka < kc := lt_of_lt_of_le (lt_of_le_of_ne (hno _ _ hba) (fun e => h1 e.symm))
        (hno _ _ hcb)
      have h3 : ¬ kc = ka := fun e => (ne_of_gt hac) e
      rw [if_neg h3]
      cases hc : kl kc ka with
      | false => rfl
      | true => exact absurd ((hkl _ _).mp hc) (lt_asymm hac)

/-! ## The loop of `natural.Less` -/

/-- The loop of `natural.Less` ends before its bound on the passes is used up: any
two bounds above the length of the first string give the same value. -/
theorem natural.lessLoop_fuel (f1 f2 : Nat) (a b : List Char) (h1 : a.length < f1)
    (h2 : a.length < f2) : natural.lessLoop f1 a b = natural.lessLoop f2 a b := by
  induction f1 generalizing f2 a b with
  | zero => omega
  | succ n ih =>
    cases f2 with
    | zero => omega
    | succ m =>
      unfold natural.lessLoop
      simp only []
      split_ifs with c1 c2 c3 c4 c5
      · rfl
      · rfl
      · have hlen : (List.drop (natural.commonPrefix a b) a).length ≠ 0 := c1
        rw [List.length_drop] at hlen
        apply ih
        · rw [List.length_drop, List.length_drop]
          omega
        · rw [List.length_drop, List.length_drop]
          omega
      · rfl
      · rfl
      · rfl

/-- The value of `natural.Less` is the value of its loop for every bound on the
passes above the length of the first string. -/
theorem natural.Less_eq_lessLoop (a b : String) (fuel : Nat) (h : a.data.length < fuel) :
    natural.Less a b = natural.lessLoop fuel a.data b.data :=
  natural.lessLoop_fuel _ _ _ _ (by omega) h
/-! ## The comparison closure -/

theorem switchResult_asymm {nl : String → String → Bool} {ul : Char → Char} (h : StrictWeakOrder nl)
    (orderBy : String) (a b : Path) (hab : switchResult nl ul orderBy a b = true) :
    switchResult nl ul orderBy b a = false := by
  unfold switchResult at hab ⊢
  by_cases h1 : orderBy = "name"
  · simp only [h1, if_true] at hab ⊢
    exact h.asymm _ _ hab
  · by_cases h2 : orderBy = "size"
    · simp only [h1, h2, if_true, if_false] at hab ⊢
      exact keyed_asymm _ h (fun x y : Int => decide (x < y)) (fun x y => by simp) a.Size b.Size
        a.Name b.Name hab
    · by_cases h3 : orderBy = "modified"
      · simp only [h1, h2, h3, if_true, if_false] at hab ⊢
        exact keyed_asymm _ h (fun x y : Int => decide (x < y)) (fun x y => by simp) a.Date b.Date
          a.Name b.Name hab
      · by_cases h4 : orderBy = "type"
        · subst h4
          simp only [show ¬ ("type" = "name") by decide, show ¬ ("type" = "size") by decide,
            show ¬ ("type" = "modified") by decide, if_true, if_false] at hab ⊢
          exact keyed_asymm _ h stringLess stringLess_iff (getFileType ul a) (getFileType ul b)
            a.Name b.Name hab
        · simp only [h1, h2, h3, h4, if_false] at hab ⊢
          exact h.asymm _ _ hab

theorem switchResult_negTrans {nl : String → String → Bool} {ul : Char → Char}
    (h : StrictWeakOrder nl)
    (orderBy : String) (a b c : Path) (hba : switchResult nl ul orderBy b a = false)
    (hcb : switchResult nl ul orderBy c b = false) :
    switchResult nl ul orderBy c a = false := by
  unfold switchResult at hba hcb ⊢
  by_cases h1 : orderBy = "name"
  · simp only [h1, if_true] at hba hcb ⊢
    exact h.negTrans _ _ _ hba hcb
  · by_cases h2 : orderBy = "size"
    · simp only [h1, h2, if_true, if_false] at hba hcb ⊢
      exact keyed_negTrans _ h (fun x y : Int => decide (x < y)) (fun x y => by simp)
        a.Size b.Size c.Size a.Name b.Name c.Name hba hcb
    · by_cases h3 : orderBy = "modified"
      · simp only [h1, h2, h3, if_true, if_false] at hba hcb ⊢
        exact keyed_negTrans _ h (fun x y : Int => decide (x < y)) (fun x y => by simp)
          a.Date b.Date c.Date a.Name b.Name c.Name hba hcb
      · by_cases h4 : orderBy = "type"
        · subst h4
          simp only [show ¬ ("type" = "name") by decide, show ¬ ("type" = "size") by decide,
            show ¬ ("type" = "modified") by decide, if_true, if_false] at hba hcb ⊢
          exact keyed_negTrans _ h stringLess stringLess_iff (getFileType ul a) (getFileType ul b)
            (getFileType ul c) a.Name b.Name c.Name hba hcb
        · simp only [h1, h2, h3, h4, if_false] at hba hcb ⊢
          exact h.negTrans _ _ _ hba hcb

/-- A directory against a non-directory, for a key other than `type`. -/
theorem less_dir_file (nl : String → String → Bool) (ul : Char → Char)
    (orderBy orderDirection : String)
    (a b : Path) (ht : orderBy ≠ "type") (ha : a.IsDir = true) (hb : b.IsDir = false) :
    less nl ul orderBy orderDirection a b = true := by
  simp [less, ht, ha, hb]

/-- A non-directory against a directory, for a key other than `type`. -/
theorem less_file_dir (nl : String → String → Bool) (ul : Char → Char)
    (orderBy orderDirection : String)
    (a b : Path) (ht : orderBy ≠ "type") (ha : a.IsDir = false) (hb : b.IsDir = true) :
    less nl ul orderBy orderDirection a b = false := by
  simp [less, ht, ha, hb]

/-- Two entries of the same directory status, or the key `type`: the closure
returns the value of the switch, negated for `desc`. -/
theorem less_same (nl : String → String → Bool) (ul : Char → Char) (orderBy orderDirection : String)
    (a b : Path) (hs : orderBy = "type" ∨ a.IsDir = b.IsDir) :
    less nl ul orderBy orderDirection a b =
      (if orderDirection = "desc" then !switchResult nl ul orderBy a b
       else switchResult nl ul orderBy a b) := by
  unfold less
  rcases hs with hs | hs
  · simp [hs]
  · cases hb : b.IsDir <;> simp [hs, hb]

theorem less_asc_asymm {nl : String → String → Bool} {ul : Char → Char} (h : StrictWeakOrder nl)
    (orderBy : String) (a b : Path) (hab : less nl ul orderBy "asc" a b = true) :
    less nl ul orderBy "asc" b a = false := by
  by_cases ht : orderBy = "type"
  · rw [less_same nl ul orderBy "asc" _ _ (Or.inl ht)] at hab ⊢
    simp only [show ¬ ("asc" = "desc") by decide, if_false] at hab ⊢
    exact switchResult_asymm h orderBy a b hab
  · cases ha : a.IsDir <;> cases hb : b.IsDir
    · rw [less_same nl ul orderBy "asc" _ _ (Or.inr (by rw [ha, hb]))] at hab ⊢
      simp only [show ¬ ("asc" = "desc") by decide, if_false] at hab ⊢
      exact switchResult_asymm h orderBy a b hab
    · rw [less_file_dir nl ul orderBy "asc" a b ht ha hb] at hab
      exact absurd hab (by decide)
    · exact less_file_dir nl ul orderBy "asc" b a ht hb ha
    · rw [less_same nl ul orderBy "asc" _ _ (Or.inr (by rw [ha, hb]))] at hab ⊢
      simp only [show ¬ ("asc" = "desc") by decide, if_false] at hab ⊢
      exact switchResult_asymm h orderBy a b hab

theorem less_asc_negTrans {nl : String → String → Bool} {ul : Char → Char} (h : StrictWeakOrder nl)
    (orderBy : String) (a b c : Path) (hba : less nl ul orderBy "asc" b a = false)
    (hcb : less nl ul orderBy "asc" c b = false) :
    less nl ul orderBy "asc" c a = false := by
  have hd : ¬ ("asc" = "desc") := by decide
  by_cases ht : orderBy = "type"
  · rw [less_same nl ul orderBy "asc" _ _ (Or.inl ht)] at hba hcb ⊢
    simp only [hd, if_false] at hba hcb ⊢
    exact switchResult_negTrans h orderBy a b c hba hcb
  · cases ha : a.IsDir <;> cases hb : b.IsDir <;> cases hc : c.IsDir
    · rw [less_same nl ul orderBy "asc" _ _ (Or.inr (by simp [ha, hb, hc]))] at hba hcb ⊢
      simp only [hd, if_false] at hba hcb ⊢
      exact switchResult_negTrans h orderBy a b c hba hcb
    · rw [less_dir_file nl ul orderBy "asc" c b ht hc hb] at hcb
      exact absurd hcb (by decide)
    · rw [less_dir_file nl ul orderBy "asc" b a ht hb ha] at hba
      exact absurd hba (by decide)
    · rw [less_dir_file nl ul orderBy "asc" b a ht hb ha] at hba
      exact absurd hba (by decide)
    · exact less_file_dir nl ul orderBy "asc" c a ht hc ha
    · rw [less_dir_file nl ul orderBy "asc" c b ht hc hb] at hcb
      exact absurd hcb (by decide)
    · exact less_file_dir nl ul orderBy "asc" c a ht hc ha
    · rw [less_same nl ul orderBy "asc" _ _ (Or.inr (by simp [ha, hb, hc]))] at hba hcb ⊢
      simp only [hd, if_false] at hba hcb ⊢
      exact switchResult_negTrans h orderBy a b c hba hcb

/-! ## The reference natural order is a strict weak order -/

theorem tokenLt_iff (s t : Nat × Nat) :
    tokenLt s t = true ↔ s.1 < t.1 ∨ (s.1 = t.1 ∧ s.2 < t.2) := by
  simp [tokenLt]

theorem tokenLt_eq_false_iff (s t : Nat × Nat) :
    tokenLt s t = false ↔ t.1 < s.1 ∨ (s.1 = t.1 ∧ t.2 ≤ s.2) := by
  rw [← Bool.not_eq_true, tokenLt_iff]
  omega

theorem tokensLt_irrefl (l : List (Nat × Nat)) : tokensLt l l = false := by
  induction l with
  | nil => rfl
  | cons s ss ih =>
    have hs : tokenLt s s = false := by rw [tokenLt_eq_false_iff]; omega
    simp [tokensLt, hs, ih]

theorem tokensLt_trans (a b c : List (Nat × Nat)) (hab : tokensLt a b = true)
    (hbc : tokensLt b c = true) : tokensLt a c = true := by
  induction a generalizing b c with
  | nil =>
    cases b with
    | nil => simp [tokensLt] at hab
    | cons t ts =>
      cases c with
      | nil => simp [tokensLt] at hbc
      | cons u us => simp [tokensLt]
  | cons s ss ih =>
    cases b with
    | nil => simp [tokensLt] at hab
    | cons t ts =>
      cases c with
      | nil => simp [tokensLt] at hbc
      | cons u us =>
        unfold tokensLt at hab hbc ⊢
        by_cases h1 : tokenLt s t = true
        · by_cases h2 : tokenLt t u = true
          · have : tokenLt s u = true := by
              rw [tokenLt_iff] at h1 h2 ⊢; omega
            simp [this]
          · by_cases h3 : tokenLt u t = true
            · simp [h2, h3] at hbc
            · have : tokenLt s u = true := by
                rw [Bool.not_eq_true, tokenLt_eq_false_iff] at h2 h3
                rw [tokenLt_iff] at h1 ⊢; omega
              simp [this]
        · by_cases h1b : tokenLt t s = true
          · simp [h1, h1b] at hab
          · simp only [h1, h1b, if_false, Bool.false_eq_true] at hab
            rw [Bool.not_eq_true, tokenLt_eq_false_iff] at h1 h1b
            by_cases h2 : tokenLt t u = true
            · have : tokenLt s u = true := by
                rw [tokenLt_iff] at h2 ⊢; omega
              simp [this]
            · by_cases h3 : tokenLt u t = true
              · simp [h2, h3] at hbc
              · simp only [h2, h3, if_false, Bool.false_eq_true] at hbc
                rw [Bool.not_eq_true, tokenLt_eq_false_iff] at h2 h3
                have e1 : tokenLt s u = false := by rw [tokenLt_eq_false_iff]; omega
                have e2 : tokenLt u s = false := by rw [tokenLt_eq_false_iff]; omega
                simp only [e1, e2, if_false, Bool.false_eq_true]
                exact ih ts us hab hbc

theorem tokensLt_connected (a b : List (Nat × Nat)) (hab : tokensLt a b = false)
    (hba : tokensLt b a = false) : a = b := by
  induction a generalizing b with
  | nil =>
    cases b with
    | nil => rfl
    | cons t ts => simp [tokensLt] at hab
  | cons s ss ih =>
    cases b with
    | nil => simp [tokensLt] at hba
    | cons t ts =>
      unfold tokensLt at hab hba
      by_cases h1 : tokenLt s t = true
      · simp [h1] at hab
      · by_cases h2 : tokenLt t s = true
        · simp [h2] at hba
        · simp only [h1, h2, if_false, Bool.false_eq_true] at hab hba
          rw [Bool.not_eq_true, tokenLt_eq_false_iff] at h1 h2
          have hst : s = t := by
            apply Prod.ext <;> omega
          rw [hst, ih ts hab hba]

theorem naturalLess_strictWeak : StrictWeakOrder naturalLess where
  irrefl := fun a => tokensLt_irrefl _
  trans := fun a b c hab hbc => tokensLt_trans _ _ _ hab hbc
  incomp_trans := by
    intro a b c hab hba hbc hcb
    unfold naturalLess at *
    have e1 := tokensLt_connected _ _ hab hba
    have e2 := tokensLt_connected _ _ hbc hcb
    rw [e1, e2]
    exact ⟨tokensLt_irrefl _, tokensLt_irrefl _⟩

/-! ## Properties of `PathList.Sort` -/

/-- With a non-empty key the method is the call of `sort.Slice`. -/
theorem PathListSort_of_ne (rnd : Nat → Nat)
    (nl : String → String → Bool) (ul : Char → Char) (p : PathList)
    (orderBy orderDirection : String) (h : orderBy ≠ "") :
    PathListSort rnd nl ul p orderBy orderDirection
      = sortSlice rnd p (less nl ul orderBy orderDirection) := by
  simp [PathListSort, h]

/-- Ascending result: no entry is strictly smaller than an entry placed before it. -/
theorem sort_asc_pairwise (rnd : Nat → Nat)
    {nl : String → String → Bool} {ul : Char → Char} (h : StrictWeakOrder nl)
    (p : PathList) (orderBy : String) (hne : orderBy ≠ "") :
    (PathListSort rnd nl ul p orderBy "asc").Pairwise
      (fun a b => less nl ul orderBy "asc" b a = false) := by
  rw [PathListSort_of_ne rnd nl ul p orderBy "asc" hne]
  exact sortSlice_pairwise rnd (less nl ul orderBy "asc")
    (fun a b => less nl ul orderBy "asc" b a = false)
    (fun a b hab => less_asc_asymm h orderBy a b hab)
    (fun a b hab => hab)
    (fun a b c hba hcb => less_asc_negTrans h orderBy a b c hba hcb) p

/-! ## Descending direction -/

/-- Value of the closure with the direction `desc` on two entries compared by the
switch. -/
theorem less_desc_same (nl : String → String → Bool) (ul : Char → Char)
    (orderBy : String) (a b : Path)
    (hs : orderBy = "type" ∨ a.IsDir = b.IsDir) :
    less nl ul orderBy "desc" a b = !switchResult nl ul orderBy a b := by
  rw [less_same nl ul orderBy "desc" a b hs]
  simp

/-- Value of the closure with the direction `asc` on two entries compared by the
switch. -/
theorem less_asc_same (nl : String → String → Bool) (ul : Char → Char)
    (orderBy : String) (a b : Path)
    (hs : orderBy = "type" ∨ a.IsDir = b.IsDir) :
    less nl ul orderBy "asc" a b = switchResult nl ul orderBy a b := by
  rw [less_same nl ul orderBy "asc" a b hs]
  simp

/-- Descending closure: of two entries at least one may precede the other. -/
theorem less_desc_total {nl : String → String → Bool} {ul : Char → Char} (h : StrictWeakOrder nl)
    (orderBy : String) (a b : Path) (hab : less nl ul orderBy "desc" a b = false) :
    less nl ul orderBy "desc" b a = true := by
  have same : (orderBy = "type" ∨ a.IsDir = b.IsDir) → less nl ul orderBy "desc" b a = true := by
    intro hs
    have hs2 : orderBy = "type" ∨ b.IsDir = a.IsDir := hs.imp id Eq.symm
    rw [less_desc_same nl ul orderBy a b hs] at hab
    rw [less_desc_same nl ul orderBy b a hs2]
    have hsw : switchResult nl ul orderBy a b = true := by simpa using hab
    rw [switchResult_asymm h orderBy a b hsw]
    rfl
  by_cases ht : orderBy = "type"
  · exact same (Or.inl ht)
  · cases ha : a.IsDir <;> cases hb : b.IsDir
    · exact same (Or.inr (by rw [ha, hb]))
    · exact less_dir_file nl ul orderBy "desc" b a ht hb ha
    · rw [less_dir_file nl ul orderBy "desc" a b ht ha hb] at hab
      exact absurd hab (by decide)
    · exact same (Or.inr (by rw [ha, hb]))

/-- Descending closure: transitive. -/
theorem less_desc_trans {nl : String → String → Bool} {ul : Char → Char} (h : StrictWeakOrder nl)
    (orderBy : String) (a b c : Path) (hab : less nl ul orderBy "desc" a b = true)
    (hbc : less nl ul orderBy "desc" b c = true) : less nl ul orderBy "desc" a c = true := by
  have same : (orderBy = "type" ∨ (a.IsDir = b.IsDir ∧ b.IsDir = c.IsDir)) →
      less nl ul orderBy "desc" a c = true := by
    intro hs
    have hs1 : orderBy = "type" ∨ a.IsDir = b.IsDir := hs.imp id (fun e => e.1)
    have hs2 : orderBy = "type" ∨ b.IsDir = c.IsDir := hs.imp id (fun e => e.2)
    have hs3 : orderBy = "type" ∨ a.IsDir = c.IsDir := hs.imp id (fun e => e.1.trans e.2)
    rw [less_desc_same nl ul orderBy a b hs1] at hab
    rw [less_desc_same nl ul orderBy b c hs2] at hbc
    rw [less_desc_same nl ul orderBy a c hs3]
    have h1 : switchResult nl ul orderBy a b = false := by simpa using hab
    have h2 : switchResult nl ul orderBy b c = false := by simpa using hbc
    rw [switchResult_negTrans h orderBy c b a h2 h1]
    rfl
  by_cases ht : orderBy = "type"
  · exact same (Or.inl ht)
  · cases ha : a.IsDir <;> cases hb : b.IsDir <;> cases hc : c.IsDir
    · exact same (Or.inr ⟨by rw [ha, hb], by rw [hb, hc]⟩)
    · rw [less_file_dir nl ul orderBy "desc" b c ht hb hc] at hbc
      exact absurd hbc (by decide)
    · rw [less_file_dir nl ul orderBy "desc" a b ht ha hb] at hab
      exact absurd hab (by decide)
    · rw [less_file_dir nl ul orderBy "desc" a b ht ha hb] at hab
      exact absurd hab (by decide)
    · exact less_dir_file nl ul orderBy "desc" a c ht ha hc
    · rw [less_file_dir nl ul orderBy "desc" b c ht hb hc] at hbc
      exact absurd hbc (by decide)
    · exact less_dir_file nl ul orderBy "desc" a c ht ha hc
    · exact same (Or.inr ⟨by rw [ha, hb], by rw [hb, hc]⟩)

/-! ## A natural order that is a strict weak order on the names of the slice -/

theorem orderOn_strictWeak {nl : String → String → Bool} {S : List String}
    (h : StrictWeakOrderOn nl S) : StrictWeakOrder (orderOn nl S) where
  irrefl := by
    intro a
    unfold orderOn
    by_cases ha : a ∈ S
    · simp [ha, h.1 a ha]
    · simp [ha]
  trans := by
    intro a b c hab hbc
    unfold orderOn at hab hbc ⊢
    by_cases ha : a ∈ S
    · by_cases hb : b ∈ S
      · by_cases hc : c ∈ S
        · simp only [ha, hb, hc, if_true] at hab hbc ⊢
          exact h.2.1 a ha b hb c hc hab hbc
        · simp [ha, hc]
      · simp [hb] at hbc
    · simp [ha] at hab
  incomp_trans := by
    intro a b c hab hba hbc hcb
    unfold orderOn at hab hba hbc hcb ⊢
    by_cases ha : a ∈ S
    · by_cases hb : b ∈ S
      · by_cases hc : c ∈ S
        · simp only [ha, hb, hc, if_true] at hab hba hbc hcb ⊢
          exact h.2.2 a ha b hb c hc hab hba hbc hcb
        · simp [hb, hc] at hbc
      · simp [ha, hb] at hab
    · by_cases hb : b ∈ S
      · simp [ha, hb] at hba
      · by_cases hc : c ∈ S
        · simp [hb, hc] at hcb
        · simp [ha, hc]

/-- On entries whose names are in `S` the closure is the same for `nl` and for
`orderOn nl S`. -/
theorem less_orderOn (nl : String → String → Bool) (ul : Char → Char) (S : List String)
    (orderBy orderDirection : String) (a b : Path) (ha : a.Name ∈ S) (hb : b.Name ∈ S) :
    less (orderOn nl S) ul orderBy orderDirection a b = less nl ul orderBy orderDirection a b := by
  have e : orderOn nl S a.Name b.Name = nl a.Name b.Name := by simp [orderOn, ha, hb]
  unfold less switchResult
  rw [e]

theorem mem_names {p : PathList} {e : Path} (h : e ∈ p) : e.Name ∈ names p :=
  List.mem_map.mpr ⟨e, h, rfl⟩

theorem names_perm {p q : PathList} (h : p.Perm q) : (names p).Perm (names q) :=
  h.map _

theorem strictWeakOrderOn_perm {nl : String → String → Bool} {S T : List String}
    (hST : S.Perm T) (h : StrictWeakOrderOn nl S) : StrictWeakOrderOn nl T :=
  ⟨fun a ha => h.1 a (hST.mem_iff.mpr ha),
    fun a ha b hb c hc => h.2.1 a (hST.mem_iff.mpr ha) b (hST.mem_iff.mpr hb) c
      (hST.mem_iff.mpr hc),
    fun a ha b hb c hc => h.2.2 a (hST.mem_iff.mpr ha) b (hST.mem_iff.mpr hb) c
      (hST.mem_iff.mpr hc)⟩

theorem StrictWeakOrder.on {nl : String → String → Bool} (h : StrictWeakOrder nl)
    (S : List String) : StrictWeakOrderOn nl S :=
  ⟨fun a _ => h.irrefl a, fun a _ b _ c _ => h.trans a b c,
    fun a _ b _ c _ => h.incomp_trans a b c⟩

/-- Ascending closure: on entries with names in `S` it decides the relation "is
not after" and that relation is transitive. -/
theorem compat_asc_on {nl : String → String → Bool} {S : List String}
    (h : StrictWeakOrderOn nl S) (ul : Char → Char) (orderBy : String) :
    Compat (less nl ul orderBy "asc") (fun a b => less nl ul orderBy "asc" b a = false)
      (fun e => e.Name ∈ S) where
  lt_R := by
    intro a b ha hb hab
    rw [← less_orderOn nl ul S orderBy "asc" a b ha hb] at hab
    rw [← less_orderOn nl ul S orderBy "asc" b a hb ha]
    exact less_asc_asymm (orderOn_strictWeak h) orderBy a b hab
  ge_R := fun a b _ _ hab => hab
  trans := by
    intro a b c ha hb hc hba hcb
    rw [← less_orderOn nl ul S orderBy "asc" b a hb ha] at hba
    rw [← less_orderOn nl ul S orderBy "asc" c b hc hb] at hcb
    rw [← less_orderOn nl ul S orderBy "asc" c a hc ha]
    exact less_asc_negTrans (orderOn_strictWeak h) orderBy a b c hba hcb

/-- Descending closure: on entries with names in `S` it is total and
transitive. -/
theorem compat_desc_on {nl : String → String → Bool} {S : List String}
    (h : StrictWeakOrderOn nl S) (ul : Char → Char) (orderBy : String) :
    Compat (less nl ul orderBy "desc") (fun a b => less nl ul orderBy "desc" a b = true)
      (fun e => e.Name ∈ S) where
  lt_R := fun a b _ _ hab => hab
  ge_R := by
    intro a b ha hb hab
    rw [← less_orderOn nl ul S orderBy "desc" a b ha hb] at hab
    rw [← less_orderOn nl ul S orderBy "desc" b a hb ha]
    exact less_desc_total (orderOn_strictWeak h) orderBy a b hab
  trans := by
    intro a b c ha hb hc hab hbc
    rw [← less_orderOn nl ul S orderBy "desc" a b ha hb] at hab
    rw [← less_orderOn nl ul S orderBy "desc" b c hb hc] at hbc
    rw [← less_orderOn nl ul S orderBy "desc" a c ha hc]
    exact less_desc_trans (orderOn_strictWeak h) orderBy a b c hab hbc

/-- Ascending result, for a natural order that is a strict weak order on the
names of the slice: no entry is strictly smaller than an entry placed before it. -/
theorem sort_asc_pairwise_on (rnd : Nat → Nat)
    {nl : String → String → Bool} (ul : Char → Char) (p : PathList)
    (h : StrictWeakOrderOn nl (names p)) (orderBy : String) (hne : orderBy ≠ "") :
    (PathListSort rnd nl ul p orderBy "asc").Pairwise
      (fun a b => less nl ul orderBy "asc" b a = false) := by
  rw [PathListSort_of_ne rnd nl ul p orderBy "asc" hne]
  exact sortSlice_pairwise_on rnd (compat_asc_on h ul orderBy) p (fun e he => mem_names he)

/-- Descending result, for a natural order that is a strict weak order on the
names of the slice: every entry may precede the entries placed after it. -/
theorem sort_desc_pairwise_on (rnd : Nat → Nat)
    {nl : String → String → Bool} (ul : Char → Char) (p : PathList)
    (h : StrictWeakOrderOn nl (names p)) (orderBy : String) (hne : orderBy ≠ "") :
    (PathListSort rnd nl ul p orderBy "desc").Pairwise
      (fun a b => less nl ul orderBy "desc" a b = true) := by
  rw [PathListSort_of_ne rnd nl ul p orderBy "desc" hne]
  exact sortSlice_pairwise_on rnd (compat_desc_on h ul orderBy) p (fun e he => mem_names he)

theorem PathListSort_perm (rnd : Nat → Nat)
    (nl : String → String → Bool) (ul : Char → Char) (p : PathList)
    (orderBy orderDirection : String)
        : (PathListSort rnd nl ul p orderBy orderDirection).Perm p := by
  unfold PathListSort
  split
  · exact List.Perm.refl p
  · exact sortSlice_perm rnd p _

/-! ## Order of the result -/

/-- C1: for the keys `name`, `size` and `modified` and every direction, the
directories form an initial segment of the result of `PathList.Sort`: at positions
`i < j`, when the entry at `j` is a directory so is the entry at `i`. -/
theorem sort_directories_first (rnd : Nat → Nat)
    (nl : String → String → Bool) (ul : Char → Char) (p : PathList)
    (orderBy orderDirection : String)
    (hkey : orderBy = "name" ∨ orderBy = "size" ∨ orderBy = "modified")
    (i j : Nat) (a b : Path) (hij : i < j)
    (hi : (PathListSort rnd nl ul p orderBy orderDirection)[i]? = some a)
    (hj : (PathListSort rnd nl ul p orderBy orderDirection)[j]? = some b)
    (hb : b.IsDir = true) : a.IsDir = true := by
  have hne : orderBy ≠ "" := by
    rcases hkey with h | h | h <;> rw [h] <;> decide
  have hty : orderBy ≠ "type" := by
    rcases hkey with h | h | h <;> rw [h] <;> decide
  rw [PathListSort_of_ne rnd nl ul p orderBy orderDirection hne] at hi hj
  have hpw := sortSlice_pairwise rnd (less nl ul orderBy orderDirection)
    (fun x y => y.IsDir = true → x.IsDir = true)
    (fun x y hxy hy => by
      cases hx : x.IsDir with
      | true => rfl
      | false =>
        rw [less_file_dir nl ul orderBy orderDirection x y hty hx hy] at hxy
        exact absurd hxy (by decide))
    (fun x y hxy hx => by
      cases hy : y.IsDir with
      | true => rfl
      | false =>
        rw [less_dir_file nl ul orderBy orderDirection x y hty hx hy] at hxy
        exact absurd hxy (by decide))
    (fun x y z hxy hyz hz => hxy (hyz hz)) p
  exact pairwise_at hpw hij hi hj hb

/-- Instance of `sort_directories_first` with `natural.Less`: the test data by
size, descending, for every generator. -/
theorem sort_directories_first_witness :
    (mkEntry "folder1" true 72 0).IsDir = true ∧
      ∀ rnd : Nat → Nat,
        (PathListSort rnd natural.Less lowerLatin1 createTestData "size" "desc")[0]?
          = some (mkEntry "folder2" true 0 0) ∧
        (PathListSort rnd natural.Less lowerLatin1 createTestData "size" "desc")[1]?
          = some (mkEntry "folder1" true 72 0) ∧
        (mkEntry "folder2" true 0 0).IsDir = true :=
  ⟨by decide, fun rnd => ⟨rfl, rfl,
    sort_directories_first rnd natural.Less lowerLatin1 createTestData "size" "desc"
      (Or.inr (Or.inl rfl)) 0 1 (mkEntry "folder2" true 0 0) (mkEntry "folder1" true 72 0)
      (by decide) rfl rfl (by decide)⟩⟩

/-- C2: with the empty key `PathList.Sort` leaves the slice as it was, whatever
the direction. -/
theorem sort_empty_key_noop (rnd : Nat → Nat)
    (nl : String → String → Bool) (ul : Char → Char) (p : PathList)
    (orderDirection : String) : PathListSort rnd nl ul p "" orderDirection = p := by
  simp [PathListSort]

/-- C3: the result of `PathList.Sort` is a rearrangement of the input: the same
entries, each with all of its fields, the same number of times, and the same
length. -/
theorem sort_is_permutation (rnd : Nat → Nat)
    (nl : String → String → Bool) (ul : Char → Char) (p : PathList)
    (orderBy orderDirection : String) :
    (PathListSort rnd nl ul p orderBy orderDirection).Perm p ∧
      (PathListSort rnd nl ul p orderBy orderDirection).length = p.length ∧
      ∀ e : Path, (PathListSort rnd nl ul p orderBy orderDirection).count e = p.count e := by
  have hperm : (PathListSort rnd nl ul p orderBy orderDirection).Perm p := by
    unfold PathListSort
    split
    · exact List.Perm.refl p
    · exact sortSlice_perm rnd p _
  exact ⟨hperm, hperm.length_eq, fun e => hperm.count_eq e⟩

theorem switchResult_name (nl : String → String → Bool) (ul : Char → Char) (a b : Path) :
    switchResult nl ul "name" a b = nl a.Name b.Name := by
  simp [switchResult]

theorem switchResult_size (nl : String → String → Bool) (ul : Char → Char) (a b : Path) :
    switchResult nl ul "size" a b =
      (if a.Size = b.Size then nl a.Name b.Name else decide (a.Size < b.Size)) := by
  simp [switchResult]

theorem switchResult_modified (nl : String → String → Bool) (ul : Char → Char) (a b : Path) :
    switchResult nl ul "modified" a b =
      (if a.Date = b.Date then nl a.Name b.Name else decide (a.Date < b.Date)) := by
  simp [switchResult]

/-- Ascending result at two positions of the same directory status, or for the key
`type`: the switch does not put the later entry before the earlier one. -/
theorem sort_asc_switch (rnd : Nat → Nat)
    {nl : String → String → Bool} {ul : Char → Char} (p : PathList)
    (h : StrictWeakOrderOn nl (names p)) (orderBy : String) (hne : orderBy ≠ "")
    {i j : Nat} {a b : Path} (hij : i < j)
    (hi : (PathListSort rnd nl ul p orderBy "asc")[i]? = some a)
    (hj : (PathListSort rnd nl ul p orderBy "asc")[j]? = some b)
    (hs : orderBy = "type" ∨ b.IsDir = a.IsDir) :
    switchResult nl ul orderBy b a = false := by
  have hba := pairwise_at (sort_asc_pairwise_on rnd ul p h orderBy hne) hij hi hj
  rw [less_same nl ul orderBy "asc" b a hs] at hba
  simpa only [show ¬ ("asc" = "desc") by decide, if_false] using hba

/-- C4 (the claim fails): `natural.Less` orders the names `1`, `1.txt`, `01b.txt`
in a cycle, and the three files sorted by `name`, ascending, come out as
`01b.txt, 1, 1.txt`: the name `1.txt` at the last position is naturally less than
the name `01b.txt` at the first. -/
theorem sort_name_asc_cyclic_names :
    (natural.Less "1" "1.txt" = true ∧ natural.Less "1.txt" "01b.txt" = true ∧
      natural.Less "01b.txt" "1" = true) ∧
      ∀ rnd : Nat → Nat,
        names (PathListSort rnd natural.Less lowerLatin1 cyclicFiles "name" "asc")
          = ["01b.txt", "1", "1.txt"] ∧
        ¬ (∀ (i j : Nat) (a b : Path), i < j →
          (PathListSort rnd natural.Less lowerLatin1 cyclicFiles "name" "asc")[i]? = some a →
          (PathListSort rnd natural.Less lowerLatin1 cyclicFiles "name" "asc")[j]? = some b →
          a.IsDir = b.IsDir → natural.Less b.Name a.Name = false) := by
  refine ⟨⟨by decide, by decide, by decide⟩, fun rnd => ⟨rfl, ?_⟩⟩
  intro h
  exact absurd (h 0 2 (mkEntry "01b.txt" false 12 1024) (mkEntry "1.txt" false 12 1024)
    (by decide) rfl rfl (by decide)) (by decide)

/-- C4 (amended): for a slice on whose names the natural order `nl` is a strict
weak order, the result of `PathList.Sort` by `name`, ascending, is in natural name
order inside each directory-status group: at positions `i < j` with the same
`IsDir`, the name at `j` is not naturally less than the name at `i`.
`natural.Less` puts `file2.txt` before `file10.txt`, and with it the scenario of
the specification gives `folder1, folder2, file1.txt, file2.txt, file10.txt`. -/
theorem sort_name_asc_natural_order (rnd : Nat → Nat)
    (nl : String → String → Bool) (ul : Char → Char)
    (p : PathList) (h : StrictWeakOrderOn nl (names p)) :
    (∀ (i j : Nat) (a b : Path), i < j →
        (PathListSort rnd nl ul p "name" "asc")[i]? = some a →
        (PathListSort rnd nl ul p "name" "asc")[j]? = some b →
        a.IsDir = b.IsDir → nl b.Name a.Name = false) ∧
      natural.Less "file2.txt" "file10.txt" = true ∧
      names (PathListSort rnd natural.Less ul scenarioData "name" "asc") =
        ["folder1", "folder2", "file1.txt", "file2.txt", "file10.txt"] := by
  refine ⟨?_, by decide, rfl⟩
  intro i j a b hij hi hj hd
  have hsw := sort_asc_switch rnd p h "name" (by decide) hij hi hj (Or.inr hd.symm)
  rwa [switchResult_name] at hsw

/-- Instance of `sort_name_asc_natural_order` with `natural.Less`, which is a
strict weak order on the names of the test data: positions 4 and 5 of the sorted
test data. -/
theorem sort_name_asc_natural_order_witness :
    StrictWeakOrderOn natural.Less (names createTestData) ∧
      ∀ rnd : Nat → Nat,
        (PathListSort rnd natural.Less lowerLatin1 createTestData "name" "asc")[4]?
          = some (mkEntry "file2.txt" false 24 2048) ∧
        (PathListSort rnd natural.Less lowerLatin1 createTestData "name" "asc")[5]?
          = some (mkEntry "file10.txt" false 48 1024) ∧
        natural.Less "file10.txt" "file2.txt" = false :=
  ⟨by unfold StrictWeakOrderOn; decide, fun rnd => ⟨rfl, rfl,
    (sort_name_asc_natural_order rnd natural.Less lowerLatin1 createTestData
      (by unfold StrictWeakOrderOn; decide)).1 4 5
      (mkEntry "file2.txt" false 24 2048) (mkEntry "file10.txt" false 48 1024)
      (by decide) rfl rfl (by decide)⟩⟩

/-- A successful scan returns the dot followed by the characters passed before
it. -/
theorem extScan_eq (r acc : List Char) (h : extScan r acc ≠ []) :
    extScan r acc = '.' :: ((r.takeWhile (fun c => decide (c ≠ '.'))).reverse ++ acc) := by
  induction r generalizing acc with
  | nil => exact absurd rfl h
  | cons c rest ih =>
    unfold extScan at h ⊢
    by_cases h1 : c = '/'
    · rw [if_pos h1] at h
      exact absurd rfl h
    · rw [if_neg h1] at h ⊢
      by_cases h2 : c = '.'
      · rw [if_pos h2]
        simp [h2]
      · rw [if_neg h2] at h ⊢
        rw [ih (c :: acc) h]
        simp [List.takeWhile_cons, h2]

/-- Without a path separator the scan succeeds exactly when there is a dot. -/
theorem extScan_ne_nil_iff (r acc : List Char) (hs : '/' ∉ r) :
    extScan r acc ≠ [] ↔ '.' ∈ r := by
  induction r generalizing acc with
  | nil => simp [extScan]
  | cons c rest ih =>
    have hc : ¬ c = '/' := fun e => hs (by simp [e])
    have hrest : '/' ∉ rest := fun e => hs (List.mem_cons_of_mem _ e)
    unfold extScan
    rw [if_neg hc]
    by_cases h2 : c = '.'
    · rw [if_pos h2]
      simp [h2]
    · rw [if_neg h2, ih (c :: acc) hrest]
      constructor
      · intro hm
        exact List.mem_cons_of_mem _ hm
      · intro hm
        rcases List.mem_cons.mp hm with e | e
        · exact absurd e.symm h2
        · exact e

/-- The extension is the dot followed by the substring after the last dot. -/
theorem filepathExt_eq (name : String) (h : filepathExt name ≠ "") :
    filepathExt name = ⟨'.' :: (afterLastDot name).data⟩ := by
  have hne : extScan name.data.reverse [] ≠ [] := by
    intro e
    apply h
    unfold filepathExt
    rw [e]
  unfold filepathExt afterLastDot
  rw [extScan_eq _ _ hne]
  simp

/-- C8: the type tag of `getFileType`.  A directory gets `000_folder` whatever its
name.  A non-directory whose name has an extension (`filepath.Ext` is not empty:
the last path element of the name contains a dot; for a name without `/` this is
any name containing a dot) gets the substring after the last `.` of the name,
lower-cased and without the dot.  A non-directory without an extension gets
`999_file`.  Lower-casing is `strings.ToLower`: the ASCII letters are folded and
the other characters go through the case table `ul` of `unicode.ToLower`. -/
theorem getFileType_tag (ul : Char → Char) :
    (∀ p : Path, p.IsDir = true → getFileType ul p = "000_folder") ∧
    (∀ p : Path, p.IsDir = false → filepathExt p.Name ≠ "" →
      getFileType ul p = toLower ul (afterLastDot p.Name)) ∧
    (∀ p : Path, p.IsDir = false → filepathExt p.Name = "" → getFileType ul p = "999_file") ∧
    (∀ name : String, '/' ∉ name.data → (filepathExt name ≠ "" ↔ '.' ∈ name.data)) ∧
    getFileType ul (mkEntry "testfolder" true 0 0) = "000_folder" ∧
    getFileType ul (mkEntry "test.txt" false 0 0) = "txt" ∧
    getFileType ul (mkEntry "image.PNG" false 0 0) = "png" ∧
    getFileType ul (mkEntry "filename" false 0 0) = "999_file" := by
  refine ⟨?_, ?_, ?_, ?_, rfl, rfl, rfl, rfl⟩
  · intro p hp
    simp [getFileType, hp]
  · intro p hp hext
    have hlow : toLower ul (filepathExt p.Name) ≠ "" := by
      rw [filepathExt_eq p.Name hext]
      intro e
      have := congrArg String.data e
      simp [toLower] at this
    unfold getFileType
    rw [if_neg (by simp [hp])]
    simp only [hlow, if_false]
    rw [filepathExt_eq p.Name hext]
    simp [toLower]
  · intro p hp hext
    unfold getFileType
    rw [if_neg (by simp [hp])]
    simp only [hext]
    rfl
  · intro name hs
    have hs2 : '/' ∉ name.data.reverse := by simpa using hs
    have key := extScan_ne_nil_iff name.data.reverse [] hs2
    rw [List.mem_reverse] at key
    rw [← key]
    unfold filepathExt
    constructor
    · intro h e
      apply h
      rw [e]
    · intro h e
      apply h
      exact congrArg String.data e

/-- Instance of `getFileType_tag`: the entries `image.PNG` and `photo.JPÉG` (with
the case table of the Latin-1 letters, the tag of the second is `jpég`). -/
theorem getFileType_tag_witness :
    (mkEntry "image.PNG" false 0 0).IsDir = false ∧
      filepathExt (mkEntry "image.PNG" false 0 0).Name ≠ "" ∧
      afterLastDot (mkEntry "image.PNG" false 0 0).Name = "PNG" ∧
      getFileType lowerLatin1 (mkEntry "image.PNG" false 0 0)
        = toLower lowerLatin1 (afterLastDot (mkEntry "image.PNG" false 0 0).Name) ∧
      getFileType lowerLatin1 (mkEntry "image.PNG" false 0 0) = "png" ∧
      getFileType lowerLatin1 (mkEntry "photo.JPÉG" false 0 0) = "jpég" :=
  ⟨by decide, by decide, by decide,
    (getFileType_tag lowerLatin1).2.1 (mkEntry "image.PNG" false 0 0) (by decide) (by decide),
    by decide, by decide⟩

/-- C9 (the code at the failing input): by `type`, ascending, the file `readme`
without extension (tag `999_file`) is placed before the file `note.txt` with an
extension (tag `txt`), whatever the natural order. -/
theorem sort_type_extensionless_first (rnd : Nat → Nat)
    (nl : String → String → Bool) (ul : Char → Char) :
    PathListSort rnd nl ul [mkEntry "note.txt" false 0 0, mkEntry "readme" false 0 0] "type" "asc"
        = [mkEntry "readme" false 0 0, mkEntry "note.txt" false 0 0] ∧
      filepathExt "readme" = "" ∧ filepathExt "note.txt" = ".txt" ∧
      getFileType ul (mkEntry "readme" false 0 0) = "999_file" ∧
      getFileType ul (mkEntry "note.txt" false 0 0) = "txt" ∧
      stringLess "999_file" "txt" = true :=
  ⟨rfl, by decide, by decide, rfl, rfl, by decide⟩

/-- C10 (the code at the failing input): by `type`, ascending, the file
`messages.0` (tag `0`) is placed before the directory `logs` (tag `000_folder`),
whatever the natural order. -/
theorem sort_type_file_before_directory (rnd : Nat → Nat)
    (nl : String → String → Bool) (ul : Char → Char) :
    PathListSort rnd nl ul [mkEntry "logs" true 0 0, mkEntry "messages.0" false 0 0] "type" "asc"
        = [mkEntry "messages.0" false 0 0, mkEntry "logs" true 0 0] ∧
      getFileType ul (mkEntry "logs" true 0 0) = "000_folder" ∧
      getFileType ul (mkEntry "messages.0" false 0 0) = "0" ∧
      stringLess "0" "000_folder" = true :=
  ⟨rfl, rfl, rfl, by decide⟩

/-! ## Fallbacks of the key and of the direction -/

/-- An unknown key compares as `name`. -/
theorem less_unknown_key (nl : String → String → Bool) (ul : Char → Char)
    (orderBy orderDirection : String)
    (h1 : orderBy ≠ "name") (h2 : orderBy ≠ "size") (h3 : orderBy ≠ "modified")
    (h4 : orderBy ≠ "type") :
    less nl ul orderBy orderDirection = less nl ul "name" orderDirection := by
  funext a b
  simp [less, switchResult, h1, h2, h3, h4]

/-- A direction other than `desc` compares as `asc`. -/
theorem less_of_ne_desc (nl : String → String → Bool) (ul : Char → Char)
    (orderBy orderDirection : String)
    (h : orderDirection ≠ "desc") :
    less nl ul orderBy orderDirection = less nl ul orderBy "asc" := by
  funext a b
  simp [less, h]

/-- C11: with a non-empty key that is none of `name`, `size`, `modified`, `type`,
`PathList.Sort` gives exactly the result of the key `name` with the same
direction, on every slice. -/
theorem sort_unknown_key_as_name (rnd : Nat → Nat)
    (nl : String → String → Bool) (ul : Char → Char) (p : PathList)
    (orderBy orderDirection : String) (h0 : orderBy ≠ "") (h1 : orderBy ≠ "name")
    (h2 : orderBy ≠ "size") (h3 : orderBy ≠ "modified") (h4 : orderBy ≠ "type") :
    PathListSort rnd nl ul p orderBy orderDirection
        = PathListSort rnd nl ul p "name" orderDirection := by
  rw [PathListSort_of_ne rnd nl ul p orderBy orderDirection h0,
    PathListSort_of_ne rnd nl ul p "name" orderDirection (by decide),
    less_unknown_key nl ul orderBy orderDirection h1 h2 h3 h4]

/-- Instance of `sort_unknown_key_as_name` with `natural.Less`: the key
`invalid_field` of `TestEdgeCases` on the test data. -/
theorem sort_unknown_key_as_name_witness :
    (("invalid_field" : String) ≠ "" ∧ ("invalid_field" : String) ≠ "name" ∧
      ("invalid_field" : String) ≠ "size" ∧ ("invalid_field" : String) ≠ "modified" ∧
      ("invalid_field" : String) ≠ "type") ∧
      ∀ rnd : Nat → Nat,
        PathListSort rnd natural.Less lowerLatin1 createTestData "invalid_field" "asc"
          = PathListSort rnd natural.Less lowerLatin1 createTestData "name" "asc" ∧
        names (PathListSort rnd natural.Less lowerLatin1 createTestData "invalid_field" "asc") =
          ["folder1", "folder2", "document", "file1.txt", "file2.txt", "file10.txt",
            "image.png"] :=
  ⟨⟨by decide, by decide, by decide, by decide, by decide⟩, fun rnd =>
    ⟨sort_unknown_key_as_name rnd natural.Less lowerLatin1 createTestData "invalid_field" "asc"
      (by decide) (by decide) (by decide) (by decide) (by decide), rfl⟩⟩

/-- C12: with a direction other than exactly `desc` (the empty string, `ASC`,
`bogus`, `invalid`, ...) `PathList.Sort` gives exactly the result of the direction
`asc`, for every key and every slice. -/
theorem sort_direction_defaults_to_asc (rnd : Nat → Nat) (nl : String → String → Bool)
    (ul : Char → Char) (p : PathList)
    (orderBy orderDirection : String) (h : orderDirection ≠ "desc") :
    PathListSort rnd nl ul p orderBy orderDirection = PathListSort rnd nl ul p orderBy "asc" := by
  unfold PathListSort
  rw [less_of_ne_desc nl ul orderBy orderDirection h]

/-- Instance of `sort_direction_defaults_to_asc` with `natural.Less`: the
directions `invalid` of `TestEdgeCases` and `ASC` on the test data. -/
theorem sort_direction_defaults_to_asc_witness :
    (("invalid" : String) ≠ "desc" ∧ ("ASC" : String) ≠ "desc") ∧
      ∀ rnd : Nat → Nat,
        PathListSort rnd natural.Less lowerLatin1 createTestData "name" "invalid"
          = PathListSort rnd natural.Less lowerLatin1 createTestData "name" "asc" ∧
        PathListSort rnd natural.Less lowerLatin1 createTestData "size" "ASC"
          = PathListSort rnd natural.Less lowerLatin1 createTestData "size" "asc" ∧
        names (PathListSort rnd natural.Less lowerLatin1 createTestData "name" "invalid") =
          ["folder1", "folder2", "document", "file1.txt", "file2.txt", "file10.txt",
            "image.png"] :=
  ⟨⟨by decide, by decide⟩, fun rnd =>
    ⟨sort_direction_defaults_to_asc rnd natural.Less lowerLatin1 createTestData "name"
        "invalid" (by decide),
      sort_direction_defaults_to_asc rnd natural.Less lowerLatin1 createTestData "size" "ASC"
        (by decide),
      rfl⟩⟩

/-! ## The comparison closure as an order -/

/-- C17: for every non-empty key other than `type` and every direction (`desc`
included), a directory `a` and a non-directory `b` compare as `less(a, b) = true`
and `less(b, a) = false`, whatever their names, sizes and dates: the negation for
`desc` is not applied to this decision. -/
theorem less_directory_priority (nl : String → String → Bool) (ul : Char → Char)
    (orderBy orderDirection : String) (a b : Path) (h0 : orderBy ≠ "")
    (ht : orderBy ≠ "type") (ha : a.IsDir = true) (hb : b.IsDir = false) :
    less nl ul orderBy orderDirection a b = true ∧
      less nl ul orderBy orderDirection b a = false := by
  have _ := h0
  exact ⟨less_dir_file nl ul orderBy orderDirection a b ht ha hb,
    less_file_dir nl ul orderBy orderDirection b a ht hb ha⟩

/-- Instance of `less_directory_priority`: by size, descending, an empty directory
against a large file. -/
theorem less_directory_priority_witness :
    less naturalLess lowerLatin1 "size" "desc" (mkEntry "folder1" true 72 0)
        (mkEntry "image.png" false 12 4096) = true ∧
      less naturalLess lowerLatin1 "size" "desc" (mkEntry "image.png" false 12 4096)
        (mkEntry "folder1" true 72 0) = false :=
  less_directory_priority naturalLess lowerLatin1 "size" "desc" (mkEntry "folder1" true 72 0)
    (mkEntry "image.png" false 12 4096) (by decide) (by decide) (by decide) (by decide)

/-- An asymmetric and negatively transitive comparison is a strict weak order. -/
theorem strictWeakOrder_of_asymm_negTrans {α : Type} (lt : α → α → Bool)
    (hasym : ∀ a b, lt a b = true → lt b a = false)
    (hneg : ∀ a b c, lt b a = false → lt c b = false → lt c a = false) :
    StrictWeakOrder lt where
  irrefl := by
    intro a
    cases h : lt a a with
    | false => rfl
    | true => rw [hasym a a h] at h; exact absurd h (by decide)
  trans := by
    intro a b c hab hbc
    cases hac : lt a c with
    | true => rfl
    | false =>
      have := hneg c a b hac (hasym a b hab)
      rw [hbc] at this
      exact absurd this (by decide)
  incomp_trans := by
    intro a b c hab hba hbc hcb
    exact ⟨hneg c b a hbc hab, hneg a b c hba hcb⟩

/-- C19: when the natural string order `nl` is a strict weak order, the comparison
closure with the ascending direction is a strict weak order on entries, for every
key (`name`, `size`, `modified`, `type` and every other key, which falls back to
the name): `less(a, a)` is false, `less` is transitive, incomparability is
transitive, and `less(a, b)` excludes `less(b, a)`; this includes pairs of a
directory and a non-directory and the ties decided by the name. -/
theorem less_asc_strictWeakOrder (nl : String → String → Bool) (ul : Char → Char)
    (h : StrictWeakOrder nl)
    (orderBy : String) :
    StrictWeakOrder (less nl ul orderBy "asc") ∧
      (∀ a : Path, less nl ul orderBy "asc" a a = false) ∧
      (∀ a b c : Path, less nl ul orderBy "asc" a b = true → less nl ul orderBy "asc" b c = true →
        less nl ul orderBy "asc" a c = true) ∧
      (∀ a b : Path, less nl ul orderBy "asc" a b = true →
        less nl ul orderBy "asc" b a = false) := by
  have hswo : StrictWeakOrder (less nl ul orderBy "asc") :=
    strictWeakOrder_of_asymm_negTrans (less nl ul orderBy "asc")
      (fun a b hab => less_asc_asymm h orderBy a b hab)
      (fun a b c hba hcb => less_asc_negTrans h orderBy a b c hba hcb)
  exact ⟨hswo, hswo.irrefl, hswo.trans, fun a b hab => less_asc_asymm h orderBy a b hab⟩

/-- Instance of `less_asc_strictWeakOrder`: the reference natural order and the
key `size`. -/
theorem less_asc_strictWeakOrder_witness :
    StrictWeakOrder naturalLess ∧ StrictWeakOrder (less naturalLess lowerLatin1 "size" "asc") :=
  ⟨naturalLess_strictWeak,
    (less_asc_strictWeakOrder naturalLess lowerLatin1 naturalLess_strictWeak "size").1⟩

/-- The type tag depends on the name and the directory flag only. -/
theorem getFileType_congr (a b : Path) (hd : a.IsDir = b.IsDir) (hn : a.Name = b.Name) :
    getFileType ul a = getFileType ul b := by
  simp [getFileType, hd, hn]

/-- With equal key and equal name the switch returns the value of the natural
order on the name against itself. -/
theorem switchResult_tie (nl : String → String → Bool) (ul : Char → Char)
    (orderBy : String) (a b : Path)
    (hd : a.IsDir = b.IsDir) (hn : a.Name = b.Name)
    (hs : orderBy = "size" → a.Size = b.Size) (hm : orderBy = "modified" → a.Date = b.Date) :
    switchResult nl ul orderBy a b = nl a.Name a.Name := by
  unfold switchResult
  by_cases h1 : orderBy = "name"
  · simp [h1, hn]
  · by_cases h2 : orderBy = "size"
    · simp [h2, hs h2, hn]
    · by_cases h3 : orderBy = "modified"
      · simp [h3, hm h3, hn]
      · by_cases h4 : orderBy = "type"
        · simp [h4, getFileType_congr a b hd hn, hn]
        · simp [h1, h2, h3, h4, hn]

/-- C20: with the direction `desc` the comparison closure is not irreflexive, for
every natural order `nl` that is irreflexive: for every non-empty key and every
entry `a`, `less(a, a) = true`; for two entries of the same `IsDir`, equal key
value and equal name, both `less(a, b)` and `less(b, a)` are true; and inside a
directory-status group the closure is the negation of the ascending one. -/
theorem less_desc_not_irreflexive (nl : String → String → Bool) (ul : Char → Char)
    (hirr : ∀ s : String, nl s s = false) (orderBy : String) (h0 : orderBy ≠ "") :
    (∀ a : Path, less nl ul orderBy "desc" a a = true) ∧
      (∀ a b : Path, a.IsDir = b.IsDir → a.Name = b.Name →
        (orderBy = "size" → a.Size = b.Size) → (orderBy = "modified" → a.Date = b.Date) →
        less nl ul orderBy "desc" a b = true ∧ less nl ul orderBy "desc" b a = true) ∧
      (∀ a b : Path, a.IsDir = b.IsDir →
        less nl ul orderBy "desc" a b = !less nl ul orderBy "asc" a b) := by
  have _ := h0
  have tie : ∀ a b : Path, a.IsDir = b.IsDir → a.Name = b.Name →
      (orderBy = "size" → a.Size = b.Size) → (orderBy = "modified" → a.Date = b.Date) →
      less nl ul orderBy "desc" a b = true := by
    intro a b hd hn hs hm
    rw [less_same nl ul orderBy "desc" a b (Or.inr hd),
      switchResult_tie nl ul orderBy a b hd hn hs hm,
      hirr]
    rfl
  refine ⟨fun a => tie a a rfl rfl (fun _ => rfl) (fun _ => rfl), ?_, ?_⟩
  · intro a b hd hn hs hm
    exact ⟨tie a b hd hn hs hm,
      tie b a hd.symm hn.symm (fun e => (hs e).symm) (fun e => (hm e).symm)⟩
  · intro a b hd
    rw [less_same nl ul orderBy "desc" a b (Or.inr hd),
      less_same nl ul orderBy "asc" a b (Or.inr hd)]
    simp

/-- Instance of `less_desc_not_irreflexive`: the reference natural order, the key
`size` and the entry `document`. -/
theorem less_desc_not_irreflexive_witness :
    (∀ s : String, naturalLess s s = false) ∧
      less naturalLess lowerLatin1 "size" "desc" (mkEntry "document" false 6 1024)
        (mkEntry "document" false 6 1024) = true :=
  ⟨naturalLess_strictWeak.irrefl,
    (less_desc_not_irreflexive naturalLess lowerLatin1 naturalLess_strictWeak.irrefl "size"
      (by decide)).1
      (mkEntry "document" false 6 1024)⟩

/-! ## Descending direction: the order of the result -/

theorem tieFree_perm (nl : String → String → Bool) (ul : Char → Char)
    (orderBy : String) {p q : PathList}
    (hpq : p.Perm q) (hp : TieFree nl ul orderBy p) : TieFree nl ul orderBy q := by
  unfold TieFree at hp ⊢
  exact (hpq.pairwise_iff (fun {x y} hxy => hxy.symm)).mp hp

/-- Descending closure on two entries that are not tied: when `a` may precede `b`,
`b` may not precede `a`. -/
theorem less_desc_strict (nl : String → String → Bool) (ul : Char → Char)
    (orderBy : String) (a b : Path)
    (hab : less nl ul orderBy "desc" a b = true)
    (ht : less nl ul orderBy "asc" a b = true ∨ less nl ul orderBy "asc" b a = true) :
    less nl ul orderBy "desc" b a = false := by
  have same : (orderBy = "type" ∨ a.IsDir = b.IsDir) → less nl ul orderBy "desc" b a = false := by
    intro hs
    have hs2 : orderBy = "type" ∨ b.IsDir = a.IsDir := hs.imp id Eq.symm
    rw [less_desc_same nl ul orderBy a b hs] at hab
    rw [less_asc_same nl ul orderBy a b hs, less_asc_same nl ul orderBy b a hs2] at ht
    rw [less_desc_same nl ul orderBy b a hs2]
    have h1 : switchResult nl ul orderBy a b = false := by simpa using hab
    rw [h1] at ht
    rcases ht with ht | ht
    · exact absurd ht (by decide)
    · rw [ht]
      rfl
  by_cases hty : orderBy = "type"
  · exact same (Or.inl hty)
  · cases ha : a.IsDir <;> cases hb : b.IsDir
    · exact same (Or.inr (by rw [ha, hb]))
    · rw [less_file_dir nl ul orderBy "desc" a b hty ha hb] at hab
      exact absurd hab (by decide)
    · exact less_file_dir nl ul orderBy "desc" b a hty hb ha
    · exact same (Or.inr (by rw [ha, hb]))

/-- Ascending result of a slice without ties: every entry is strictly before the
entries placed after it. -/
theorem sort_asc_strict (rnd : Nat → Nat)
    {nl : String → String → Bool} {ul : Char → Char} (p : PathList)
    (h : StrictWeakOrderOn nl (names p)) (orderBy : String) (hne : orderBy ≠ "")
    (htf : TieFree nl ul orderBy p) :
    (PathListSort rnd nl ul p orderBy "asc").Pairwise
      (fun a b => less nl ul orderBy "asc" a b = true ∧ less nl ul orderBy "asc" b a = false) := by
  have hperm := PathListSort_perm rnd nl ul p orderBy "asc"
  have h1 := sort_asc_pairwise_on rnd ul p h orderBy hne
  have h2 : TieFree nl ul orderBy (PathListSort rnd nl ul p orderBy "asc") :=
    tieFree_perm nl ul orderBy hperm.symm htf
  refine (h1.and h2).imp ?_
  intro a b hab
  rcases hab.2 with h3 | h3
  · exact ⟨h3, hab.1⟩
  · rw [hab.1] at h3
    exact absurd h3 (by decide)

/-- Descending result of a slice without ties: every entry is strictly before the
entries placed after it. -/
theorem sort_desc_strict (rnd : Nat → Nat)
    {nl : String → String → Bool} {ul : Char → Char} (p : PathList)
    (h : StrictWeakOrderOn nl (names p)) (orderBy : String) (hne : orderBy ≠ "")
    (htf : TieFree nl ul orderBy p) :
    (PathListSort rnd nl ul p orderBy "desc").Pairwise
      (fun a b => less nl ul orderBy "desc" a b = true ∧
        less nl ul orderBy "desc" b a = false) := by
  have hperm := PathListSort_perm rnd nl ul p orderBy "desc"
  have h1 := sort_desc_pairwise_on rnd ul p h orderBy hne
  have h2 : TieFree nl ul orderBy (PathListSort rnd nl ul p orderBy "desc") :=
    tieFree_perm nl ul orderBy hperm.symm htf
  refine (h1.and h2).imp ?_
  intro a b hab
  exact ⟨hab.1, less_desc_strict nl ul orderBy a b hab.1 hab.2⟩

/-- Two rearrangements of the same entries, each with every entry strictly before
the entries placed after it, are the same slice. -/
theorem strict_order_unique {α : Type} (lt : α → α → Bool) {l₁ l₂ : List α}
    (hp : l₁.Perm l₂)
    (h₁ : l₁.Pairwise (fun a b => lt a b = true ∧ lt b a = false))
    (h₂ : l₂.Pairwise (fun a b => lt a b = true ∧ lt b a = false)) : l₁ = l₂ := by
  haveI : IsAntisymm α (fun a b => lt a b = true ∧ lt b a = false) :=
    ⟨fun a b hab hba => by
      have := hab.1
      rw [hba.2] at this
      exact absurd this (by decide)⟩
  exact List.eq_of_perm_of_sorted hp h₁ h₂

/-- The ascending comparison decides every pair of entries whose names the natural
order decides. -/
theorem less_asc_connected (nl : String → String → Bool) (ul : Char → Char)
    (orderBy : String) (a b : Path)
    (hn : nl a.Name b.Name = true ∨ nl b.Name a.Name = true) :
    less nl ul orderBy "asc" a b = true ∨ less nl ul orderBy "asc" b a = true := by
  have same : (orderBy = "type" ∨ a.IsDir = b.IsDir) →
      (less nl ul orderBy "asc" a b = true ∨ less nl ul orderBy "asc" b a = true) := by
    intro hs
    have hs2 : orderBy = "type" ∨ b.IsDir = a.IsDir := hs.imp id Eq.symm
    rw [less_asc_same nl ul orderBy a b hs, less_asc_same nl ul orderBy b a hs2]
    unfold switchResult
    by_cases h1 : orderBy = "name"
    · simpa [h1] using hn
    · by_cases h2 : orderBy = "size"
      · by_cases he : a.Size = b.Size
        · simpa [h2, he] using hn
        · have he2 : ¬ b.Size = a.Size := fun e => he e.symm
          simp only [h2, he, he2, if_true, if_false, show ¬ ("size" = "name") by decide,
            decide_eq_true_eq]
          omega
      · by_cases h3 : orderBy = "modified"
        · by_cases he : a.Date = b.Date
          · simpa [h3, he] using hn
          · have he2 : ¬ b.Date = a.Date := fun e => he e.symm
            simp only [h3, he, he2, if_true, if_false, show ¬ ("modified" = "name") by decide,
              show ¬ ("modified" = "size") by decide, decide_eq_true_eq]
            omega
        · by_cases h4 : orderBy = "type"
          · by_cases he : getFileType ul a = getFileType ul b
            · simpa [h4, he] using hn
            · have he2 : ¬ getFileType ul b = getFileType ul a := fun e => he e.symm
              simp only [h4, he, he2, if_true, if_false, show ¬ ("type" = "name") by decide,
                show ¬ ("type" = "size") by decide, show ¬ ("type" = "modified") by decide]
              rcases lt_or_gt_of_ne he with hlt | hgt
              · exact Or.inl ((stringLess_iff _ _).mpr hlt)
              · exact Or.inr ((stringLess_iff _ _).mpr hgt)
          · simpa [h1, h2, h3, h4] using hn
  by_cases hty : orderBy = "type"
  · exact same (Or.inl hty)
  · cases ha : a.IsDir <;> cases hb : b.IsDir
    · exact same (Or.inr (by rw [ha, hb]))
    · exact Or.inr (less_dir_file nl ul orderBy "asc" b a hty hb ha)
    · exact Or.inl (less_dir_file nl ul orderBy "asc" a b hty ha hb)
    · exact same (Or.inr (by rw [ha, hb]))

/-- A slice with pairwise distinct names, any two of which the natural order
decides, has no tied entries, for every key. -/
theorem tieFree_of_distinct_names (nl : String → String → Bool) (ul : Char → Char)
    (orderBy : String)
    (p : PathList) (hdist : p.Pairwise (fun a b => a.Name ≠ b.Name))
    (htot : ∀ a ∈ p, ∀ b ∈ p, a.Name ≠ b.Name →
      nl a.Name b.Name = true ∨ nl b.Name a.Name = true) :
    TieFree nl ul orderBy p := by
  unfold TieFree
  exact hdist.imp_of_mem (fun {a b} ha hb hab =>
    less_asc_connected nl ul orderBy a b (htot a ha b hb hab))

/-- Two rearrangements of the same entries without ties sort to the same slice. -/
theorem sort_eq_of_perm (rnd : Nat → Nat)
    {nl : String → String → Bool} {ul : Char → Char} (p q : PathList)
    (h : StrictWeakOrderOn nl (names p)) (orderBy orderDirection : String)
    (hne : orderBy ≠ "") (hpq : p.Perm q) (htf : TieFree nl ul orderBy p) :
    PathListSort rnd nl ul p orderBy orderDirection
        = PathListSort rnd nl ul q orderBy orderDirection := by
  have htq : TieFree nl ul orderBy q := tieFree_perm nl ul orderBy hpq htf
  have hq : StrictWeakOrderOn nl (names q) := strictWeakOrderOn_perm (names_perm hpq) h
  have hperm : ∀ (r : PathList) (od : String), (PathListSort rnd nl ul r orderBy od).Perm r :=
    fun r od => PathListSort_perm rnd nl ul r orderBy od
  by_cases hd : orderDirection = "desc"
  · subst hd
    exact strict_order_unique (less nl ul orderBy "desc")
      (((hperm p "desc").trans hpq).trans (hperm q "desc").symm)
      (sort_desc_strict rnd p h orderBy hne htf) (sort_desc_strict rnd q hq orderBy hne htq)
  · have e : ∀ r : PathList,
        PathListSort rnd nl ul r orderBy orderDirection
            = PathListSort rnd nl ul r orderBy "asc" := by
      intro r
      unfold PathListSort
      rw [less_of_ne_desc nl ul orderBy orderDirection hd]
    rw [e p, e q]
    exact strict_order_unique (less nl ul orderBy "asc")
      (((hperm p "asc").trans hpq).trans (hperm q "asc").symm)
      (sort_asc_strict rnd p h orderBy hne htf) (sort_asc_strict rnd q hq orderBy hne htq)

/-- Whatever the natural order, as long as it does not put a name before itself,
sorting the two files of the same name by `name`, descending, exchanges them. -/
theorem sort_desc_exchanges_same_name (rnd : Nat → Nat)
    (nl : String → String → Bool) (ul : Char → Char)
    (hirr : nl "report.txt" "report.txt" = false) :
    PathListSort rnd nl ul sameNameEntries "name" "desc" = sameNameEntries.reverse ∧
      PathListSort rnd nl ul sameNameEntries.reverse "name" "desc" = sameNameEntries := by
  constructor <;>
    simp [PathListSort, sameNameEntries, sortSlice_pair, less, switchResult, hirr]

/-- C14 (the claim fails), in two ways.  With `desc`, the two files of the same
name sorted by `name` come out exchanged, and sorting that result again exchanges
them back.  With `asc`, thirteen files whose names `natural.Less` orders in cycles
are rearranged again by a second sort by `name`. -/
theorem sort_not_idempotent :
    (natural.Less "01b" "1" = true ∧ natural.Less "1" "1a" = true ∧
      natural.Less "1a" "01b" = true) ∧
    ∀ rnd : Nat → Nat,
      (PathListSort rnd natural.Less lowerLatin1 sameNameEntries "name" "desc"
          = sameNameEntries.reverse ∧
        PathListSort rnd natural.Less lowerLatin1
            (PathListSort rnd natural.Less lowerLatin1 sameNameEntries "name" "desc")
            "name" "desc"
          = sameNameEntries ∧
        PathListSort rnd natural.Less lowerLatin1
            (PathListSort rnd natural.Less lowerLatin1 sameNameEntries "name" "desc")
            "name" "desc"
          ≠ PathListSort rnd natural.Less lowerLatin1 sameNameEntries "name" "desc") ∧
      (names (PathListSort rnd natural.Less lowerLatin1 cyclicNames13 "name" "asc")
          = ["0001a", "001", "1a", "001a", "1b", "01b", "1", "1c", "01c", "001c", "1d",
              "001d", "0001d"] ∧
        names (PathListSort rnd natural.Less lowerLatin1
            (PathListSort rnd natural.Less lowerLatin1 cyclicNames13 "name" "asc")
            "name" "asc")
          = ["0001a", "001", "1a", "001a", "1b", "01b", "001c", "1c", "01c", "1", "1d",
              "001d", "0001d"] ∧
        PathListSort rnd natural.Less lowerLatin1
            (PathListSort rnd natural.Less lowerLatin1 cyclicNames13 "name" "asc")
            "name" "asc"
          ≠ PathListSort rnd natural.Less lowerLatin1 cyclicNames13 "name" "asc") := by
  refine ⟨⟨by decide, by decide, by decide⟩, fun rnd => ?_⟩
  have e1 : PathListSort rnd natural.Less lowerLatin1 sameNameEntries "name" "desc"
      = sameNameEntries.reverse := rfl
  have e2 : PathListSort rnd natural.Less lowerLatin1 sameNameEntries.reverse "name" "desc"
      = sameNameEntries := rfl
  have e3 : PathListSort rnd natural.Less lowerLatin1 cyclicNames13 "name" "asc"
      = ["0001a", "001", "1a", "001a", "1b", "01b", "1", "1c", "01c", "001c", "1d", "001d",
          "0001d"].map (fun n => mkEntry n false 0 0) := rfl
  have e4 : names (PathListSort rnd natural.Less lowerLatin1
      (["0001a", "001", "1a", "001a", "1b", "01b", "1", "1c", "01c", "001c", "1d", "001d",
          "0001d"].map (fun n => mkEntry n false 0 0)) "name" "asc")
      = ["0001a", "001", "1a", "001a", "1b", "01b", "001c", "1c", "01c", "1", "1d", "001d",
          "0001d"] := rfl
  refine ⟨⟨e1, ?_, ?_⟩, ?_, ?_, ?_⟩
  · rw [e1, e2]
  · rw [e1, e2]
    decide
  · rw [e3]
    rfl
  · rw [e3, e4]
  · rw [e3]
    intro h
    have h2 := congrArg names h
    rw [e4] at h2
    exact absurd h2 (by decide)

/-- C14 (amended): for a slice on whose names the natural order `nl` is a strict
weak order, `PathList.Sort` is idempotent whenever the direction is not `desc`,
and with `desc` whenever in addition no two entries of the slice are tied for the
key: sorting the result again with the same key and direction gives the same
slice. -/
theorem sort_idempotent (rnd : Nat → Nat)
    (nl : String → String → Bool) (ul : Char → Char) (p : PathList)
    (h : StrictWeakOrderOn nl (names p)) (orderBy orderDirection : String)
    (hcase : orderDirection ≠ "desc" ∨ TieFree nl ul orderBy p) :
    PathListSort rnd nl ul (PathListSort rnd nl ul p orderBy orderDirection) orderBy orderDirection
      = PathListSort rnd nl ul p orderBy orderDirection := by
  by_cases hne : orderBy = ""
  · simp [PathListSort, hne]
  · by_cases hd : orderDirection = "desc"
    · subst hd
      have htf : TieFree nl ul orderBy p := by
        rcases hcase with hc | hc
        · exact absurd rfl hc
        · exact hc
      have hs := sort_desc_strict rnd p h orderBy hne htf
      rw [PathListSort_of_ne rnd nl ul (PathListSort rnd nl ul p orderBy "desc") orderBy "desc" hne]
      exact sortSlice_fixed rnd _ _ (hs.imp (fun hab => hab.2))
    · have hq := sort_asc_pairwise_on rnd ul p h orderBy hne
      rw [PathListSort_of_ne rnd nl ul (PathListSort rnd nl ul p orderBy orderDirection) orderBy
        orderDirection hne]
      have e : PathListSort rnd nl ul p orderBy orderDirection
          = PathListSort rnd nl ul p orderBy "asc" := by
        unfold PathListSort
        rw [less_of_ne_desc nl ul orderBy orderDirection hd]
      rw [less_of_ne_desc nl ul orderBy orderDirection hd, e]
      exact sortSlice_fixed rnd _ _ hq

/-- Instance of `sort_idempotent` with `natural.Less`: the test data by size,
ascending, and by name, descending (no two entries tied). -/
theorem sort_idempotent_witness :
    (StrictWeakOrderOn natural.Less (names createTestData) ∧
      TieFree natural.Less lowerLatin1 "name" createTestData) ∧
      ∀ rnd : Nat → Nat,
        PathListSort rnd natural.Less lowerLatin1
            (PathListSort rnd natural.Less lowerLatin1 createTestData "size" "asc")
            "size" "asc"
          = PathListSort rnd natural.Less lowerLatin1 createTestData "size" "asc" ∧
        PathListSort rnd natural.Less lowerLatin1
            (PathListSort rnd natural.Less lowerLatin1 createTestData "name" "desc")
            "name" "desc"
          = PathListSort rnd natural.Less lowerLatin1 createTestData "name" "desc" ∧
        names (PathListSort rnd natural.Less lowerLatin1 createTestData "name" "desc")
          = ["folder2", "folder1", "image.png", "file10.txt", "file2.txt", "file1.txt",
              "document"] :=
  ⟨⟨by unfold StrictWeakOrderOn; decide, by unfold TieFree; decide⟩, fun rnd =>
    ⟨sort_idempotent rnd natural.Less lowerLatin1 createTestData
        (by unfold StrictWeakOrderOn; decide) "size" "asc" (Or.inl (by decide)),
      sort_idempotent rnd natural.Less lowerLatin1 createTestData
        (by unfold StrictWeakOrderOn; decide) "name" "desc"
        (Or.inr (by unfold TieFree; decide)),
      rfl⟩⟩

/-- C15 (the claim fails), in two ways.  The files `file01.txt` and `file1.txt`
of the same size have different names that `natural.Less` leaves unordered, and
sorted by `size` they stay in the order of the input, whichever it is.  The three
files of `cyclicFiles` have the same size and different names, any two of which
`natural.Less` orders, but in a cycle, and two orders of the input give two
different results. -/
theorem sort_depends_on_input_order :
    (tiedFiles.Perm tiedFiles.reverse ∧
      tiedFiles.Pairwise (fun a b => a.Name ≠ b.Name) ∧
      natural.Less "file01.txt" "file1.txt" = false ∧
      natural.Less "file1.txt" "file01.txt" = false ∧
      cyclicFiles.Perm
        [mkEntry "1" false 12 1024, mkEntry "1.txt" false 12 1024,
          mkEntry "01b.txt" false 12 1024] ∧
      cyclicFiles.Pairwise (fun a b => a.Name ≠ b.Name) ∧
      DecidesOn natural.Less (names cyclicFiles)) ∧
    ∀ rnd : Nat → Nat,
      (PathListSort rnd natural.Less lowerLatin1 tiedFiles "size" "asc" = tiedFiles ∧
        PathListSort rnd natural.Less lowerLatin1 tiedFiles.reverse "size" "asc"
          = tiedFiles.reverse ∧
        PathListSort rnd natural.Less lowerLatin1 tiedFiles "size" "asc"
          ≠ PathListSort rnd natural.Less lowerLatin1 tiedFiles.reverse "size" "asc") ∧
      (names (PathListSort rnd natural.Less lowerLatin1 cyclicFiles "size" "asc")
          = ["01b.txt", "1", "1.txt"] ∧
        names (PathListSort rnd natural.Less lowerLatin1
            [mkEntry "1" false 12 1024, mkEntry "1.txt" false 12 1024,
              mkEntry "01b.txt" false 12 1024] "size" "asc")
          = ["1", "1.txt", "01b.txt"] ∧
        PathListSort rnd natural.Less lowerLatin1 cyclicFiles "size" "asc"
          ≠ PathListSort rnd natural.Less lowerLatin1
            [mkEntry "1" false 12 1024, mkEntry "1.txt" false 12 1024,
              mkEntry "01b.txt" false 12 1024] "size" "asc") := by
  refine ⟨⟨(List.reverse_perm tiedFiles).symm, by decide, by decide, by decide,
    List.Perm.cons _ (List.Perm.swap _ _ _), by decide, by unfold DecidesOn; decide⟩,
    fun rnd => ?_⟩
  have e1 : PathListSort rnd natural.Less lowerLatin1 tiedFiles "size" "asc" = tiedFiles := rfl
  have e2 : PathListSort rnd natural.Less lowerLatin1 tiedFiles.reverse "size" "asc"
      = tiedFiles.reverse := rfl
  have e3 : names (PathListSort rnd natural.Less lowerLatin1 cyclicFiles "size" "asc")
      = ["01b.txt", "1", "1.txt"] := rfl
  have e4 : names (PathListSort rnd natural.Less lowerLatin1
      [mkEntry "1" false 12 1024, mkEntry "1.txt" false 12 1024,
        mkEntry "01b.txt" false 12 1024] "size" "asc") = ["1", "1.txt", "01b.txt"] := rfl
  refine ⟨⟨e1, e2, ?_⟩, e3, e4, ?_⟩
  · rw [e1, e2]
    decide
  · intro h
    have h2 := congrArg names h
    rw [e3, e4] at h2
    exact absurd h2 (by decide)

/-- C15 (amended): the result of `PathList.Sort` by `size` and by `modified` does
not depend on the original order of the input, for two slices that are
rearrangements of each other, with pairwise distinct names on which the natural
order `nl` is a strict weak order that decides any two distinct names: they give
the same result for the same key and direction.  In the ascending result, entries
of the same directory status with equal size (or equal modification time) are then
in strict natural name order. -/
theorem sort_independent_of_input_order (rnd : Nat → Nat)
    (nl : String → String → Bool) (ul : Char → Char)
    (p q : PathList) (orderBy orderDirection : String)
    (hkey : orderBy = "size" ∨ orderBy = "modified") (hpq : p.Perm q)
    (hdist : p.Pairwise (fun a b => a.Name ≠ b.Name))
    (h : StrictWeakOrderOn nl (names p)) (htot : DecidesOn nl (names p)) :
    PathListSort rnd nl ul p orderBy orderDirection
        = PathListSort rnd nl ul q orderBy orderDirection ∧
      ∀ (i j : Nat) (a b : Path), i < j →
        (PathListSort rnd nl ul p orderBy "asc")[i]? = some a →
        (PathListSort rnd nl ul p orderBy "asc")[j]? = some b →
        a.IsDir = b.IsDir → (orderBy = "size" → a.Size = b.Size) →
        (orderBy = "modified" → a.Date = b.Date) → nl a.Name b.Name = true := by
  have hne : orderBy ≠ "" := by
    rcases hkey with e | e <;> rw [e] <;> decide
  have htf : TieFree nl ul orderBy p := tieFree_of_distinct_names nl ul orderBy p hdist
    (fun a ha b hb hab => htot a.Name (mem_names ha) b.Name (mem_names hb) hab)
  refine ⟨sort_eq_of_perm rnd p q h orderBy orderDirection hne hpq htf, ?_⟩
  intro i j a b hij hi hj hd hs hm
  have hab := (pairwise_at (sort_asc_strict rnd p h orderBy hne htf) hij hi hj).1
  rw [less_asc_same nl ul orderBy a b (Or.inr hd)] at hab
  rcases hkey with e | e
  · subst e
    rw [switchResult_size, if_pos (hs rfl)] at hab
    exact hab
  · subst e
    rw [switchResult_modified, if_pos (hm rfl)] at hab
    exact hab

/-- Instance of `sort_independent_of_input_order` with `natural.Less`: the test
data and the test data in the opposite order, by size, descending, give the same
slice, and in the ascending result `document` is before `file10.txt`, of the same
size. -/
theorem sort_independent_of_input_order_witness :
    (StrictWeakOrderOn natural.Less (names createTestData) ∧
      DecidesOn natural.Less (names createTestData) ∧
      createTestData.Perm createTestData.reverse ∧
      createTestData.Pairwise (fun a b => a.Name ≠ b.Name)) ∧
      ∀ rnd : Nat → Nat,
        PathListSort rnd natural.Less lowerLatin1 createTestData "size" "desc"
          = PathListSort rnd natural.Less lowerLatin1 createTestData.reverse "size" "desc" ∧
        names (PathListSort rnd natural.Less lowerLatin1 createTestData "size" "desc")
          = ["folder2", "folder1", "image.png", "file2.txt", "file10.txt", "document",
              "file1.txt"] ∧
        (PathListSort rnd natural.Less lowerLatin1 createTestData "size" "asc")[3]?
          = some (mkEntry "document" false 6 1024) ∧
        (PathListSort rnd natural.Less lowerLatin1 createTestData "size" "asc")[4]?
          = some (mkEntry "file10.txt" false 48 1024) ∧
        natural.Less "document" "file10.txt" = true :=
  ⟨⟨by unfold StrictWeakOrderOn; decide, by unfold DecidesOn; decide,
    (List.reverse_perm createTestData).symm, by decide⟩, fun rnd =>
    ⟨(sort_independent_of_input_order rnd natural.Less lowerLatin1 createTestData
        createTestData.reverse "size" "desc" (Or.inl rfl)
        (List.reverse_perm createTestData).symm (by decide)
        (by unfold StrictWeakOrderOn; decide) (by unfold DecidesOn; decide)).1,
      rfl, rfl, rfl,
      (sort_independent_of_input_order rnd natural.Less lowerLatin1 createTestData
        createTestData.reverse "size" "asc" (Or.inl rfl)
        (List.reverse_perm createTestData).symm (by decide)
        (by unfold StrictWeakOrderOn; decide) (by unfold DecidesOn; decide)).2 3 4
        (mkEntry "document" false 6 1024) (mkEntry "file10.txt" false 48 1024)
        (by decide) rfl rfl (by decide) (fun _ => by decide)
        (fun h => absurd h (by decide))⟩⟩

/-- C18 (the claim fails), in two ways.  The three files of `cyclicPlainFiles`
have different names, all with the tag `999_file`, which `natural.Less` orders in
a cycle: by `type` they come out as `1, 1a, 01b` ascending and as `1a, 1, 01b`
descending, which is not the reverse.  The thirteen files of `tiedNames13` have
different names with the same tag `x`, any two of which `natural.Less` leaves
unordered: the ascending result is the input and the descending result is not its
reverse. -/
theorem sort_type_desc_not_mirror :
    (cyclicPlainFiles.Pairwise (fun a b => a.Name ≠ b.Name) ∧
      tiedNames13.Pairwise (fun a b => a.Name ≠ b.Name) ∧
      StrictWeakOrderOn natural.Less (names tiedNames13)) ∧
    ∀ rnd : Nat → Nat,
      (names (PathListSort rnd natural.Less lowerLatin1 cyclicPlainFiles "type" "asc")
          = ["1", "1a", "01b"] ∧
        names (PathListSort rnd natural.Less lowerLatin1 cyclicPlainFiles "type" "desc")
          = ["1a", "1", "01b"] ∧
        PathListSort rnd natural.Less lowerLatin1 cyclicPlainFiles "type" "desc"
          ≠ (PathListSort rnd natural.Less lowerLatin1 cyclicPlainFiles "type" "asc").reverse) ∧
      (PathListSort rnd natural.Less lowerLatin1 tiedNames13 "type" "asc" = tiedNames13 ∧
        names (PathListSort rnd natural.Less lowerLatin1 tiedNames13 "type" "desc")
          = ["f000000000001.x", "f00000000001.x", "f0000000001.x", "f000000001.x",
              "f00000001.x", "f1.x", "f000001.x", "f00001.x", "f0001.x", "f001.x", "f01.x",
              "f0000000000001.x", "f0000001.x"] ∧
        PathListSort rnd natural.Less lowerLatin1 tiedNames13 "type" "desc"
          ≠ (PathListSort rnd natural.Less lowerLatin1 tiedNames13 "type" "asc").reverse) := by
  refine ⟨⟨by decide, by decide, by unfold StrictWeakOrderOn; decide⟩, fun rnd => ?_⟩
  have e1 : PathListSort rnd natural.Less lowerLatin1 cyclicPlainFiles "type" "asc"
      = cyclicPlainFiles := rfl
  have e2 : names (PathListSort rnd natural.Less lowerLatin1 cyclicPlainFiles "type" "desc")
      = ["1a", "1", "01b"] := rfl
  have e3 : PathListSort rnd natural.Less lowerLatin1 tiedNames13 "type" "asc"
      = tiedNames13 := rfl
  have e4 : names (PathListSort rnd natural.Less lowerLatin1 tiedNames13 "type" "desc")
      = ["f000000000001.x", "f00000000001.x", "f0000000001.x", "f000000001.x",
          "f00000001.x", "f1.x", "f000001.x", "f00001.x", "f0001.x", "f001.x", "f01.x",
          "f0000000000001.x", "f0000001.x"] := rfl
  refine ⟨⟨by rw [e1]; rfl, e2, ?_⟩, e3, e4, ?_⟩
  · rw [e1]
    intro h
    have h2 := congrArg names h
    rw [e2] at h2
    exact absurd h2 (by decide)
  · rw [e3]
    intro h
    have h2 := congrArg names h
    rw [e4] at h2
    exact absurd h2 (by decide)

/-- C18 (amended): for the key `type` the directory priority is not applied (the
closure is the switch on the type tags, negated for `desc`), and descending order
is the mirror of ascending order for a slice with pairwise distinct names on which
the natural order `nl` is a strict weak order that decides any two distinct names:
the result by `type`, descending, is the reverse of the result by `type`,
ascending.  With `natural.Less` the test data give `file10.txt, file2.txt,
file1.txt, image.png, document, folder2, folder1`. -/
theorem sort_type_desc_mirror (rnd : Nat → Nat)
    (nl : String → String → Bool) (ul : Char → Char) (p : PathList)
    (hdist : p.Pairwise (fun a b => a.Name ≠ b.Name))
    (h : StrictWeakOrderOn nl (names p)) (htot : DecidesOn nl (names p)) :
    (∀ (orderDirection : String) (a b : Path),
      less nl ul "type" orderDirection a b =
        (if orderDirection = "desc" then !switchResult nl ul "type" a b
         else switchResult nl ul "type" a b)) ∧
      PathListSort rnd nl ul p "type" "desc" = (PathListSort rnd nl ul p "type" "asc").reverse ∧
      names (PathListSort rnd natural.Less ul createTestData "type" "desc") =
        ["file10.txt", "file2.txt", "file1.txt", "image.png", "document", "folder2",
          "folder1"] := by
  have htf : TieFree nl ul "type" p := tieFree_of_distinct_names nl ul "type" p hdist
    (fun a ha b hb hab => htot a.Name (mem_names ha) b.Name (mem_names hb) hab)
  have hne : ("type" : String) ≠ "" := by decide
  refine ⟨fun od a b => less_same nl ul "type" od a b (Or.inl rfl), ?_, rfl⟩
  apply strict_order_unique (less nl ul "type" "desc")
    (((PathListSort_perm rnd nl ul p "type" "desc").trans
      (PathListSort_perm rnd nl ul p "type" "asc").symm).trans
      (List.reverse_perm (PathListSort rnd nl ul p "type" "asc")).symm)
    (sort_desc_strict rnd p h "type" hne htf)
  rw [List.pairwise_reverse]
  refine (sort_asc_strict rnd p h "type" hne htf).imp ?_
  intro a b hab
  rw [less_asc_same nl ul "type" a b (Or.inl rfl),
    less_asc_same nl ul "type" b a (Or.inl rfl)] at hab
  rw [less_desc_same nl ul "type" b a (Or.inl rfl), less_desc_same nl ul "type" a b (Or.inl rfl),
    hab.1, hab.2]
  exact ⟨rfl, rfl⟩

/-- Instance of `sort_type_desc_mirror` with `natural.Less`: the test data, whose
names are pairwise distinct and decided by the natural order. -/
theorem sort_type_desc_mirror_witness :
    (createTestData.Pairwise (fun a b => a.Name ≠ b.Name) ∧
      StrictWeakOrderOn natural.Less (names createTestData) ∧
      DecidesOn natural.Less (names createTestData)) ∧
      ∀ rnd : Nat → Nat,
        PathListSort rnd natural.Less lowerLatin1 createTestData "type" "desc"
          = (PathListSort rnd natural.Less lowerLatin1 createTestData "type" "asc").reverse ∧
        names (PathListSort rnd natural.Less lowerLatin1 createTestData "type" "asc") =
          ["folder1", "folder2", "document", "image.png", "file1.txt", "file2.txt",
            "file10.txt"] :=
  ⟨⟨by decide, by unfold StrictWeakOrderOn; decide, by unfold DecidesOn; decide⟩, fun rnd =>
    ⟨(sort_type_desc_mirror rnd natural.Less lowerLatin1 createTestData (by decide)
        (by unfold StrictWeakOrderOn; decide) (by unfold DecidesOn; decide)).2.1,
      rfl⟩⟩
/-! ## No run-time panic -/

theorem data_length_pos_of_ne_empty (s : String) (h : s ≠ "") : 1 ≤ s.data.length := by
  by_contra hcon
  apply h
  have hnil : s.data = [] := List.eq_nil_of_length_eq_zero (by omega)
  cases s
  simp_all

theorem sliceFrom1_eq_none_iff (s : String) : sliceFrom1 s = none ↔ s = "" := by
  unfold sliceFrom1
  constructor
  · intro h
    by_contra hne
    rw [if_pos (data_length_pos_of_ne_empty s hne)] at h
    exact absurd h (by simp)
  · intro h
    subst h
    rfl

theorem getFileTypeChecked_eq (ul : Char → Char) (e : Path) :
    getFileTypeChecked ul e = some (getFileType ul e) := by
  unfold getFileTypeChecked getFileType
  by_cases hd : e.IsDir = true
  · rw [if_pos hd, if_pos hd]
  · rw [if_neg hd, if_neg hd]
    by_cases hx : toLower ul (filepathExt e.Name) = ""
    · simp only [hx, if_true]
    · simp only [hx, if_false]
      unfold sliceFrom1
      rw [if_pos (data_length_pos_of_ne_empty _ hx)]

theorem switchResultChecked_eq (nl : String → String → Bool) (ul : Char → Char)
    (orderBy : String) (a b : Path) :
    switchResultChecked nl ul orderBy a b = some (switchResult nl ul orderBy a b) := by
  unfold switchResultChecked switchResult
  simp only [getFileTypeChecked_eq]
  split_ifs <;> rfl

theorem lessAt_eq (nl : String → String → Bool) (ul : Char → Char) (orderBy orderDirection : String)
    (p : PathList) (i j : Nat) (a b : Path) (hi : p[i]? = some a) (hj : p[j]? = some b) :
    lessAt nl ul orderBy orderDirection p i j = some (less nl ul orderBy orderDirection a b) := by
  unfold lessAt less
  rw [hi, hj]
  simp only [switchResultChecked_eq]
  split_ifs <;> rfl

theorem lessAt_eq_lessOf (nl : String → String → Bool) (ul : Char → Char)
    (orderBy orderDirection : String) :
    lessAt nl ul orderBy orderDirection = lessOf (less nl ul orderBy orderDirection) := by
  funext q i j
  cases hi : q[i]? with
  | none => simp [lessAt, lessOf, hi]
  | some a =>
    cases hj : q[j]? with
    | none => simp [lessAt, lessOf, hi, hj]
    | some b =>
      rw [lessAt_eq nl ul orderBy orderDirection q i j a b hi hj]
      simp [lessOf, hi, hj]

/-- C16: `PathList.Sort` and `getFileType` are total.  Executed with the run-time
checks of Go (bounds of `ext[1:]`, of `p[i]` and `p[j]` and of the swaps of
`sort.Slice`, whose loops are given a bound on their passes), they never panic,
always return, and return the values of `PathListSort` and `getFileType`, for
every slice (the empty one included), every key, every direction, every natural
order and every case table; `ext[1:]` panics on the empty string only, and
`getFileType` evaluates it only after the test `ext == ""` has failed.  The names
`""`, `.`, `a.` and `.hidden` get the tags `999_file`, `""`, `""` and `hidden`. -/
theorem sort_and_getFileType_total (rnd : Nat → Nat) (ul : Char → Char) :
    (∀ e : Path, getFileTypeChecked ul e = some (getFileType ul e)) ∧
    (∀ (nl : String → String → Bool) (p : PathList) (orderBy orderDirection : String),
      PathListSortChecked rnd nl ul p orderBy orderDirection
        = some (PathListSort rnd nl ul p orderBy orderDirection)) ∧
    (∀ (nl : String → String → Bool) (orderBy orderDirection : String),
      PathListSortChecked rnd nl ul [] orderBy orderDirection = some [] ∧
        PathListSort rnd nl ul [] orderBy orderDirection = []) ∧
    (∀ s : String, sliceFrom1 s = none ↔ s = "") ∧
    (getFileTypeChecked ul (mkEntry "" false 0 0) = some "999_file" ∧
      getFileTypeChecked ul (mkEntry "." false 0 0) = some "" ∧
      getFileTypeChecked ul (mkEntry "a." false 0 0) = some "" ∧
      getFileTypeChecked ul (mkEntry ".hidden" false 0 0) = some "hidden") := by
  have hsort : ∀ (nl : String → String → Bool) (p : PathList)
      (orderBy orderDirection : String),
      PathListSortChecked rnd nl ul p orderBy orderDirection
        = some (PathListSort rnd nl ul p orderBy orderDirection) := by
    intro nl p orderBy orderDirection
    unfold PathListSortChecked PathListSort
    by_cases hne : orderBy = ""
    · simp [hne]
    · rw [if_neg hne, if_neg hne, lessAt_eq_lessOf]
      exact sortSlice_eq rnd p _
  refine ⟨getFileTypeChecked_eq ul, hsort, ?_, sliceFrom1_eq_none_iff, rfl, rfl, rfl, rfl⟩
  intro nl orderBy orderDirection
  have e : PathListSort rnd nl ul [] orderBy orderDirection = [] := by
    unfold PathListSort
    split <;> rfl
  exact ⟨by rw [hsort, e], e⟩

end CasaOS
